import Mathlib

/-!
# qiushui HTTP server: router, request parser, response builder

A shallow embedding of `src/src/router.cpp`, `src/src/server.cpp` and the string helpers of
`src/src/utils.cpp`.

Conventions of the embedding:

* `std::string` is a list of characters (`Str`); a character stands for one byte.
* `std::map<std::string, std::string>` is an association list kept in ascending key order
  (`StrMap`), with `StrMap.insert` for `m[k] = v` and `StrMap.find` for `m.find(k)`.
* `std::regex` (ECMAScript grammar) is modelled by `Regex.compile` and `regex_match` on the
  pattern language that `pathToRegex` emits.
* A handler (`std::function<void(const HttpRequest&, HttpResponse&)>`) is a function that
  receives the request, the response object and the state of everything else it can reach,
  and reports how it left: by returning, by throwing a `std::exception`, or by throwing
  something else.
* The server object is the record of its members (`ApiServer`); the calls it makes into
  Winsock act on a record of the Winsock side of the process (`Winsock`).
* Writes to `std::cout` / `std::cerr` are not modelled.
-/

namespace Qiushui

/-! ## Strings and maps -/

/-- Byte strings (`std::string`). -/
abbrev Str := List Char

/-- Lexicographic `operator<` of `std::string`. -/
def strLt : Str → Str → Bool
  | [], [] => false
  | [], _ :: _ => true
  | _ :: _, [] => false
  | a :: as, b :: bs =>
    if a.toNat < b.toNat then true
    else if b.toNat < a.toNat then false
    else strLt as bs

/-- Contents of a `std::map<std::string, std::string>`, in iteration (ascending key) order. -/
abbrev StrMap := List (Str × Str)

/-- Assignment `m[k] = v`. -/
def StrMap.insert (k v : Str) : StrMap → StrMap
  | [] => [(k, v)]
  | (k', v') :: m =>
    if k = k' then (k, v) :: m
    else if strLt k k' then (k, v) :: (k', v') :: m
    else (k', v') :: StrMap.insert k v m

/-- Lookup `m.find(k)`: the mapped value, or `none` for `m.end()`. -/
def StrMap.find (k : Str) : StrMap → Option Str
  | [] => none
  | (k', v') :: m => if k = k' then some v' else StrMap.find k m

/-! ## Requests, responses, handlers -/

/-- Request record of `server.h`. -/
structure HttpRequest where
  method : Str
  path : Str
  query : Str
  body : Str
  headers : StrMap
  params : StrMap
  deriving DecidableEq, Repr

/-- Response record of `server.h`. -/
structure HttpResponse where
  statusCode : Int
  headers : StrMap
  body : Str
  deriving DecidableEq, Repr

/-- Default-constructed request: every member empty. -/
def HttpRequest.empty : HttpRequest :=
  { method := [], path := [], query := [], body := [], headers := [], params := [] }

/-- Constructor `HttpResponse::HttpResponse()`. -/
def HttpResponse.new : HttpResponse :=
  { statusCode := 200
    headers := StrMap.insert "Server".toList "APIManager/1.0".toList
      (StrMap.insert "Content-Type".toList "text/plain".toList [])
    body := [] }

/-- Method `HttpResponse::status`. -/
def HttpResponse.status (r : HttpResponse) (code : Int) : HttpResponse :=
  { r with statusCode := code }

/-- Method `HttpResponse::header`. -/
def HttpResponse.header (r : HttpResponse) (key value : Str) : HttpResponse :=
  { r with headers := StrMap.insert key value r.headers }

/-- Method `HttpResponse::json`. -/
def HttpResponse.json (r : HttpResponse) (jsonData : Str) : HttpResponse :=
  { r with headers := StrMap.insert "Content-Type".toList "application/json".toList r.headers
           body := jsonData }

/-- Method `HttpResponse::text`. -/
def HttpResponse.text (r : HttpResponse) (text : Str) : HttpResponse :=
  { r with headers := StrMap.insert "Content-Type".toList "text/plain".toList r.headers
           body := text }

/-- How a handler call ends. -/
inductive Exit where
  /-- The handler returned. -/
  | normal
  /-- The handler threw an object whose type derives from `std::exception`. -/
  | stdException
  /-- The handler threw an object of any other type. -/
  | otherThrow
  deriving DecidableEq, Repr

/-- Effect of a handler call: how it ended, the response object as it left it, and the state of
everything else the handler can reach (`σ`). -/
structure HandlerResult (σ : Type) where
  exit : Exit
  response : HttpResponse
  world : σ

/-- Handlers: `std::function<void(const HttpRequest&, HttpResponse&)>`. -/
abbrev Handler (σ : Type) := HttpRequest → HttpResponse → σ → HandlerResult σ

/-! ## Model of `std::regex` on the emitted pattern language -/

/-- Quantifier attached to an atom: none, `?` (greedy) or `??` (lazy). -/
inductive Quant where
  | one
  | opt
  | optLazy
  deriving DecidableEq, Repr

/-- Terms of a compiled pattern. -/
inductive Node where
  /-- Assertion `^`. -/
  | bol
  /-- Assertion `$`. -/
  | eol
  /-- A character matching itself (plain, or written as an identity escape). -/
  | chr (c : Char) (q : Quant)
  /-- The capturing group `([^/]+)`. -/
  | grp (q : Quant)
  deriving DecidableEq, Repr

/-- Compiled pattern: a sequence of terms (the emitted patterns have no alternation). -/
abbrev Regex := List Node

/-- The characters `pathToRegex` writes with a backslash: the ECMAScript syntax characters. -/
def isMeta (c : Char) : Bool :=
  c = '.' || c = '^' || c = '$' || c = '*' || c = '+' || c = '?' || c = '(' || c = ')' ||
  c = '[' || c = ']' || c = '\x7b' || c = '\x7d' || c = '\\' || c = '|'

/-- Apply a `?` to the term parsed last. `none` is `regex_error`: nothing to repeat, an
assertion, or a term that already carries `??`. -/
def quantify : List Node → Option (List Node)
  | Node.chr c Quant.one :: acc => some (Node.chr c Quant.opt :: acc)
  | Node.chr c Quant.opt :: acc => some (Node.chr c Quant.optLazy :: acc)
  | Node.grp Quant.one :: acc => some (Node.grp Quant.opt :: acc)
  | Node.grp Quant.opt :: acc => some (Node.grp Quant.optLazy :: acc)
  | _ => none

/-- Where the pattern parser stands: between terms, right after a backslash, or inside the
text `([^/]+)` with `seen` of its characters read. -/
inductive Mode where
  | top
  | esc
  | grp (seen : Nat)
  deriving DecidableEq, Repr

/-- Parser of `std::regex`, ECMAScript grammar, reading one character at a time, with the terms
parsed so far in `acc` (latest first). It reads assertions `^` `$`, plain characters, identity
escapes of syntax characters, the group `([^/]+)` and the quantifiers `?` and `??`. `none`
stands for a thrown `regex_error`; it is also the answer for constructs that `pathToRegex`
never writes (any other group, bracket, escape or operator). -/
def Regex.compileAux : Str → Mode → List Node → Option Regex
  | [], Mode.top, acc => some acc.reverse
  | [], Mode.esc, _ => none
  | [], Mode.grp _, _ => none
  | c :: rest, Mode.esc, acc =>
    if isMeta c then Regex.compileAux rest Mode.top (Node.chr c Quant.one :: acc) else none
  | c :: rest, Mode.grp seen, acc =>
    if "([^/]+)".toList[seen]? = some c then
      if seen = 6 then Regex.compileAux rest Mode.top (Node.grp Quant.one :: acc)
      else Regex.compileAux rest (Mode.grp (seen + 1)) acc
    else none
  | c :: rest, Mode.top, acc =>
    if c = '\\' then Regex.compileAux rest Mode.esc acc
    else if c = '(' then Regex.compileAux rest (Mode.grp 1) acc
    else if c = '?' then
      match quantify acc with
      | some acc' => Regex.compileAux rest Mode.top acc'
      | none => none
    else if c = '^' then Regex.compileAux rest Mode.top (Node.bol :: acc)
    else if c = '$' then Regex.compileAux rest Mode.top (Node.eol :: acc)
    else if isMeta c then none
    else Regex.compileAux rest Mode.top (Node.chr c Quant.one :: acc)

/-- Construction `std::regex(pattern)`; `none` when it throws `regex_error`. -/
def Regex.compile (pattern : Str) : Option Regex :=
  Regex.compileAux pattern Mode.top []

/-- Backtracking over the lengths of a `[^/]+` run, longest first: the group takes the first
`k` characters of `s`, for `k = n, n-1, ..., 1`, until the rest of the pattern (`cont`) matches
what is left. The capture is put in front of the captures of the rest. -/
def groupAlt (cont : Str → Option (List Str)) (s : Str) : Nat → Option (List Str)
  | 0 => none
  | k + 1 =>
    match cont (s.drop (k + 1)) with
    | some caps => some (s.take (k + 1) :: caps)
    | none => groupAlt cont s k

/-- Backtracking matcher in the priority order of ECMAScript: does the term sequence match
exactly the input `s`? `atStart` tells whether nothing has been consumed yet. The result lists
the text of each capture group, in order; a group that took no part in the match has the empty
text (`sub_match::str()`). -/
def matchNodes : List Node → Bool → Str → Option (List Str)
  | [], _, s => if s = [] then some [] else none
  | Node.bol :: ns, atStart, s => if atStart then matchNodes ns atStart s else none
  | Node.eol :: ns, atStart, s => if s = [] then matchNodes ns atStart s else none
  | Node.chr c q :: ns, atStart, s =>
    let taken : Option (List Str) :=
      match s with
      | d :: s' => if d = c then matchNodes ns false s' else none
      | [] => none
    let skipped : Option (List Str) := matchNodes ns atStart s
    match q with
    | Quant.one => taken
    | Quant.opt => taken.orElse fun _ => skipped
    | Quant.optLazy => skipped.orElse fun _ => taken
  | Node.grp q :: ns, atStart, s =>
    let taken : Option (List Str) :=
      groupAlt (matchNodes ns false) s (s.takeWhile fun d => d ≠ '/').length
    let skipped : Option (List Str) := (matchNodes ns atStart s).map fun caps => [] :: caps
    match q with
    | Quant.one => taken
    | Quant.opt => taken.orElse fun _ => skipped
    | Quant.optLazy => skipped.orElse fun _ => taken

/-- Call `std::regex_match(path, matches, re)`: `none` when there is no match, otherwise the
texts `matches[1].str()`, `matches[2].str()`, ... A default-constructed `std::regex`
(`re = none`) matches nothing. -/
def regex_match (s : Str) (re : Option Regex) : Option (List Str) :=
  match re with
  | some nodes => matchNodes nodes true s
  | none => none

/-! ## Router (`router.cpp`) -/

/-- Local variables of `Router::pathToRegex`, with the output parameter `paramNames`. -/
structure RegexBuild where
  regex : Str
  currentParam : Str
  inParam : Bool
  paramNames : List Str
  deriving DecidableEq, Repr

/-- The statements `paramNames.push_back(currentParam); regex += "([^/]+)";`. -/
def pushParam (st : RegexBuild) : RegexBuild :=
  { st with paramNames := st.paramNames ++ [st.currentParam]
            regex := st.regex ++ "([^/]+)".toList }

/-- One iteration of the loop of `Router::pathToRegex`, on the character `c`. -/
def pathToRegexStep (st : RegexBuild) (c : Char) : RegexBuild :=
  if c = ':' then
    { st with inParam := true, currentParam := [] }
  else if st.inParam = true ∧ (c = '/' ∨ c = '?' ∨ c = '#' ∨ c = '&') then
    let st1 : RegexBuild := if st.currentParam ≠ [] then pushParam st else st
    { st1 with inParam := false, regex := st1.regex ++ [c] }
  else if st.inParam = true then
    { st with currentParam := st.currentParam ++ [c] }
  else
    let r : Str := if isMeta c = true then st.regex ++ ['\\'] else st.regex
    { st with regex := r ++ [c] }

/-- The statements of `Router::pathToRegex` after the loop, before the final `$`. -/
def pathToRegexEnd (st : RegexBuild) : RegexBuild :=
  if st.inParam = true ∧ st.currentParam ≠ [] then pushParam st else st

/-- Function `Router::pathToRegex`: the pattern text and the extended `paramNames`. -/
def pathToRegex (path : Str) (paramNames : List Str) : Str × List Str :=
  let st := pathToRegexEnd (path.foldl pathToRegexStep
    { regex := "^".toList, currentParam := [], inParam := false, paramNames := paramNames })
  (st.regex ++ "$".toList, st.paramNames)

/-- Route record of `router.h`. `pathRegex = none` is the default-constructed `std::regex`. -/
structure Route (σ : Type) where
  method : Str
  path : Str
  pattern : Str
  pathRegex : Option Regex
  paramNames : List Str
  handler : Handler σ

/-- Constructor `Route::Route`: compile the template; when `std::regex` throws, keep the
template itself as `pattern`. -/
def Route.new {σ : Type} (method path : Str) (handler : Handler σ) : Route σ :=
  let compiled := pathToRegex path []
  match Regex.compile compiled.1 with
  | some re =>
    { method := method, path := path, pattern := compiled.1, pathRegex := some re
      paramNames := compiled.2, handler := handler }
  | none =>
    { method := method, path := path, pattern := path, pathRegex := none
      paramNames := compiled.2, handler := handler }

/-- Function `Router::matchPath`. -/
def matchPath {σ : Type} (path : Str) (route : Route σ) : Bool :=
  if route.pattern = route.path then decide (path = route.path)
  else (regex_match path route.pathRegex).isSome

/-- The loop of `Router::extractParams`: `params[paramNames[i]] = matches[i + 1].str()` while
both `paramNames[i]` and `matches[i + 1]` exist. -/
def extractLoop : List Str → List Str → StrMap → StrMap
  | name :: names, cap :: caps, params => extractLoop names caps (StrMap.insert name cap params)
  | _, _, params => params

/-- Function `Router::extractParams`: the returned flag and the updated `params`. -/
def extractParams {σ : Type} (path : Str) (route : Route σ) (params : StrMap) : Bool × StrMap :=
  if route.paramNames = [] then (true, params)
  else
    match regex_match path route.pathRegex with
    | some caps => (true, extractLoop route.paramNames caps params)
    | none => (false, params)

/-- What `Router::route` leaves behind: the returned flag (`none` when an exception left the
function instead), the request and response objects, and the state of the rest. -/
structure RouteResult (σ : Type) where
  returned : Option Bool
  request : HttpRequest
  response : HttpResponse
  world : σ

/-- The `try` block of `Router::route` once the handler call has ended with `h`: a normal
return and a caught `std::exception` both make `route` return `true`, the latter after
`response.status(500).text("Internal Server Error")`; any other thrown object leaves `route`
uncaught. `request1` is the request as the handler saw it. -/
def finishCall {σ : Type} (request1 : HttpRequest) (h : HandlerResult σ) : RouteResult σ :=
  match h.exit with
  | Exit.normal =>
    { returned := some true, request := request1, response := h.response, world := h.world }
  | Exit.stdException =>
    { returned := some true, request := request1
      response := (h.response.status 500).text "Internal Server Error".toList
      world := h.world }
  | Exit.otherThrow =>
    { returned := none, request := request1, response := h.response, world := h.world }

/-- The body of the `if` in the loop of `Router::route`, for the selected route `r`: extract
the path parameters into `request.params`, then call the handler. -/
def dispatch {σ : Type} (r : Route σ) (path : Str) (request : HttpRequest)
    (response : HttpResponse) (w : σ) : RouteResult σ :=
  let request1 : HttpRequest :=
    { request with params := (extractParams path r request.params).2 }
  finishCall request1 (r.handler request1 response w)

/-- The `for` loop of `Router::route` over the routes still to be tried. -/
def routeLoop {σ : Type} : List (Route σ) → Str → Str → HttpRequest → HttpResponse → σ →
    RouteResult σ
  | [], _, _, request, response, w =>
    { returned := some false, request := request, response := response, world := w }
  | r :: rest, method, path, request, response, w =>
    if r.method = method ∧ matchPath path r = true then dispatch r path request response w
    else routeLoop rest method path request response w

/-- Router object: the route table `routes_`. -/
structure Router (σ : Type) where
  routes_ : List (Route σ)

/-- Constructor `Router::Router`. -/
def Router.new {σ : Type} : Router σ := { routes_ := [] }

/-- Method `Router::addRoute`. -/
def Router.addRoute {σ : Type} (self : Router σ) (method path : Str) (handler : Handler σ) :
    Router σ :=
  { routes_ := self.routes_ ++ [Route.new method path handler] }

/-- Method `Router::route`: the router after the call and what the call left behind. -/
def Router.route {σ : Type} (self : Router σ) (method path : Str) (request : HttpRequest)
    (response : HttpResponse) (w : σ) : Router σ × RouteResult σ :=
  (self, routeLoop self.routes_ method path request response w)

/-! ## String helpers (`utils.cpp`) and stream reads -/

/-- Classification `isspace` of the "C" locale, which `operator>>` uses to delimit tokens. -/
def isSpace (c : Char) : Bool :=
  c = ' ' || c = '\t' || c = '\n' || c = '\x0b' || c = '\x0c' || c = '\r'

/-- Read `stream >> token` on a stream holding `s`: skip leading whitespace, then take
characters up to the next whitespace or the end. Gives the token (empty when the read fails)
and what is left in the stream. -/
def extractToken (s : Str) : Str × Str :=
  let s1 := s.dropWhile isSpace
  (s1.takeWhile fun c => !isSpace c, s1.dropWhile fun c => !isSpace c)

/-- The strings that successive calls `std::getline(stream, line, delim)` deliver on a stream
holding `s`, until the call fails (which it does exactly when nothing is left). -/
def getlineAll (delim : Char) : Str → List Str
  | [] => []
  | c :: cs =>
    if c = delim then [] :: getlineAll delim cs
    else
      match getlineAll delim cs with
      | [] => [[c]]
      | l :: ls => (c :: l) :: ls

/-- Function `Utils::split`: the non-empty `getline` tokens. -/
def Utils.split (str : Str) (delimiter : Char) : List Str :=
  (getlineAll delimiter str).filter fun token => token ≠ []

/-- Member `std::string::find(c)`: the first index of `c`, or `none` for `npos`. -/
def Str.find (c : Char) : Str → Option Nat
  | [] => none
  | d :: s => if d = c then some 0 else (Str.find c s).map fun i => i + 1

/-- Function `::tolower` of the "C" locale. -/
def tolower (c : Char) : Char :=
  if 65 ≤ c.toNat ∧ c.toNat ≤ 90 then Char.ofNat (c.toNat + 32) else c

/-- Function `Utils::toLower`. -/
def Utils.toLower (str : Str) : Str :=
  str.map tolower

/-- Value of a hexadecimal digit. -/
def hexDigit (c : Char) : Option Nat :=
  if 48 ≤ c.toNat ∧ c.toNat ≤ 57 then some (c.toNat - 48)
  else if 97 ≤ c.toNat ∧ c.toNat ≤ 102 then some (c.toNat - 87)
  else if 65 ≤ c.toNat ∧ c.toNat ≤ 70 then some (c.toNat - 55)
  else none

/-- Read `iss >> std::hex >> value` on a stream holding the two characters `x y`: leading
whitespace is skipped, a sign is accepted, digits are read as far as they go, and a failed read
stores zero. -/
def readHex2 (x y : Char) : Int :=
  if isSpace x then ((hexDigit y).getD 0 : Nat)
  else if x = '+' then ((hexDigit y).getD 0 : Nat)
  else if x = '-' then -((hexDigit y).getD 0 : Nat)
  else
    match hexDigit x with
    | none => 0
    | some a =>
      match hexDigit y with
      | none => (a : Nat)
      | some b => ((16 * a + b : Nat) : Int)

/-- Conversion `static_cast<char>(value)`: the low eight bits. -/
def toByte (value : Int) : Char :=
  Char.ofNat (value % 256).toNat

/-- Function `Utils::urlDecode`. -/
def Utils.urlDecode : Str → Str
  | [] => []
  | c :: rest =>
    let plain : Str := (if c = '+' then ' ' else c) :: Utils.urlDecode rest
    if c = '%' then
      match rest with
      | x :: y :: rest' => toByte (readHex2 x y) :: Utils.urlDecode rest'
      | _ => plain
    else plain

/-- Classification `isalnum` of the "C" locale: the ASCII digits and letters; no byte above 127
is in the class. -/
def isalnum (c : Char) : Bool :=
  (48 ≤ c.toNat ∧ c.toNat ≤ 57) || (65 ≤ c.toNat ∧ c.toNat ≤ 90) ||
  (97 ≤ c.toNat ∧ c.toNat ≤ 122)

/-- Conversion `int((unsigned char)c)`: the value of the byte, from 0 to 255. -/
def unsignedByte (c : Char) : Nat :=
  c.toNat % 256

/-- Output `stream << std::setw(width) << value` of a non-negative `int` on a stream set to
`std::hex` with the fill character `fill`: the hexadecimal digits, in lower case, with fill
characters in front up to the width. -/
def putHex (fill : Char) (width : Nat) (value : Nat) : Str :=
  List.replicate (width - (Nat.toDigits 16 value).length) fill ++ Nat.toDigits 16 value

/-- One iteration of the loop of `Utils::urlEncode`: what the stream `escaped` holds after the
character `c`. -/
def urlEncodeStep (escaped : Str) (c : Char) : Str :=
  if isalnum c || c = '-' || c = '_' || c = '.' || c = '~' then escaped ++ [c]
  else escaped ++ ['%'] ++ putHex '0' 2 (unsignedByte c)

/-- Function `Utils::urlEncode`. -/
def Utils.urlEncode (str : Str) : Str :=
  str.foldl urlEncodeStep []

/-! ## Response builder and request parser (`server.cpp`) -/

/-- The `switch` of `HttpResponse::toString`. -/
def statusText (statusCode : Int) : Str :=
  if statusCode = 200 then "OK".toList
  else if statusCode = 201 then "Created".toList
  else if statusCode = 400 then "Bad Request".toList
  else if statusCode = 404 then "Not Found".toList
  else if statusCode = 500 then "Internal Server Error".toList
  else "Unknown".toList

/-- Decimal text of an `int`, as `operator<<` writes it. -/
def decimal : Int → Str
  | Int.ofNat n => Nat.toDigits 10 n
  | Int.negSucc n => '-' :: Nat.toDigits 10 (n + 1)

/-- The header lines of `HttpResponse::toString`, in map order. -/
def headerLines : StrMap → Str
  | [] => []
  | (k, v) :: m => k ++ ": ".toList ++ v ++ "\r\n".toList ++ headerLines m

/-- Method `HttpResponse::toString`. -/
def HttpResponse.toString (r : HttpResponse) : Str :=
  "HTTP/1.1 ".toList ++ decimal r.statusCode ++ " ".toList ++ statusText r.statusCode ++
    "\r\n".toList ++
  headerLines r.headers ++
  "Content-Length: ".toList ++ decimal (r.body.length : Nat) ++ "\r\n".toList ++
  "\r\n".toList ++ r.body

/-- Function `ApiServer::parseUrl`: the pair `(path, query)`. -/
def parseUrl (url : Str) : Str × Str :=
  match Str.find '?' url with
  | some queryPos => (url.take queryPos, url.drop (queryPos + 1))
  | none => (url, [])

/-- The loop of `ApiServer::parseQueryString` over the pieces of the query. -/
def queryLoop : List Str → StrMap → StrMap
  | [], params => params
  | pair :: pairs, params =>
    match Str.find '=' pair with
    | some equalPos =>
      queryLoop pairs
        (StrMap.insert (Utils.urlDecode (pair.take equalPos))
          (Utils.urlDecode (pair.drop (equalPos + 1))) params)
    | none => queryLoop pairs params

/-- Function `ApiServer::parseQueryString`. -/
def parseQueryString (query : Str) : StrMap :=
  if query = [] then []
  else queryLoop (Utils.split query '&') []

/-- The header loop of `ApiServer::parseRequest` over the lines still in the stream: the
headers and the lines left for the body. -/
def headerLoop : List Str → StrMap → StrMap × List Str
  | [], headers => (headers, [])
  | line :: lines, headers =>
    if line = ['\r'] ∨ line = [] then (headers, lines)
    else
      let line1 : Str := if line.getLast? = some '\r' then line.dropLast else line
      match Str.find ':' line1 with
      | some colonPos =>
        let key := line1.take colonPos
        let value := line1.drop (colonPos + 1)
        let value1 := value.dropWhile fun c => c = ' ' || c = '\t'
        headerLoop lines (StrMap.insert (Utils.toLower key) value1 headers)
      | none => headerLoop lines headers

/-- The body loop of `ApiServer::parseRequest`: `body += line + "\n"` for each line left. -/
def bodyLoop : List Str → Str
  | [] => []
  | line :: lines => line ++ '\n' :: bodyLoop lines

/-- Function `ApiServer::parseRequest`. -/
def parseRequest (requestData : Str) : HttpRequest :=
  match getlineAll '\n' requestData with
  | [] => HttpRequest.empty
  | line :: lines =>
    let method := extractToken line
    let url := extractToken method.2
    let pq := parseUrl url.1
    let hs := headerLoop lines []
    let body := bodyLoop hs.2
    { method := method.1
      path := pq.1
      query := pq.2
      params := parseQueryString pq.2
      headers := hs.1
      body := if body ≠ [] then body.take (body.length - 1) else [] }

/-- Function `ApiServer::handleClient` on a connection that delivers the bytes `incoming`:
the bytes sent back (`none` when nothing is sent) and the state the handlers leave.
`recv` fills at most 4095 bytes of the buffer and `std::string(buffer)` stops at the first
zero byte. -/
def handleClient {σ : Type} (router : Router σ) (incoming : Str) (w : σ) : Option Str × σ :=
  let received := incoming.take 4095
  if 0 < received.length then
    let requestData := received.takeWhile fun c => c ≠ '\x00'
    let request := parseRequest requestData
    let response := HttpResponse.new
    let res := (router.route request.method request.path request response w).2
    match res.returned with
    | some true => (some res.response.toString, res.world)
    | some false =>
      (some ((res.response.status 404).text "404 Not Found".toList).toString, res.world)
    | none => (none, res.world)
  else (none, w)

/-- Method `HttpRequest::getQueryParam` ("get the query parameter" in `server.h`): it searches
`headers`. -/
def HttpRequest.getQueryParam (self : HttpRequest) (key : Str) : Str :=
  match StrMap.find key self.headers with
  | some value => value
  | none => []

/-- Method `HttpRequest::getHeader`. -/
def HttpRequest.getHeader (self : HttpRequest) (key : Str) : Str :=
  match StrMap.find key self.headers with
  | some value => value
  | none => []

/-- Method `HttpRequest::getParam`. -/
def HttpRequest.getParam (self : HttpRequest) (key : Str) : Str :=
  match StrMap.find key self.params with
  | some value => value
  | none => []

/-! ## Server life cycle (`server.cpp`) -/

/-- The Winsock side of the process as far as `ApiServer` acts on it: the number of
successful `WSAStartup` calls not yet balanced by `WSACleanup`, and the handles of the open
sockets. -/
structure Winsock where
  startups : Nat
  openSockets : List Nat
  deriving DecidableEq, Repr

/-- Call `closesocket(s)`; an error code for a handle that is not open is ignored. -/
def closesocket (s : Nat) (e : Winsock) : Winsock :=
  { e with openSockets := e.openSockets.erase s }

/-- Call `WSACleanup()`: an error code when Winsock is not started (ignored by the caller), one
start-up less otherwise, and the last one closes the sockets that are still open. -/
def WSACleanup (e : Winsock) : Winsock :=
  if e.startups = 0 then e
  else if e.startups = 1 then { startups := 0, openSockets := [] }
  else { e with startups := e.startups - 1 }

/-- Members of `ApiServer` (`database_` and the unused `serverThread_` are left out; no
function modelled here reads or writes them). `serverSocket_ = none` is `INVALID_SOCKET`. -/
structure ApiServer (σ : Type) where
  host_ : Str
  port_ : Int
  running_ : Bool
  router_ : Router σ
  serverSocket_ : Option Nat

/-- Constructor `ApiServer::ApiServer`. -/
def ApiServer.new {σ : Type} (host : Str) (port : Int) : ApiServer σ :=
  { host_ := host, port_ := port, running_ := false, router_ := Router.new
    serverSocket_ := none }

/-- Method `ApiServer::cleanupWinsock`. -/
def ApiServer.cleanupWinsock (e : Winsock) : Winsock :=
  WSACleanup e

/-- Method `ApiServer::stop`: the server and the Winsock side after the call. -/
def ApiServer.stop {σ : Type} (self : ApiServer σ) (e : Winsock) : ApiServer σ × Winsock :=
  let self1 : ApiServer σ := { self with running_ := false }
  match self1.serverSocket_ with
  | some s =>
    ({ self1 with serverSocket_ := none }, ApiServer.cleanupWinsock (closesocket s e))
  | none => (self1, ApiServer.cleanupWinsock e)

/-- Method `ApiServer::get`. -/
def ApiServer.get {σ : Type} (self : ApiServer σ) (path : Str) (handler : Handler σ) :
    ApiServer σ :=
  { self with router_ := self.router_.addRoute "GET".toList path handler }

/-! ## Auxiliary notions used in statements -/

/-- The text `pathToRegex` writes for a run of template characters outside a parameter
marker: every syntax character gets a backslash in front. -/
def escaped : Str → Str
  | [] => []
  | c :: cs => (if isMeta c then ['\\', c] else [c]) ++ escaped cs

/-- The terms of a run of characters that match themselves. -/
def literals (l : Str) : List Node :=
  l.map fun c => Node.chr c Quant.one

/-- Number of capture groups among the terms of a pattern (`mark_count`). -/
def groupCount : List Node → Nat
  | [] => 0
  | Node.grp _ :: ns => groupCount ns + 1
  | _ :: ns => groupCount ns

/-- How the parser sees a prefix `regex` of an emitted pattern that goes with the parameter
names `names`: either it has failed for good, or it stands between two terms, having read as
many groups as there are names. -/
def ParsedAs (regex : Str) (names : List Str) : Prop :=
  (∀ rest, Regex.compileAux (regex ++ rest) Mode.top [] = none) ∨
  ∃ acc, (∀ rest, Regex.compileAux (regex ++ rest) Mode.top [] =
      Regex.compileAux rest Mode.top acc) ∧ groupCount acc = names.length

/-- Spec wording (4.3, query string): what one `&`-separated piece adds to the parameters.
A piece with an `=` is split at its first `=` and both sides are percent-decoded; a piece
without `=` is skipped. -/
def specStorePiece (params : StrMap) (piece : Str) : StrMap :=
  if '=' ∈ piece then
    StrMap.insert (Utils.urlDecode (piece.takeWhile fun c => c ≠ '='))
      (Utils.urlDecode ((piece.dropWhile fun c => c ≠ '=').drop 1)) params
  else params

/-- Spec wording (4.3, headers): a line of the header block, that is, a line that is not
blank; a blank line is empty or a lone carriage return. -/
def isHeaderLine (l : Str) : Bool :=
  decide (l ≠ [] ∧ l ≠ ['\r'])

/-- Spec wording (4.3, headers): the header block among the lines that follow the request
line: the lines up to the first blank line. -/
def headerBlock (lines : List Str) : List Str :=
  lines.takeWhile isHeaderLine

/-- Spec wording (4.3, body): the lines that follow the blank line ending the header block. -/
def bodyLines (lines : List Str) : List Str :=
  (lines.dropWhile isHeaderLine).drop 1

/-- A line without its trailing carriage return, if it has one. -/
def chomp (l : Str) : Str :=
  if l.getLast? = some '\r' then l.dropLast else l

/-- Spec wording (4.3, headers): what one header line adds to the headers. A line with a
colon is split at its first colon, the key is lower-cased and the value loses its leading
spaces and tabs; a line without a colon adds nothing. -/
def specStoreHeader (headers : StrMap) (l : Str) : StrMap :=
  if ':' ∈ chomp l then
    StrMap.insert (Utils.toLower ((chomp l).takeWhile fun c => c ≠ ':'))
      ((((chomp l).dropWhile fun c => c ≠ ':').drop 1).dropWhile fun c => c = ' ' || c = '\t')
      headers
  else headers

/-- Spec wording (4.3, body): a text without its final newline, if it ends in one. -/
def dropFinalNewline (text : Str) : Str :=
  if text.getLast? = some '\n' then text.dropLast else text

/-- The invariant of a `std::map`: the keys are strictly ascending along the iteration order
(every earlier key is below every later one). -/
def StrMap.Ordered (m : StrMap) : Prop :=
  List.Pairwise (fun a b => strLt a.1 b.1 = true) m

/-- Member `std::string::substr(pos, len)` with its range check: `none` stands for the
`std::out_of_range` it throws when `pos > size()`; `len = none` is the default `npos`. -/
def Str.substr? (s : Str) (pos : Nat) (len : Option Nat) : Option Str :=
  if pos ≤ s.length then
    match len with
    | some n => some ((s.drop pos).take n)
    | none => some (s.drop pos)
  else none

/-- The characters that end a parameter name: `/`, `?`, `#`, `&`. -/
def isDelim (c : Char) : Bool :=
  c = '/' || c = '?' || c = '#' || c = '&'

/-- Spec wording (4.1): the name of the marker whose `':'` is followed by `rest`: the run of
characters up to the next `/`, `?`, `#`, `&` or the end of the string. -/
def specMarkerName (rest : Str) : Str :=
  rest.takeWhile fun c => !isDelim c

/-- Spec wording (4.1): the non-empty names of the parameter markers of a template, in the
order of appearance; every `':'` starts a marker. -/
def specMarkerNames : Str → List Str
  | [] => []
  | c :: rest =>
    if c = ':' then
      (if specMarkerName rest ≠ [] then [specMarkerName rest] else []) ++ specMarkerNames rest
    else specMarkerNames rest

/-- No parameter name of the template contains a `':'`: the run that follows each `':'`, up to
the next `/`, `?`, `#`, `&` or the end, has no further `':'`. -/
def namesColonFree : Str → Bool
  | [] => true
  | c :: rest =>
    (if c = ':' then decide (':' ∉ specMarkerName rest) else true) && namesColonFree rest

/-- Pieces of the text of an emitted pattern. -/
inductive Tok where
  /-- A character written as it is. -/
  | chr (c : Char)
  /-- A character written with a backslash in front. -/
  | esc (c : Char)
  /-- The group `([^/]+)`, written together with the parameter name `name`. -/
  | group (name : Str)
  deriving DecidableEq, Repr

/-- The text of a piece. -/
def Tok.render : Tok → Str
  | Tok.chr c => [c]
  | Tok.esc c => ['\\', c]
  | Tok.group _ => "([^/]+)".toList

/-- The parameter name that came with a piece, if it is a group. -/
def Tok.name : Tok → Option Str
  | Tok.group name => some name
  | _ => none

/-- What `pathToRegex` keeps to: a character written as it is is no `:` and no syntax
character, unless it is a `?` (one that ends a parameter name); a backslash is put in front of
syntax characters only; and the name of a group is not empty. -/
def Tok.ok : Tok → Prop
  | Tok.chr c => (isMeta c = false ∨ c = '?') ∧ c ≠ ':'
  | Tok.esc c => isMeta c = true
  | Tok.group name => name ≠ []

/-- The text of a sequence of pieces. -/
def renderToks : List Tok → Str
  | [] => []
  | tok :: toks => tok.render ++ renderToks toks

/-- Number of the `(` of a pattern text that are not escaped; `afterBackslash` tells whether
the character before was an escaping backslash. -/
def unescapedParens : Bool → Str → Nat
  | _, [] => 0
  | true, _ :: rest => unescapedParens false rest
  | false, c :: rest =>
    if c = '\\' then unescapedParens true rest
    else (if c = '(' then 1 else 0) + unescapedParens false rest

/-- The pattern prefix `regex` and the names `names` as a sequence of well-formed pieces after
the leading `^`, the names being those of its groups, in order. -/
def EmittedAs (regex : Str) (names : List Str) : Prop :=
  ∃ toks : List Tok, regex = '^' :: renderToks toks ∧ (∀ tok ∈ toks, tok.ok) ∧
    names = toks.filterMap Tok.name

/-- The ASCII letters `a` to `z` and `A` to `Z`. -/
def isAsciiLetter (c : Char) : Bool :=
  ('a'.toNat ≤ c.toNat ∧ c.toNat ≤ 'z'.toNat) || ('A'.toNat ≤ c.toNat ∧ c.toNat ≤ 'Z'.toNat)

/-- The ASCII digits `0` to `9`. -/
def isAsciiDigit (c : Char) : Bool :=
  '0'.toNat ≤ c.toNat ∧ c.toNat ≤ '9'.toNat

/-- The lower-case hexadecimal digit of a value below sixteen. -/
def specHexDigit (n : Nat) : Char :=
  "0123456789abcdef".toList.getD n '0'

/-- The encoding of one byte in words: an ASCII letter, a digit and `-` `_` `.` `~` stay; any
other byte becomes `%` and the two lower-case hexadecimal digits of its value. -/
def specEncodeByte (c : Char) : Str :=
  if isAsciiLetter c || isAsciiDigit c || c = '-' || c = '_' || c = '.' || c = '~' then [c]
  else ['%', specHexDigit (c.toNat / 16), specHexDigit (c.toNat % 16)]

/-- The map `params` updated with `names[i] -> caps[i]` for every `i` for which both exist,
for `i = 0, 1, ...` in this order. -/
def specUpdateParams (names caps : List Str) (params : StrMap) : StrMap :=
  (names.zip caps).foldl (fun m nc => StrMap.insert nc.1 nc.2 m) params

/-- The local variables of `Router::pathToRegex`, called with an empty `paramNames`, when its
loop has read the characters `read` of the template. -/
def pathToRegexLoop (read : Str) : RegexBuild :=
  read.foldl pathToRegexStep
    { regex := "^".toList, currentParam := [], inParam := false, paramNames := [] }

/-- Every name of `names` was pushed together with a group of `regex`, while the loop of
`pathToRegex` read `read`. For the name at index `i` there is a marker `:name` of `read`,
followed by a delimiter (or, unless `inLoop`, by the end of `read`), such that the loop, having
read up to the end of that marker, is inside a parameter with `currentParam = name`, has pushed
the `i` names before it and has written a text with `i` groups, and `regex` goes on with
`([^/]+)` right there. -/
def PushedTogether (inLoop : Bool) (read regex : Str) (names : List Str) : Prop :=
  ∀ (i : Nat) (name : Str), names[i]? = some name →
    ∃ tpre tpost ppost : Str,
      read = tpre ++ ':' :: (name ++ tpost) ∧
      ((inLoop = false ∧ tpost = []) ∨ ∃ d rest, tpost = d :: rest ∧ isDelim d = true) ∧
      name ≠ [] ∧ (∀ c ∈ name, c ≠ ':' ∧ isDelim c = false) ∧
      (pathToRegexLoop (tpre ++ ':' :: name)).inParam = true ∧
      (pathToRegexLoop (tpre ++ ':' :: name)).currentParam = name ∧
      (pathToRegexLoop (tpre ++ ':' :: name)).paramNames = names.take i ∧
      regex = (pathToRegexLoop (tpre ++ ':' :: name)).regex ++ "([^/]+)".toList ++ ppost ∧
      unescapedParens false (pathToRegexLoop (tpre ++ ':' :: name)).regex = i ∧
      unescapedParens false
        ((pathToRegexLoop (tpre ++ ':' :: name)).regex ++ "([^/]+)".toList) = i + 1

/-! ## Handlers used in examples -/

/-- A handler that records its call by appending `n` to the state and returns. -/
def logCall (n : Nat) : Handler (List Nat) :=
  fun _ response w => { exit := Exit.normal, response := response, world := w ++ [n] }

/-- A handler that sets status 201 and a body, then throws a `std::exception`. -/
def throwStd : Handler Unit :=
  fun _ response w =>
    { exit := Exit.stdException
      response := (response.status 201).text "partial".toList
      world := w }

/-- A handler that throws an object that is not a `std::exception` (as in `throw 42;`). -/
def throwOther : Handler Unit :=
  fun _ response w => { exit := Exit.otherThrow, response := response, world := w }

/-- A handler that returns at once. -/
def noop : Handler Unit :=
  fun _ response w => { exit := Exit.normal, response := response, world := w }

/-! ## Lemmas: maps -/

theorem StrMap.find_insert_self (k v : Str) (m : StrMap) :
    StrMap.find k (StrMap.insert k v m) = some v := by
  induction m with
  | nil => simp [StrMap.insert, StrMap.find]
  | cons kv m ih =>
    obtain ⟨k', v'⟩ := kv
    unfold StrMap.insert
    by_cases h : k = k'
    · simp [h, StrMap.find]
    · by_cases h2 : strLt k k' = true
      · simp [h, h2, StrMap.find]
      · simp [h, h2, StrMap.find, ih]

theorem StrMap.find_insert_of_ne (j k v : Str) (m : StrMap) (hne : j ≠ k) :
    StrMap.find j (StrMap.insert k v m) = StrMap.find j m := by
  induction m with
  | nil => simp [StrMap.insert, StrMap.find, hne]
  | cons kv m ih =>
    obtain ⟨k', v'⟩ := kv
    unfold StrMap.insert
    by_cases h : k = k'
    · subst h
      simp [StrMap.find, hne]
    · by_cases h2 : strLt k k' = true
      · simp [h, h2, StrMap.find, hne]
      · simp [h, h2, StrMap.find, ih]

/-! ## Lemmas: the route loop -/

theorem routeLoop_of_no_match {σ : Type} (routes : List (Route σ)) (method path : Str)
    (request : HttpRequest) (response : HttpResponse) (w : σ)
    (hno : ∀ r ∈ routes, ¬(r.method = method ∧ matchPath path r = true)) :
    routeLoop routes method path request response w =
      { returned := some false, request := request, response := response, world := w } := by
  induction routes with
  | nil => rfl
  | cons r rest ih =>
    have hr := hno r (List.mem_cons_self r rest)
    have hrest : ∀ r' ∈ rest, ¬(r'.method = method ∧ matchPath path r' = true) :=
      fun r' hr' => hno r' (List.mem_cons_of_mem r hr')
    simp only [routeLoop, if_neg hr]
    exact ih hrest

theorem routeLoop_of_first {σ : Type} (routes : List (Route σ)) (method path : Str)
    (request : HttpRequest) (response : HttpResponse) (w : σ)
    (i : Nat) (r : Route σ) (hr : routes[i]? = some r)
    (hsel : r.method = method ∧ matchPath path r = true)
    (hmin : ∀ (j : Nat) (r' : Route σ), j < i → routes[j]? = some r' →
      ¬(r'.method = method ∧ matchPath path r' = true)) :
    routeLoop routes method path request response w = dispatch r path request response w := by
  induction routes generalizing i with
  | nil => simp at hr
  | cons r0 rest ih =>
    cases i with
    | zero =>
      have h0 : r0 = r := by simpa using hr
      subst h0
      simp only [routeLoop, if_pos hsel]
    | succ i =>
      have hr0 : ¬(r0.method = method ∧ matchPath path r0 = true) :=
        hmin 0 r0 (Nat.zero_lt_succ i) (by simp)
      simp only [routeLoop, if_neg hr0]
      have hr' : rest[i]? = some r := by simpa using hr
      refine ih i hr' ?_
      intro j r' hji hj
      exact hmin (j + 1) r' (Nat.succ_lt_succ hji) (by simpa using hj)

/-! ## Lemmas: `pathToRegex` on runs of characters -/

theorem foldl_step_literal (l : Str) (st : RegexBuild) (hin : st.inParam = false)
    (hl : ':' ∉ l) :
    l.foldl pathToRegexStep st = { st with regex := st.regex ++ escaped l } := by
  induction l generalizing st with
  | nil => simp [escaped]
  | cons c cs ih =>
    have hc : c ≠ ':' := fun h => hl (by simp [h])
    have hcs : ':' ∉ cs := fun h => hl (List.mem_cons_of_mem c h)
    obtain ⟨regex, currentParam, inParam, paramNames⟩ := st
    simp only at hin
    subst hin
    rw [List.foldl_cons]
    have hstep : pathToRegexStep
        { regex := regex, currentParam := currentParam, inParam := false,
          paramNames := paramNames } c =
        { regex := regex ++ (if isMeta c then ['\\', c] else [c]),
          currentParam := currentParam, inParam := false, paramNames := paramNames } := by
      unfold pathToRegexStep
      by_cases hm : isMeta c = true <;> simp [hc, hm]
    rw [hstep, ih _ rfl hcs]
    simp [escaped, List.append_assoc]

theorem foldl_step_name (name : Str) (st : RegexBuild) (hin : st.inParam = true)
    (hname : ∀ c ∈ name, c ≠ ':' ∧ c ≠ '/' ∧ c ≠ '?' ∧ c ≠ '#' ∧ c ≠ '&') :
    name.foldl pathToRegexStep st =
      { st with currentParam := st.currentParam ++ name } := by
  induction name generalizing st with
  | nil => simp
  | cons c cs ih =>
    obtain ⟨h1, h2, h3, h4, h5⟩ := hname c (List.mem_cons_self c cs)
    have hcs : ∀ d ∈ cs, d ≠ ':' ∧ d ≠ '/' ∧ d ≠ '?' ∧ d ≠ '#' ∧ d ≠ '&' :=
      fun d hd => hname d (List.mem_cons_of_mem c hd)
    obtain ⟨regex, currentParam, inParam, paramNames⟩ := st
    simp only at hin
    subst hin
    rw [List.foldl_cons]
    have hstep : pathToRegexStep
        { regex := regex, currentParam := currentParam, inParam := true,
          paramNames := paramNames } c =
        { regex := regex, currentParam := currentParam ++ [c], inParam := true,
          paramNames := paramNames } := by
      unfold pathToRegexStep
      simp [h1, h2, h3, h4, h5]
    rw [hstep, ih _ rfl hcs]
    simp [List.append_assoc]

theorem pathToRegex_trailing_param (l name : Str) (names : List Str) (hl : ':' ∉ l)
    (hne : name ≠ [])
    (hname : ∀ c ∈ name, c ≠ ':' ∧ c ≠ '/' ∧ c ≠ '?' ∧ c ≠ '#' ∧ c ≠ '&') :
    pathToRegex (l ++ ':' :: name) names =
      ('^' :: (escaped l ++ "([^/]+)$".toList), names ++ [name]) := by
  unfold pathToRegex
  rw [List.foldl_append, foldl_step_literal l _ rfl hl, List.foldl_cons]
  have hcolon : ∀ st : RegexBuild, pathToRegexStep st ':' =
      { st with inParam := true, currentParam := [] } := by
    intro st
    simp [pathToRegexStep]
  rw [hcolon, foldl_step_name name _ rfl hname]
  simp [pathToRegexEnd, pushParam, hne]

theorem colon_not_mem_escaped (l : Str) (hl : ':' ∉ l) : ':' ∉ escaped l := by
  induction l with
  | nil => simp [escaped]
  | cons c cs ih =>
    have hc : ':' ≠ c := fun h => hl (by rw [← h]; exact List.mem_cons_self _ _)
    have hcs : ':' ∉ cs := fun h => hl (List.mem_cons_of_mem c h)
    unfold escaped
    by_cases hm : isMeta c = true
    · simp [hm, hc, ih hcs]
    · simp [hm, hc, ih hcs]

/-! ## Lemmas: the pattern parser -/

theorem compileAux_group (rest : Str) (acc : List Node) :
    Regex.compileAux ("([^/]+)".toList ++ rest) Mode.top acc =
      Regex.compileAux rest Mode.top (Node.grp Quant.one :: acc) := by
  show Regex.compileAux ('(' :: '[' :: '^' :: '/' :: ']' :: '+' :: ')' :: rest) Mode.top acc = _
  simp [Regex.compileAux]

theorem compileAux_plain (c : Char) (rest : Str) (acc : List Node) (hm : isMeta c = false) :
    Regex.compileAux (c :: rest) Mode.top acc =
      Regex.compileAux rest Mode.top (Node.chr c Quant.one :: acc) := by
  have hm' := hm
  simp only [isMeta, Bool.or_eq_false_iff, decide_eq_false_iff_not] at hm'
  obtain ⟨⟨⟨⟨⟨⟨⟨⟨⟨⟨⟨⟨⟨_, h2⟩, h3⟩, _⟩, _⟩, h6⟩, h7⟩, _⟩, _⟩, _⟩, _⟩, _⟩, h13⟩, _⟩ := hm'
  rw [Regex.compileAux]
  simp only [if_neg h13, if_neg h7, if_neg h6, if_neg h2, if_neg h3, hm]
  simp

theorem compileAux_escape (c : Char) (rest : Str) (acc : List Node) (hm : isMeta c = true) :
    Regex.compileAux ('\\' :: c :: rest) Mode.top acc =
      Regex.compileAux rest Mode.top (Node.chr c Quant.one :: acc) := by
  rw [Regex.compileAux]
  simp only [if_true]
  rw [Regex.compileAux]
  simp only [hm, if_true]

theorem compileAux_escaped (l rest : Str) (acc : List Node) :
    Regex.compileAux (escaped l ++ rest) Mode.top acc =
      Regex.compileAux rest Mode.top ((literals l).reverse ++ acc) := by
  induction l generalizing acc with
  | nil => simp [escaped, literals]
  | cons c cs ih =>
    by_cases hm : isMeta c = true
    · have : escaped (c :: cs) ++ rest = '\\' :: c :: (escaped cs ++ rest) := by
        rw [escaped, if_pos hm]
        rfl
      rw [this, compileAux_escape c _ acc hm, ih]
      simp [literals]
    · have hm' : isMeta c = false := by simpa using hm
      have : escaped (c :: cs) ++ rest = c :: (escaped cs ++ rest) := by
        rw [escaped, if_neg hm]
        rfl
      rw [this, compileAux_plain c _ acc hm', ih]
      simp [literals]

theorem compile_trailing_param (l : Str) :
    Regex.compile ('^' :: (escaped l ++ "([^/]+)$".toList)) =
      some (Node.bol :: (literals l ++ [Node.grp Quant.one, Node.eol])) := by
  unfold Regex.compile
  have h1 : ∀ (rest : Str) (acc : List Node),
      Regex.compileAux ('^' :: rest) Mode.top acc =
        Regex.compileAux rest Mode.top (Node.bol :: acc) := by
    intro rest acc
    rw [Regex.compileAux]
    simp
  have h2 : ∀ acc : List Node, Regex.compileAux "([^/]+)$".toList Mode.top acc =
      some ((Node.eol :: Node.grp Quant.one :: acc).reverse) := by
    intro acc
    rfl
  rw [h1, compileAux_escaped, h2]
  simp

/-! ## Lemmas: the matcher -/

theorem matchNodes_chr_one (c : Char) (ns : List Node) (st : Bool) (p : Str)
    (caps : List Str) :
    matchNodes (Node.chr c Quant.one :: ns) st p = some caps ↔
      ∃ p', p = c :: p' ∧ matchNodes ns false p' = some caps := by
  cases p with
  | nil => simp [matchNodes]
  | cons d p' =>
    by_cases h : d = c
    · subst h
      simp [matchNodes]
    · have h' : ¬ c = d := fun e => h e.symm
      simp [matchNodes, h, h']

theorem matchNodes_literals (l : Str) (ns : List Node) (st : Bool) (p : Str)
    (caps : List Str) :
    matchNodes (literals l ++ ns) st p = some caps ↔
      ∃ rest, p = l ++ rest ∧ matchNodes ns (st && decide (l = [])) rest = some caps := by
  induction l generalizing st p with
  | nil => simp [literals]
  | cons c cs ih =>
    have hcons : literals (c :: cs) ++ ns = Node.chr c Quant.one :: (literals cs ++ ns) := by
      simp [literals]
    rw [hcons, matchNodes_chr_one]
    constructor
    · rintro ⟨p', hp, hm⟩
      obtain ⟨rest, hrest, hm'⟩ := (ih false p').1 hm
      refine ⟨rest, ?_, ?_⟩
      · rw [hp, hrest]
        rfl
      · simpa using hm'
    · rintro ⟨rest, hp, hm⟩
      refine ⟨cs ++ rest, ?_, ?_⟩
      · rw [hp]
        rfl
      · exact (ih false (cs ++ rest)).2 ⟨rest, rfl, by simpa using hm⟩

theorem groupAlt_eol_none (s : Str) (k : Nat) (hk : k < s.length) :
    groupAlt (matchNodes [Node.eol] false) s k = none := by
  induction k with
  | zero => rfl
  | succ k ih =>
    have hdrop : s.drop (k + 1) ≠ [] := by
      intro h
      have := List.drop_eq_nil_iff.1 h
      omega
    simp only [groupAlt, matchNodes, if_neg hdrop]
    exact ih (by omega)

theorem takeWhile_length_eq_iff (s : Str) :
    (s.takeWhile fun d => decide (d ≠ '/')).length = s.length ↔ '/' ∉ s := by
  induction s with
  | nil => simp
  | cons c cs ih =>
    by_cases h : c = '/'
    · subst h
      simp [List.takeWhile]
    · have h' : ¬ '/' = c := fun e => h e.symm
      simp only [ne_eq, decide_not] at ih
      simp [List.takeWhile, h, h', ih]

theorem matchNodes_group_eol (st : Bool) (s : Str) (caps : List Str) :
    matchNodes [Node.grp Quant.one, Node.eol] st s = some caps ↔
      s ≠ [] ∧ '/' ∉ s ∧ caps = [s] := by
  have hle : (s.takeWhile fun d => decide (d ≠ '/')).length ≤ s.length :=
    (List.takeWhile_sublist _).length_le
  show groupAlt (matchNodes [Node.eol] false) s
      (s.takeWhile fun d => decide (d ≠ '/')).length = some caps ↔ _
  by_cases hall : (s.takeWhile fun d => decide (d ≠ '/')).length = s.length
  · have hslash : '/' ∉ s := (takeWhile_length_eq_iff s).1 hall
    rw [hall]
    cases hs : s.length with
    | zero =>
      have : s = [] := List.length_eq_zero.1 hs
      simp [groupAlt, this]
    | succ k =>
      have hne : s ≠ [] := by
        intro h
        rw [h] at hs
        simp at hs
      have hdrop : s.drop (k + 1) = [] := List.drop_eq_nil_iff.2 (by omega)
      have htake : s.take (k + 1) = s := List.take_of_length_le (by omega)
      simp only [groupAlt, hdrop, htake, matchNodes, if_true]
      constructor
      · intro h
        exact ⟨hne, hslash, by simpa using h.symm⟩
      · rintro ⟨_, _, h⟩
        rw [h]
  · have hlt : (s.takeWhile fun d => decide (d ≠ '/')).length < s.length := by omega
    rw [groupAlt_eol_none s _ hlt]
    have hslash : ¬ '/' ∉ s := fun h => hall ((takeWhile_length_eq_iff s).2 h)
    simp [hslash]

/-! ## Lemmas: routes with a trailing parameter -/

theorem route_new_trailing_param {σ : Type} (method l name : Str) (handler : Handler σ)
    (hl : ':' ∉ l) (hne : name ≠ [])
    (hname : ∀ c ∈ name, c ≠ ':' ∧ c ≠ '/' ∧ c ≠ '?' ∧ c ≠ '#' ∧ c ≠ '&') :
    Route.new method (l ++ ':' :: name) handler =
      { method := method
        path := l ++ ':' :: name
        pattern := '^' :: (escaped l ++ "([^/]+)$".toList)
        pathRegex := some (Node.bol :: (literals l ++ [Node.grp Quant.one, Node.eol]))
        paramNames := [name]
        handler := handler } := by
  unfold Route.new
  rw [pathToRegex_trailing_param l name [] hl hne hname]
  simp only [compile_trailing_param, List.nil_append]

theorem regex_match_trailing_param (l p : Str) (caps : List Str) :
    regex_match p (some (Node.bol :: (literals l ++ [Node.grp Quant.one, Node.eol]))) =
        some caps ↔
      ∃ seg, seg ≠ [] ∧ '/' ∉ seg ∧ p = l ++ seg ∧ caps = [seg] := by
  have hbol : matchNodes (Node.bol :: (literals l ++ [Node.grp Quant.one, Node.eol])) true p =
      matchNodes (literals l ++ [Node.grp Quant.one, Node.eol]) true p := by
    simp [matchNodes]
  simp only [regex_match, hbol, matchNodes_literals, matchNodes_group_eol]
  constructor
  · rintro ⟨rest, hp, hne, hs, hc⟩
    exact ⟨rest, hne, hs, hp, hc⟩
  · rintro ⟨seg, hne, hs, hp, hc⟩
    exact ⟨seg, hp, hne, hs, hc⟩

theorem pattern_ne_path_trailing_param (l name : Str) (hl : ':' ∉ l) :
    '^' :: (escaped l ++ "([^/]+)$".toList) ≠ l ++ ':' :: name := by
  intro h
  have hmem : ':' ∈ '^' :: (escaped l ++ "([^/]+)$".toList) := by
    rw [h]
    simp
  have hesc := colon_not_mem_escaped l hl
  have hcaret : ¬ ':' = '^' := by decide
  have htail : ':' ∉ "([^/]+)$".toList := by decide
  rcases List.mem_cons.1 hmem with h1 | h1
  · exact hcaret h1
  · rcases List.mem_append.1 h1 with h2 | h2
    · exact hesc h2
    · exact htail h2

/-! ## Lemmas: parameter extraction -/

theorem extractLoop_find_of_not_mem (names caps : List Str) (params : StrMap) (k : Str)
    (hk : k ∉ names) :
    StrMap.find k (extractLoop names caps params) = StrMap.find k params := by
  induction names generalizing caps params with
  | nil => simp [extractLoop]
  | cons n ns ih =>
    cases caps with
    | nil => simp [extractLoop]
    | cons c cs =>
      have hkn : k ≠ n := fun h => hk (by rw [h]; exact List.mem_cons_self _ _)
      have hkns : k ∉ ns := fun h => hk (List.mem_cons_of_mem n h)
      simp only [extractLoop]
      rw [ih cs _ hkns, StrMap.find_insert_of_ne k n c params hkn]

theorem extractLoop_find_of_last (names caps : List Str) (params : StrMap) (j : Nat)
    (name cap : Str) (hn : names[j]? = some name) (hc : caps[j]? = some cap)
    (hlast : ∀ (j' : Nat) (name' : Str), j < j' → names[j']? = some name' → name' ≠ name) :
    StrMap.find name (extractLoop names caps params) = some cap := by
  induction names generalizing caps params j with
  | nil => simp at hn
  | cons n ns ih =>
    cases caps with
    | nil => simp at hc
    | cons c cs =>
      simp only [extractLoop]
      cases j with
      | zero =>
        have h1 : n = name := by simpa using hn
        have h2 : c = cap := by simpa using hc
        subst h1 h2
        have hnot : n ∉ ns := by
          intro hmem
          obtain ⟨j', hj', hget⟩ := List.getElem_of_mem hmem
          have : (n :: ns)[j' + 1]? = some n := by
            simp [List.getElem?_eq_getElem hj', hget]
          exact hlast (j' + 1) n (Nat.zero_lt_succ j') this rfl
        rw [extractLoop_find_of_not_mem ns cs _ n hnot]
        exact StrMap.find_insert_self n c params
      | succ j =>
        refine ih cs _ j (by simpa using hn) (by simpa using hc) ?_
        intro j' name' hjj' hn'
        exact hlast (j' + 1) name' (Nat.succ_lt_succ hjj') (by simpa using hn')

/-! ## Lemmas: one capture per group -/

theorem groupAlt_some (cont : Str → Option (List Str)) (s : Str) (n : Nat) (caps : List Str)
    (h : groupAlt cont s n = some caps) :
    ∃ k caps', cont (s.drop k) = some caps' ∧ caps = s.take k :: caps' := by
  induction n with
  | zero => simp [groupAlt] at h
  | succ n ih =>
    unfold groupAlt at h
    cases hc : cont (s.drop (n + 1)) with
    | none =>
      rw [hc] at h
      exact ih h
    | some caps' =>
      rw [hc] at h
      exact ⟨n + 1, caps', hc, by simpa using h.symm⟩

theorem orElse_eq_some_cases {α : Type} (a : Option α) (b : Unit → Option α) (x : α)
    (h : a.orElse b = some x) : a = some x ∨ (a = none ∧ b () = some x) := by
  cases a with
  | none => exact Or.inr ⟨rfl, h⟩
  | some y => exact Or.inl h

theorem matchNodes_length (ns : List Node) (st : Bool) (s : Str) (caps : List Str)
    (h : matchNodes ns st s = some caps) : caps.length = groupCount ns := by
  induction ns generalizing st s caps with
  | nil =>
    unfold matchNodes at h
    by_cases hs : s = []
    · simp [hs] at h
      simp [← h, groupCount]
    · simp [hs] at h
  | cons n ns ih =>
    cases n with
    | bol =>
      unfold matchNodes at h
      by_cases hst : st = true
      · simp only [hst, if_true] at h
        simpa [groupCount] using ih _ _ _ h
      · simp [hst] at h
    | eol =>
      unfold matchNodes at h
      by_cases hs : s = []
      · simp only [hs, if_true] at h
        simpa [groupCount] using ih _ _ _ h
      · simp [hs] at h
    | chr c q =>
      have htaken : ∀ caps0,
          (match s with
            | d :: s' => if d = c then matchNodes ns false s' else none
            | [] => none) = some caps0 → caps0.length = groupCount ns := by
        intro caps0 h0
        cases s with
        | nil => simp at h0
        | cons d s' =>
          by_cases hd : d = c
          · simp only [hd, if_true] at h0
            exact ih _ _ _ h0
          · simp [hd] at h0
      unfold matchNodes at h
      simp only [groupCount]
      cases q with
      | one => exact htaken caps h
      | opt =>
        rcases orElse_eq_some_cases _ _ _ h with h | ⟨_, h⟩
        · exact htaken caps h
        · exact ih _ _ _ h
      | optLazy =>
        rcases orElse_eq_some_cases _ _ _ h with h | ⟨_, h⟩
        · exact ih _ _ _ h
        · exact htaken caps h
    | grp q =>
      have htaken : ∀ caps0 n,
          groupAlt (matchNodes ns false) s n = some caps0 →
            caps0.length = groupCount ns + 1 := by
        intro caps0 n h0
        obtain ⟨k, caps', hk, hcaps⟩ := groupAlt_some _ _ _ _ h0
        rw [hcaps, List.length_cons, ih _ _ _ hk]
      have hskipped : ∀ caps0,
          (matchNodes ns st s).map (fun caps => ([] : Str) :: caps) = some caps0 →
            caps0.length = groupCount ns + 1 := by
        intro caps0 h0
        simp only [Option.map_eq_some'] at h0
        obtain ⟨caps', hk, hcaps⟩ := h0
        rw [← hcaps, List.length_cons, ih _ _ _ hk]
      unfold matchNodes at h
      simp only [groupCount]
      cases q with
      | one => exact htaken caps _ h
      | opt =>
        rcases orElse_eq_some_cases _ _ _ h with h | ⟨_, h⟩
        · exact htaken caps _ h
        · exact hskipped caps h
      | optLazy =>
        rcases orElse_eq_some_cases _ _ _ h with h | ⟨_, h⟩
        · exact hskipped caps h
        · exact htaken caps _ h

/-! ## Lemmas: the emitted pattern has one group per parameter name -/

theorem groupCount_append (a b : List Node) :
    groupCount (a ++ b) = groupCount a + groupCount b := by
  induction a with
  | nil => simp [groupCount]
  | cons n ns ih =>
    cases n <;> simp [groupCount, ih]
    omega

theorem groupCount_reverse (a : List Node) : groupCount a.reverse = groupCount a := by
  induction a with
  | nil => rfl
  | cons n ns ih =>
    rw [List.reverse_cons, groupCount_append, ih]
    cases n <;> simp [groupCount]

theorem quantify_groupCount (acc acc' : List Node) (h : quantify acc = some acc') :
    groupCount acc' = groupCount acc := by
  cases acc with
  | nil => simp [quantify] at h
  | cons n ns =>
    cases n with
    | bol => simp [quantify] at h
    | eol => simp [quantify] at h
    | chr c q =>
      cases q <;> simp [quantify] at h <;> simp [← h, groupCount]
    | grp q =>
      cases q <;> simp [quantify] at h <;> simp [← h, groupCount]

theorem parsedAs_append_plain (regex : Str) (names : List Str) (c : Char)
    (hm : isMeta c = false) (h : ParsedAs regex names) : ParsedAs (regex ++ [c]) names := by
  rcases h with h | ⟨acc, hacc, hcount⟩
  · left
    intro rest
    rw [List.append_assoc]
    exact h _
  · right
    refine ⟨Node.chr c Quant.one :: acc, ?_, by simpa [groupCount] using hcount⟩
    intro rest
    rw [List.append_assoc, hacc]
    exact compileAux_plain c rest acc hm

theorem parsedAs_append_escape (regex : Str) (names : List Str) (c : Char)
    (hm : isMeta c = true) (h : ParsedAs regex names) :
    ParsedAs (regex ++ ['\\', c]) names := by
  rcases h with h | ⟨acc, hacc, hcount⟩
  · left
    intro rest
    rw [List.append_assoc]
    exact h _
  · right
    refine ⟨Node.chr c Quant.one :: acc, ?_, by simpa [groupCount] using hcount⟩
    intro rest
    rw [List.append_assoc, hacc]
    exact compileAux_escape c rest acc hm

theorem parsedAs_append_group (regex : Str) (names : List Str) (name : Str)
    (h : ParsedAs regex names) :
    ParsedAs (regex ++ "([^/]+)".toList) (names ++ [name]) := by
  rcases h with h | ⟨acc, hacc, hcount⟩
  · left
    intro rest
    rw [List.append_assoc]
    exact h _
  · right
    refine ⟨Node.grp Quant.one :: acc, ?_, by simp [groupCount, hcount]⟩
    intro rest
    rw [List.append_assoc, hacc]
    exact compileAux_group rest acc

theorem parsedAs_append_question (regex : Str) (names : List Str)
    (h : ParsedAs regex names) : ParsedAs (regex ++ ['?']) names := by
  rcases h with h | ⟨acc, hacc, hcount⟩
  · left
    intro rest
    rw [List.append_assoc]
    exact h _
  · have hq : ∀ rest, Regex.compileAux ('?' :: rest) Mode.top acc =
        match quantify acc with
        | some acc' => Regex.compileAux rest Mode.top acc'
        | none => none := by
      intro rest
      rw [Regex.compileAux]
      simp
    cases hquant : quantify acc with
    | none =>
      left
      intro rest
      rw [List.append_assoc, hacc]
      show Regex.compileAux ('?' :: rest) Mode.top acc = none
      rw [hq, hquant]
    | some acc' =>
      right
      refine ⟨acc', ?_, by rw [quantify_groupCount acc acc' hquant, hcount]⟩
      intro rest
      rw [List.append_assoc, hacc]
      show Regex.compileAux ('?' :: rest) Mode.top acc = _
      rw [hq, hquant]

theorem parsedAs_pushParam (st : RegexBuild) (h : ParsedAs st.regex st.paramNames) :
    ParsedAs (pushParam st).regex (pushParam st).paramNames :=
  parsedAs_append_group _ _ _ h

theorem parsedAs_step (st : RegexBuild) (c : Char) (h : ParsedAs st.regex st.paramNames) :
    ParsedAs (pathToRegexStep st c).regex (pathToRegexStep st c).paramNames := by
  unfold pathToRegexStep
  by_cases hcolon : c = ':'
  · rw [if_pos hcolon]
    exact h
  · rw [if_neg hcolon]
    by_cases hdelim : st.inParam = true ∧ (c = '/' ∨ c = '?' ∨ c = '#' ∨ c = '&')
    · rw [if_pos hdelim]
      have h1 : ParsedAs (if st.currentParam ≠ [] then pushParam st else st).regex
          (if st.currentParam ≠ [] then pushParam st else st).paramNames := by
        by_cases hcur : st.currentParam ≠ []
        · rw [if_pos hcur]
          exact parsedAs_pushParam st h
        · rw [if_neg hcur]
          exact h
      by_cases hq : c = '?'
      · subst hq
        exact parsedAs_append_question _ _ h1
      · have hm : isMeta c = false := by
          rcases hdelim.2 with hc | hc | hc | hc
          · subst hc; decide
          · exact absurd hc hq
          · subst hc; decide
          · subst hc; decide
        exact parsedAs_append_plain _ _ c hm h1
    · rw [if_neg hdelim]
      by_cases hin : st.inParam = true
      · rw [if_pos hin]
        exact h
      · rw [if_neg hin]
        by_cases hm : isMeta c = true
        · have := parsedAs_append_escape _ _ c hm h
          simpa [hm, List.append_assoc] using this
        · have hm' : isMeta c = false := by simpa using hm
          simpa [hm'] using parsedAs_append_plain _ _ c hm' h

theorem parsedAs_foldl (path : Str) (st : RegexBuild)
    (h : ParsedAs st.regex st.paramNames) :
    ParsedAs (path.foldl pathToRegexStep st).regex (path.foldl pathToRegexStep st).paramNames := by
  induction path generalizing st with
  | nil => exact h
  | cons c cs ih => exact ih _ (parsedAs_step st c h)

theorem parsedAs_end (st : RegexBuild) (h : ParsedAs st.regex st.paramNames) :
    ParsedAs (pathToRegexEnd st).regex (pathToRegexEnd st).paramNames := by
  unfold pathToRegexEnd
  by_cases hc : st.inParam = true ∧ st.currentParam ≠ []
  · rw [if_pos hc]
    exact parsedAs_pushParam st h
  · rw [if_neg hc]
    exact h

theorem compile_pathToRegex_groupCount (path : Str) (re : Regex)
    (h : Regex.compile (pathToRegex path []).1 = some re) :
    groupCount re = (pathToRegex path []).2.length := by
  have hinit : ParsedAs "^".toList [] := by
    right
    refine ⟨[Node.bol], ?_, rfl⟩
    intro rest
    show Regex.compileAux ('^' :: rest) Mode.top [] = _
    rw [Regex.compileAux]
    simp
  have hfinal := parsedAs_end _ (parsedAs_foldl path
    { regex := "^".toList, currentParam := [], inParam := false, paramNames := [] } hinit)
  simp only [pathToRegex, Regex.compile] at h ⊢
  rcases hfinal with hnone | ⟨acc, hacc, hcount⟩
  · rw [hnone] at h
    exact absurd h (by simp)
  · rw [hacc] at h
    have hend : Regex.compileAux "$".toList Mode.top acc = some (Node.eol :: acc).reverse := rfl
    rw [hend] at h
    have hre : re = (Node.eol :: acc).reverse := by simpa using h.symm
    rw [hre, groupCount_reverse]
    simpa [groupCount] using hcount

/-! ## Lemmas: captures of a compiled route -/

theorem route_new_of_compiled {σ : Type} (method template : Str) (handler : Handler σ)
    (re : Regex) (hc : Regex.compile (pathToRegex template []).1 = some re) :
    Route.new method template handler =
      { method := method, path := template, pattern := (pathToRegex template []).1
        pathRegex := some re, paramNames := (pathToRegex template []).2
        handler := handler } := by
  unfold Route.new
  simp only [hc]

theorem route_new_of_failed {σ : Type} (method template : Str) (handler : Handler σ)
    (hc : Regex.compile (pathToRegex template []).1 = none) :
    Route.new method template handler =
      { method := method, path := template, pattern := template
        pathRegex := none, paramNames := (pathToRegex template []).2
        handler := handler } := by
  unfold Route.new
  simp only [hc]

theorem route_new_captures_length {σ : Type} (method template : Str) (handler : Handler σ)
    (path : Str) (caps : List Str)
    (h : regex_match path (Route.new method template handler).pathRegex = some caps) :
    caps.length = (Route.new method template handler).paramNames.length := by
  cases hc : Regex.compile (pathToRegex template []).1 with
  | none =>
    rw [route_new_of_failed method template handler hc] at h
    simp [regex_match] at h
  | some re =>
    rw [route_new_of_compiled method template handler re hc] at h ⊢
    simp only [regex_match] at h
    rw [matchNodes_length re true path caps h, compile_pathToRegex_groupCount template re hc]

/-! ## Lemmas: a parameter followed by a `/`, `#` or `&` -/

theorem matchNodes_literals_eol (r : Str) (st : Bool) (s : Str) (caps : List Str) :
    matchNodes (literals r ++ [Node.eol]) st s = some caps ↔ s = r ∧ caps = [] := by
  rw [matchNodes_literals]
  constructor
  · rintro ⟨rest, hs, hm⟩
    unfold matchNodes at hm
    by_cases hrest : rest = []
    · subst hrest
      simp [matchNodes] at hm
      exact ⟨by simpa using hs, hm⟩
    · simp [hrest] at hm
  · rintro ⟨hs, hc⟩
    exact ⟨[], by simp [hs], by simp [matchNodes, hc]⟩

theorem groupAlt_unique_suffix (cont : Str → Option (List Str)) (tail : Str)
    (tcaps : List Str)
    (hcont : ∀ s' caps', cont s' = some caps' ↔ s' = tail ∧ caps' = tcaps)
    (seg : Str) (n : Nat) (hn : n ≤ (seg ++ tail).length) (caps : List Str) :
    groupAlt cont (seg ++ tail) n = some caps ↔
      seg ≠ [] ∧ seg.length ≤ n ∧ caps = seg :: tcaps := by
  induction n with
  | zero =>
    simp only [groupAlt]
    constructor
    · intro h
      exact absurd h (by simp)
    · rintro ⟨h1, h2, _⟩
      exact absurd (List.length_eq_zero.1 (Nat.le_zero.1 h2)) h1
  | succ n ih =>
    unfold groupAlt
    by_cases hlen : seg.length = n + 1
    · have hdrop : (seg ++ tail).drop (n + 1) = tail := by
        rw [← hlen]
        simp
      have htake : (seg ++ tail).take (n + 1) = seg := by
        rw [← hlen]
        simp
      have hc : cont ((seg ++ tail).drop (n + 1)) = some tcaps := by
        rw [hdrop]
        exact (hcont tail tcaps).2 ⟨rfl, rfl⟩
      simp only [hc, htake]
      constructor
      · intro h
        refine ⟨?_, by omega, by simpa using h.symm⟩
        intro e
        rw [e] at hlen
        simp at hlen
      · rintro ⟨_, _, h⟩
        rw [h]
    · have hdrop : (seg ++ tail).drop (n + 1) ≠ tail := by
        intro e
        have h1 := congrArg List.length e
        simp only [List.length_drop, List.length_append] at h1
        simp only [List.length_append] at hn
        omega
      have hc : cont ((seg ++ tail).drop (n + 1)) = none := by
        cases hcc : cont ((seg ++ tail).drop (n + 1)) with
        | none => rfl
        | some caps' => exact absurd ((hcont _ caps').1 hcc).1 hdrop
      simp only [hc]
      rw [ih (by omega)]
      constructor
      · rintro ⟨h1, h2, h3⟩
        exact ⟨h1, by omega, h3⟩
      · rintro ⟨h1, h2, h3⟩
        exact ⟨h1, by omega, h3⟩

theorem takeWhile_length_append (seg rest : Str) :
    ('/' ∉ seg → seg.length ≤ ((seg ++ rest).takeWhile fun d => decide (d ≠ '/')).length) ∧
    ('/' ∈ seg → ((seg ++ rest).takeWhile fun d => decide (d ≠ '/')).length < seg.length) := by
  induction seg with
  | nil => simp
  | cons c cs ih =>
    by_cases h : c = '/'
    · subst h
      simp
    · have h' : ¬ '/' = c := fun e => h e.symm
      simp only [ne_eq, decide_not] at ih
      simp only [List.cons_append, ne_eq, decide_not, List.mem_cons, h', false_or,
        List.length_cons]
      rw [List.takeWhile_cons_of_pos (by simpa using h)]
      simp only [List.length_cons]
      exact ⟨fun hn => Nat.succ_le_succ (ih.1 hn), fun hm => Nat.succ_lt_succ (ih.2 hm)⟩

theorem matchNodes_group_literals (r : Str) (st : Bool) (seg : Str) (caps : List Str) :
    matchNodes (Node.grp Quant.one :: (literals r ++ [Node.eol])) st (seg ++ r) = some caps ↔
      seg ≠ [] ∧ '/' ∉ seg ∧ caps = [seg] := by
  have hle : ((seg ++ r).takeWhile fun d => decide (d ≠ '/')).length ≤ (seg ++ r).length :=
    (List.takeWhile_sublist _).length_le
  show groupAlt (matchNodes (literals r ++ [Node.eol]) false) (seg ++ r)
      ((seg ++ r).takeWhile fun d => decide (d ≠ '/')).length = some caps ↔ _
  rw [groupAlt_unique_suffix _ r [] (fun s' caps' => matchNodes_literals_eol r false s' caps')
    seg _ hle caps]
  obtain ⟨h1, h2⟩ := takeWhile_length_append seg r
  constructor
  · rintro ⟨hne, hlen, hc⟩
    refine ⟨hne, ?_, hc⟩
    intro hmem
    exact absurd (h2 hmem) (by omega)
  · rintro ⟨hne, hs, hc⟩
    exact ⟨hne, h1 hs, hc⟩

theorem pathToRegex_param_delimiter (l name r : Str) (d : Char) (hl : ':' ∉ l)
    (hne : name ≠ [])
    (hname : ∀ c ∈ name, c ≠ ':' ∧ c ≠ '/' ∧ c ≠ '?' ∧ c ≠ '#' ∧ c ≠ '&')
    (hd : d = '/' ∨ d = '#' ∨ d = '&') (hr : ':' ∉ r) :
    pathToRegex (l ++ ':' :: (name ++ d :: r)) [] =
      ('^' :: (escaped l ++ ("([^/]+)".toList ++ d :: (escaped r ++ "$".toList))), [name]) := by
  unfold pathToRegex
  rw [List.foldl_append, foldl_step_literal l _ rfl hl, List.foldl_cons]
  have hcolon : ∀ st : RegexBuild, pathToRegexStep st ':' =
      { st with inParam := true, currentParam := [] } := by
    intro st
    simp [pathToRegexStep]
  rw [hcolon, List.foldl_append, foldl_step_name name _ rfl hname, List.foldl_cons]
  have hdc : d ≠ ':' := by
    rcases hd with h | h | h <;> subst h <;> decide
  have hdelim : ∀ st : RegexBuild, st.inParam = true → st.currentParam ≠ [] →
      pathToRegexStep st d =
        { pushParam st with inParam := false, regex := (pushParam st).regex ++ [d] } := by
    intro st h1 h2
    unfold pathToRegexStep
    have hcond : st.inParam = true ∧ (d = '/' ∨ d = '?' ∨ d = '#' ∨ d = '&') := by
      refine ⟨h1, ?_⟩
      rcases hd with h | h | h
      · exact Or.inl h
      · exact Or.inr (Or.inr (Or.inl h))
      · exact Or.inr (Or.inr (Or.inr h))
    rw [if_neg hdc, if_pos hcond]
    simp [h2]
  rw [hdelim _ rfl (by simpa using hne), foldl_step_literal r _ rfl hr]
  simp [pathToRegexEnd, pushParam, List.append_assoc]

theorem compile_param_delimiter (l r : Str) (d : Char) (hd : d = '/' ∨ d = '#' ∨ d = '&') :
    Regex.compile
        ('^' :: (escaped l ++ ("([^/]+)".toList ++ d :: (escaped r ++ "$".toList)))) =
      some (Node.bol ::
        (literals l ++ Node.grp Quant.one :: (literals (d :: r) ++ [Node.eol]))) := by
  unfold Regex.compile
  have h1 : ∀ (rest : Str) (acc : List Node),
      Regex.compileAux ('^' :: rest) Mode.top acc =
        Regex.compileAux rest Mode.top (Node.bol :: acc) := by
    intro rest acc
    rw [Regex.compileAux]
    simp
  have h2 : ∀ acc : List Node, Regex.compileAux "$".toList Mode.top acc =
      some ((Node.eol :: acc).reverse) := by
    intro acc
    rfl
  have hm : isMeta d = false := by
    rcases hd with h | h | h <;> subst h <;> decide
  rw [h1, compileAux_escaped, compileAux_group, compileAux_plain d _ _ hm, compileAux_escaped,
    h2]
  simp [literals]

/-- A parameter that is followed by `/`, `#` or `&`: for the template
`l ++ ":" ++ name ++ d ++ r` with no other `':'`, the path `l ++ seg ++ d ++ r` is matched
exactly when `seg` is non-empty and has no `'/'`, and extraction then stores `name -> seg`. -/
theorem param_before_delimiter_captured {σ : Type} (l name r : Str) (d : Char)
    (hl : ':' ∉ l) (hne : name ≠ [])
    (hname : ∀ c ∈ name, c ≠ ':' ∧ c ≠ '/' ∧ c ≠ '?' ∧ c ≠ '#' ∧ c ≠ '&')
    (hd : d = '/' ∨ d = '#' ∨ d = '&') (hr : ':' ∉ r)
    (method : Str) (handler : Handler σ) (seg : Str) (params : StrMap) :
    (matchPath (l ++ (seg ++ d :: r))
        (Route.new method (l ++ ':' :: (name ++ d :: r)) handler) = true ↔
      seg ≠ [] ∧ '/' ∉ seg) ∧
    (seg ≠ [] → '/' ∉ seg →
      extractParams (l ++ (seg ++ d :: r))
          (Route.new method (l ++ ':' :: (name ++ d :: r)) handler) params =
        (true, StrMap.insert name seg params)) := by
  have hcomp := compile_param_delimiter l r d hd
  have hpat := pathToRegex_param_delimiter l name r d hl hne hname hd hr
  have hroute := route_new_of_compiled method (l ++ ':' :: (name ++ d :: r)) handler _
    (by rw [hpat]; exact hcomp)
  rw [hroute, hpat]
  have hne_pat : '^' :: (escaped l ++ ("([^/]+)".toList ++ d :: (escaped r ++ "$".toList))) ≠
      l ++ ':' :: (name ++ d :: r) := by
    intro h
    have hmem : ':' ∈ '^' ::
        (escaped l ++ ("([^/]+)".toList ++ d :: (escaped r ++ "$".toList))) := by
      rw [h]
      simp
    have hdc : ¬ ':' = d := by
      rcases hd with h | h | h <;> subst h <;> decide
    have h1 := colon_not_mem_escaped l hl
    have h2 := colon_not_mem_escaped r hr
    have h3 : ':' ∉ "([^/]+)".toList := by decide
    have h4 : ':' ∉ "$".toList := by decide
    have h5 : ¬ ':' = '^' := by decide
    simp only [List.mem_cons, List.mem_append] at hmem
    tauto
  have hmatch : ∀ caps : List Str,
      regex_match (l ++ (seg ++ d :: r))
        (some (Node.bol ::
          (literals l ++ Node.grp Quant.one :: (literals (d :: r) ++ [Node.eol])))) =
        some caps ↔ seg ≠ [] ∧ '/' ∉ seg ∧ caps = [seg] := by
    intro caps
    have hbol : ∀ ns : List Node, matchNodes (Node.bol :: ns) true (l ++ (seg ++ d :: r)) =
        matchNodes ns true (l ++ (seg ++ d :: r)) := by
      intro ns
      simp [matchNodes]
    simp only [regex_match, hbol, matchNodes_literals]
    constructor
    · rintro ⟨rest, hrest, hm⟩
      have hrest' : rest = seg ++ d :: r := (List.append_cancel_left hrest).symm
      rw [hrest'] at hm
      exact (matchNodes_group_literals (d :: r) _ seg caps).1 hm
    · intro h
      exact ⟨seg ++ d :: r, rfl, (matchNodes_group_literals (d :: r) _ seg caps).2 h⟩
  constructor
  · unfold matchPath
    simp only [if_neg hne_pat, Option.isSome_iff_exists, hmatch]
    constructor
    · rintro ⟨caps, h1, h2, _⟩
      exact ⟨h1, h2⟩
    · rintro ⟨h1, h2⟩
      exact ⟨[seg], h1, h2, rfl⟩
  · intro h1 h2
    unfold extractParams
    simp only [(hmatch [seg]).2 ⟨h1, h2, rfl⟩]
    simp [extractLoop]

/-! ## Lemmas: `getline`, `find`, token reads -/

theorem getlineAll_eq_nil_iff (d : Char) (s : Str) : getlineAll d s = [] ↔ s = [] := by
  cases s with
  | nil => simp [getlineAll]
  | cons c cs =>
    unfold getlineAll
    by_cases h : c = d
    · simp [h]
    · cases hg : getlineAll d cs <;> simp [h]

theorem getlineAll_cons (d c : Char) (cs : Str) :
    getlineAll d (c :: cs) =
      (c :: cs).takeWhile (fun x => decide (x ≠ d)) ::
        getlineAll d (((c :: cs).dropWhile fun x => decide (x ≠ d)).drop 1) := by
  induction cs generalizing c with
  | nil =>
    by_cases h : c = d
    · simp [getlineAll, h]
    · simp [getlineAll, h]
  | cons c' cs ih =>
    by_cases h : c = d
    · subst h
      simp [getlineAll]
    · have hstep : getlineAll d (c :: c' :: cs) =
          match getlineAll d (c' :: cs) with
          | [] => [[c]]
          | l :: ls => (c :: l) :: ls := by
        rw [getlineAll]
        simp [h]
      rw [hstep, ih c']
      simp [h]

theorem Str.find_eq_none_iff (c : Char) (s : Str) : Str.find c s = none ↔ c ∉ s := by
  induction s with
  | nil => simp [Str.find]
  | cons d s ih =>
    unfold Str.find
    by_cases h : d = c
    · simp [h]
    · have h' : ¬ c = d := fun e => h e.symm
      simp [h, h', ih]

theorem Str.find_eq_some (c : Char) (s : Str) (i : Nat) (h : Str.find c s = some i) :
    c ∉ s.take i ∧ s = s.take i ++ c :: s.drop (i + 1) := by
  induction s generalizing i with
  | nil => simp [Str.find] at h
  | cons d s ih =>
    unfold Str.find at h
    by_cases hd : d = c
    · simp only [hd, if_true, Option.some.injEq] at h
      subst h
      simp [hd]
    · simp only [hd, if_false, Option.map_eq_some'] at h
      obtain ⟨i', hi', rfl⟩ := h
      obtain ⟨h1, h2⟩ := ih i' hi'
      have h' : ¬ c = d := fun e => hd e.symm
      refine ⟨by simp [h', h1], ?_⟩
      simp only [List.take_succ_cons, List.drop_succ_cons, List.cons_append, List.cons.injEq,
        true_and]
      exact h2

theorem Str.find_append_cons (c : Char) (a b : Str) (ha : c ∉ a) :
    Str.find c (a ++ c :: b) = some a.length := by
  induction a with
  | nil => simp [Str.find]
  | cons d a ih =>
    have hd : ¬ d = c := fun e => ha (by rw [e]; exact List.mem_cons_self _ _)
    have ha' : c ∉ a := fun h => ha (List.mem_cons_of_mem d h)
    simp [Str.find, hd, ih ha']

theorem parseUrl_no_query (url : Str) (h : '?' ∉ url) : parseUrl url = (url, []) := by
  unfold parseUrl
  rw [(Str.find_eq_none_iff '?' url).2 h]

theorem parseUrl_query (url : Str) (h : '?' ∈ url) :
    '?' ∉ (parseUrl url).1 ∧ (parseUrl url).1 ++ '?' :: (parseUrl url).2 = url := by
  unfold parseUrl
  cases hf : Str.find '?' url with
  | none => exact absurd h ((Str.find_eq_none_iff '?' url).1 hf)
  | some i =>
    obtain ⟨h1, h2⟩ := Str.find_eq_some '?' url i hf
    exact ⟨h1, h2.symm⟩

theorem extractToken_token (ws tok tail : Str) (hws : ∀ c ∈ ws, isSpace c = true)
    (htok : tok ≠ []) (htok' : ∀ c ∈ tok, isSpace c = false)
    (htail : tail = [] ∨ ∃ c t, tail = c :: t ∧ isSpace c = true) :
    extractToken (ws ++ (tok ++ tail)) = (tok, tail) := by
  unfold extractToken
  have h1 : (ws ++ (tok ++ tail)).dropWhile isSpace = tok ++ tail := by
    rw [List.dropWhile_append_of_pos hws]
    cases tok with
    | nil => exact absurd rfl htok
    | cons c cs =>
      have hc : isSpace c = false := htok' c (List.mem_cons_self c cs)
      simp [hc]
  have hneg : ∀ c ∈ tok, (fun c => !isSpace c) c = true := by
    intro c hc
    simp [htok' c hc]
  simp only [h1]
  rw [List.takeWhile_append_of_pos hneg, List.dropWhile_append_of_pos hneg]
  rcases htail with htail | ⟨c, t, htail, hc⟩
  · subst htail
    simp
  · subst htail
    simp [hc]

/-! ## Lemmas: the request line -/

theorem parseRequest_of_lines (requestData line : Str) (lines : List Str)
    (h : getlineAll '\n' requestData = line :: lines) :
    parseRequest requestData =
      { method := (extractToken line).1
        path := (parseUrl (extractToken (extractToken line).2).1).1
        query := (parseUrl (extractToken (extractToken line).2).1).2
        params := parseQueryString (parseUrl (extractToken (extractToken line).2).1).2
        headers := (headerLoop lines []).1
        body := if bodyLoop (headerLoop lines []).2 ≠ [] then
            (bodyLoop (headerLoop lines []).2).take
              ((bodyLoop (headerLoop lines []).2).length - 1)
          else [] } := by
  unfold parseRequest
  rw [h]

theorem first_line_tokens (ws0 m ws1 u tail : Str)
    (hws0 : ∀ c ∈ ws0, isSpace c = true ∧ c ≠ '\n')
    (hm : m ≠ []) (hm' : ∀ c ∈ m, isSpace c = false)
    (hws1 : ws1 ≠ []) (hws1' : ∀ c ∈ ws1, isSpace c = true ∧ c ≠ '\n')
    (hu : u ≠ []) (hu' : ∀ c ∈ u, isSpace c = false)
    (htail : tail = [] ∨ ∃ c t, tail = c :: t ∧ isSpace c = true) :
    ∃ line lines, getlineAll '\n' (ws0 ++ (m ++ (ws1 ++ (u ++ tail)))) = line :: lines ∧
      (extractToken line).1 = m ∧ (extractToken (extractToken line).2).1 = u := by
  have hnl : ∀ l : Str, (∀ c ∈ l, isSpace c = false) → ∀ c ∈ l, c ≠ '\n' := by
    intro l hl c hc e
    have := hl c hc
    rw [e] at this
    exact absurd this (by decide)
  have hdata : ws0 ++ (m ++ (ws1 ++ (u ++ tail))) ≠ [] := by
    cases m with
    | nil => exact absurd rfl hm
    | cons c cs => simp
  obtain ⟨c, cs, hcs⟩ := List.exists_cons_of_ne_nil hdata
  refine ⟨(ws0 ++ (m ++ (ws1 ++ (u ++ tail)))).takeWhile (fun x => decide (x ≠ '\n')),
    getlineAll '\n' (((ws0 ++ (m ++ (ws1 ++ (u ++ tail)))).dropWhile
      fun x => decide (x ≠ '\n')).drop 1), ?_, ?_⟩
  · rw [hcs]
    exact getlineAll_cons '\n' c cs
  · have p0 : ∀ c ∈ ws0, (fun x => decide (x ≠ '\n')) c = true := by
      intro c hc
      simpa using (hws0 c hc).2
    have p1 : ∀ c ∈ m, (fun x => decide (x ≠ '\n')) c = true := by
      intro c hc
      simpa using hnl m hm' c hc
    have p2 : ∀ c ∈ ws1, (fun x => decide (x ≠ '\n')) c = true := by
      intro c hc
      simpa using (hws1' c hc).2
    have p3 : ∀ c ∈ u, (fun x => decide (x ≠ '\n')) c = true := by
      intro c hc
      simpa using hnl u hu' c hc
    rw [List.takeWhile_append_of_pos p0, List.takeWhile_append_of_pos p1,
      List.takeWhile_append_of_pos p2, List.takeWhile_append_of_pos p3]
    have htail0 : tail.takeWhile (fun x => decide (x ≠ '\n')) = [] ∨
        ∃ c t, tail.takeWhile (fun x => decide (x ≠ '\n')) = c :: t ∧ isSpace c = true := by
      rcases htail with htail | ⟨c, t, htail, hc⟩
      · left
        rw [htail]
        rfl
      · subst htail
        by_cases hn : c = '\n'
        · left
          simp [hn]
        · right
          exact ⟨c, t.takeWhile (fun x => decide (x ≠ '\n')), by simp [hn], hc⟩
    have hrest : (ws1 ++ (u ++ tail.takeWhile fun x => decide (x ≠ '\n')) = [] ∨
        ∃ c t, ws1 ++ (u ++ tail.takeWhile fun x => decide (x ≠ '\n')) = c :: t ∧
          isSpace c = true) := by
      right
      cases ws1 with
      | nil => exact absurd rfl hws1
      | cons c t => exact ⟨c, _, rfl, (hws1' c (List.mem_cons_self c t)).1⟩
    rw [extractToken_token ws0 m _ (fun c hc => (hws0 c hc).1) hm hm' hrest]
    refine ⟨rfl, ?_⟩
    have := extractToken_token ws1 u _ (fun c hc => (hws1' c hc).1) hu hu' htail0
    simp only [this]

/-! ## Lemmas: the query string -/

theorem splitOn_getlineAll (d : Char) (s : Str) :
    List.splitOn d s = getlineAll d s ∨ List.splitOn d s = getlineAll d s ++ [[]] := by
  induction s with
  | nil =>
    right
    rfl
  | cons c cs ih =>
    have hcons : List.splitOn d (c :: cs) =
        if c = d then [] :: List.splitOn d cs
        else (List.splitOn d cs).modifyHead (List.cons c) := by
      simp [List.splitOn, List.splitOnP_cons]
    rw [hcons]
    by_cases h : c = d
    · simp only [h, if_true, getlineAll]
      rcases ih with ih | ih
      · left
        rw [ih]
      · right
        rw [ih]
        rfl
    · simp only [h, if_false, getlineAll]
      rcases ih with ih | ih
      · left
        rw [ih]
        cases hg : getlineAll d cs with
        | nil =>
          have hnil : List.splitOn d cs = [] := ih.trans hg
          exact absurd hnil (List.splitOnP_ne_nil (fun x => x == d) cs)
        | cons l ls => rfl
      · rw [ih]
        cases hg : getlineAll d cs with
        | nil =>
          left
          rfl
        | cons l ls =>
          right
          rfl

theorem split_eq_filter_splitOn (s : Str) (d : Char) :
    Utils.split s d = (List.splitOn d s).filter fun token => decide (token ≠ []) := by
  unfold Utils.split
  rcases splitOn_getlineAll d s with h | h
  · rw [h]
  · rw [h, List.filter_append]
    simp

theorem split_at_first (c : Char) (piece : Str) (h : c ∈ piece) :
    c ∉ piece.takeWhile (fun x => decide (x ≠ c)) ∧
    piece = piece.takeWhile (fun x => decide (x ≠ c)) ++
      c :: (piece.dropWhile fun x => decide (x ≠ c)).drop 1 := by
  induction piece with
  | nil => simp at h
  | cons d t ih =>
    by_cases hd : d = c
    · subst hd
      simp
    · have hc : c ∈ t := by
        rcases List.mem_cons.1 h with h | h
        · exact absurd h.symm hd
        · exact h
      have hd' : ¬ c = d := fun e => hd e.symm
      obtain ⟨h1, h2⟩ := ih hc
      have htw : (d :: t).takeWhile (fun x => decide (x ≠ c)) =
          d :: t.takeWhile (fun x => decide (x ≠ c)) := by simp [hd]
      have hdw : (d :: t).dropWhile (fun x => decide (x ≠ c)) =
          t.dropWhile (fun x => decide (x ≠ c)) := by simp [hd]
      rw [htw, hdw]
      refine ⟨?_, ?_⟩
      · intro hmem
        rcases List.mem_cons.1 hmem with e | e
        · exact hd' e
        · exact h1 e
      · rw [List.cons_append, ← h2]

theorem split_at_first_unique (c : Char) (a b : Str) (ha : c ∉ a) :
    (a ++ c :: b).takeWhile (fun x => decide (x ≠ c)) = a ∧
    ((a ++ c :: b).dropWhile fun x => decide (x ≠ c)).drop 1 = b := by
  have hpos : ∀ x ∈ a, (fun x => decide (x ≠ c)) x = true := by
    intro x hx
    have : x ≠ c := fun e => ha (by rw [← e]; exact hx)
    simpa using this
  rw [List.takeWhile_append_of_pos hpos, List.dropWhile_append_of_pos hpos]
  simp

theorem find_take_drop (c : Char) (piece : Str) (i : Nat) (h : Str.find c piece = some i) :
    piece.take i = piece.takeWhile (fun x => decide (x ≠ c)) ∧
    piece.drop (i + 1) = (piece.dropWhile fun x => decide (x ≠ c)).drop 1 := by
  obtain ⟨h1, h2⟩ := Str.find_eq_some c piece i h
  obtain ⟨h3, h4⟩ := split_at_first_unique c (piece.take i) (piece.drop (i + 1)) h1
  rw [← h2] at h3 h4
  exact ⟨h3.symm, h4.symm⟩

theorem queryLoop_eq_foldl (pairs : List Str) (params : StrMap) :
    queryLoop pairs params = pairs.foldl specStorePiece params := by
  induction pairs generalizing params with
  | nil => rfl
  | cons pair pairs ih =>
    rw [List.foldl_cons, queryLoop]
    cases hf : Str.find '=' pair with
    | none =>
      have hnot : '=' ∉ pair := (Str.find_eq_none_iff '=' pair).1 hf
      simp only [specStorePiece, if_neg hnot]
      exact ih params
    | some i =>
      have hmem : '=' ∈ pair := by
        by_contra hnot
        rw [(Str.find_eq_none_iff '=' pair).2 hnot] at hf
        exact absurd hf (by simp)
      obtain ⟨h1, h2⟩ := find_take_drop '=' pair i hf
      simp only [specStorePiece, if_pos hmem, h1, h2]
      exact ih _

theorem foldl_specStorePiece_filter (pieces : List Str) (params : StrMap) :
    (pieces.filter fun token => decide (token ≠ [])).foldl specStorePiece params =
      pieces.foldl specStorePiece params := by
  induction pieces generalizing params with
  | nil => rfl
  | cons piece pieces ih =>
    simp only [ne_eq, decide_not] at ih
    by_cases h : piece = []
    · subst h
      simp [specStorePiece, ih]
    · simp [h, ih]

theorem parseQueryString_eq_foldl (query : Str) :
    parseQueryString query = (List.splitOn '&' query).foldl specStorePiece [] := by
  unfold parseQueryString
  by_cases h : query = []
  · subst h
    rfl
  · rw [if_neg h, queryLoop_eq_foldl, split_eq_filter_splitOn, foldl_specStorePiece_filter]

theorem specStorePiece_pair (params : StrMap) (key value : Str) (hkey : '=' ∉ key) :
    specStorePiece params (key ++ '=' :: value) =
      StrMap.insert (Utils.urlDecode key) (Utils.urlDecode value) params := by
  obtain ⟨h1, h2⟩ := split_at_first_unique '=' key value hkey
  have hmem : '=' ∈ key ++ '=' :: value := by simp
  simp only [specStorePiece, if_pos hmem]
  simp only [ne_eq, decide_not] at h1 h2 ⊢
  rw [h1, h2]

theorem foldl_specStorePiece_find (post : List Str) (params : StrMap) (k : Str)
    (hpost : ∀ piece ∈ post, ∀ key value : Str, piece = key ++ '=' :: value → '=' ∉ key →
      Utils.urlDecode key ≠ k) :
    StrMap.find k (post.foldl specStorePiece params) = StrMap.find k params := by
  induction post generalizing params with
  | nil => rfl
  | cons piece post ih =>
    rw [List.foldl_cons]
    rw [ih _ (fun q hq => hpost q (List.mem_cons_of_mem piece hq))]
    by_cases hmem : '=' ∈ piece
    · obtain ⟨h1, h2⟩ := split_at_first '=' piece hmem
      have hne := hpost piece (List.mem_cons_self piece post) _ _ h2 h1
      rw [h2, specStorePiece_pair _ _ _ h1]
      exact StrMap.find_insert_of_ne k _ _ params (fun e => hne e.symm)
    · simp only [specStorePiece, if_neg hmem]

theorem hexDigit_cases (x : Char) (a : Nat) (h : hexDigit x = some a) :
    a ≤ 15 ∧ isSpace x = false ∧ x ≠ '+' ∧ x ≠ '-' := by
  unfold hexDigit at h
  have hrange : (48 ≤ x.toNat ∧ x.toNat ≤ 57) ∨ (97 ≤ x.toNat ∧ x.toNat ≤ 102) ∨
      (65 ≤ x.toNat ∧ x.toNat ≤ 70) := by
    by_cases h1 : 48 ≤ x.toNat ∧ x.toNat ≤ 57
    · exact Or.inl h1
    · by_cases h2 : 97 ≤ x.toNat ∧ x.toNat ≤ 102
      · exact Or.inr (Or.inl h2)
      · by_cases h3 : 65 ≤ x.toNat ∧ x.toNat ≤ 70
        · exact Or.inr (Or.inr h3)
        · simp [h1, h2, h3] at h
  have ha : a ≤ 15 := by
    split_ifs at h <;> simp at h <;> omega
  have hne : ∀ d : Char, d.toNat < 48 → x ≠ d := by
    intro d hd e
    rw [e] at hrange
    omega
  refine ⟨ha, ?_, hne '+' (by decide), hne '-' (by decide)⟩
  simp only [isSpace, Bool.or_eq_false_iff, decide_eq_false_iff_not]
  exact ⟨⟨⟨⟨⟨hne ' ' (by decide), hne '\t' (by decide)⟩, hne '\n' (by decide)⟩,
    hne '\x0b' (by decide)⟩, hne '\x0c' (by decide)⟩, hne '\r' (by decide)⟩

theorem urlDecode_triplet (x y : Char) (a b : Nat) (rest : Str)
    (hx : hexDigit x = some a) (hy : hexDigit y = some b) :
    Utils.urlDecode ('%' :: x :: y :: rest) =
      Char.ofNat (16 * a + b) :: Utils.urlDecode rest := by
  obtain ⟨ha, hsp, hplus, hminus⟩ := hexDigit_cases x a hx
  obtain ⟨hb, _, _, _⟩ := hexDigit_cases y b hy
  have hread : readHex2 x y = ((16 * a + b : Nat) : Int) := by
    unfold readHex2
    simp only [hsp, hplus, hminus, hx, hy, if_false]
    simp
  have hbyte : toByte (readHex2 x y) = Char.ofNat (16 * a + b) := by
    rw [hread]
    unfold toByte
    congr 1
    omega
  rw [Utils.urlDecode]
  simp only [if_true, hbyte]

theorem urlDecode_cons_of_ne (c : Char) (rest : Str) (h : c ≠ '%') :
    Utils.urlDecode (c :: rest) = (if c = '+' then ' ' else c) :: Utils.urlDecode rest := by
  cases rest with
  | nil => simp [Utils.urlDecode, h]
  | cons x rest =>
    cases rest with
    | nil => simp [Utils.urlDecode, h]
    | cons y rest => simp [Utils.urlDecode, h]

/-! ## Lemmas: the header loop -/

theorem headerLoop_eq (lines : List Str) (headers : StrMap) :
    headerLoop lines headers =
      ((headerBlock lines).foldl specStoreHeader headers, bodyLines lines) := by
  induction lines generalizing headers with
  | nil => rfl
  | cons line lines ih =>
    unfold headerLoop
    by_cases hblank : line = ['\r'] ∨ line = []
    · have hnot : isHeaderLine line = false := by
        rcases hblank with h | h <;> simp [isHeaderLine, h]
      simp [hblank, headerBlock, bodyLines, hnot]
    · have hline : isHeaderLine line = true := by
        simp only [isHeaderLine, decide_eq_true_eq]
        exact ⟨fun h => hblank (Or.inr h), fun h => hblank (Or.inl h)⟩
      have hblock : headerBlock (line :: lines) = line :: headerBlock lines := by
        simp [headerBlock, hline]
      have hbody : bodyLines (line :: lines) = bodyLines lines := by
        simp [bodyLines, hline]
      rw [if_neg hblank, hblock, hbody, List.foldl_cons]
      have hchomp : (if line.getLast? = some '\r' then line.dropLast else line) = chomp line :=
        rfl
      simp only [hchomp]
      cases hf : Str.find ':' (chomp line) with
      | none =>
        have hnot : ':' ∉ chomp line := (Str.find_eq_none_iff ':' _).1 hf
        simp only [specStoreHeader, if_neg hnot]
        exact ih headers
      | some i =>
        have hmem : ':' ∈ chomp line := by
          by_contra hnot
          rw [(Str.find_eq_none_iff ':' _).2 hnot] at hf
          exact absurd hf (by simp)
        obtain ⟨h1, h2⟩ := find_take_drop ':' (chomp line) i hf
        simp only [specStoreHeader, if_pos hmem, h1, h2]
        exact ih _

theorem parseRequest_headers (requestData : Str) :
    (parseRequest requestData).headers =
      (headerBlock ((getlineAll '\n' requestData).drop 1)).foldl specStoreHeader [] := by
  cases h : getlineAll '\n' requestData with
  | nil =>
    unfold parseRequest
    rw [h]
    rfl
  | cons line lines =>
    rw [parseRequest_of_lines requestData line lines h, headerLoop_eq]
    rfl

theorem specStoreHeader_pair (headers : StrMap) (l key value : Str)
    (hl : chomp l = key ++ ':' :: value) (hkey : ':' ∉ key) :
    specStoreHeader headers l =
      StrMap.insert (Utils.toLower key)
        (value.dropWhile fun c => c = ' ' || c = '\t') headers := by
  obtain ⟨h1, h2⟩ := split_at_first_unique ':' key value hkey
  have hmem : ':' ∈ key ++ ':' :: value := by simp
  simp only [specStoreHeader, hl, if_pos hmem]
  simp only [ne_eq, decide_not] at h1 h2 ⊢
  rw [h1, h2]

theorem foldl_specStoreHeader_find (post : List Str) (headers : StrMap) (k : Str)
    (hpost : ∀ l ∈ post, ∀ key value : Str, chomp l = key ++ ':' :: value → ':' ∉ key →
      Utils.toLower key ≠ k) :
    StrMap.find k (post.foldl specStoreHeader headers) = StrMap.find k headers := by
  induction post generalizing headers with
  | nil => rfl
  | cons l post ih =>
    rw [List.foldl_cons]
    rw [ih _ (fun q hq => hpost q (List.mem_cons_of_mem l hq))]
    by_cases hmem : ':' ∈ chomp l
    · obtain ⟨h1, h2⟩ := split_at_first ':' (chomp l) hmem
      have hne := hpost l (List.mem_cons_self l post) _ _ h2 h1
      rw [specStoreHeader_pair headers l _ _ h2 h1]
      exact StrMap.find_insert_of_ne k _ _ headers (fun e => hne e.symm)
    · simp only [specStoreHeader, if_neg hmem]

theorem tolower_not_upper (c : Char) :
    ¬(65 ≤ (tolower c).toNat ∧ (tolower c).toNat ≤ 90) := by
  unfold tolower
  by_cases h : 65 ≤ c.toNat ∧ c.toNat ≤ 90
  · rw [if_pos h]
    obtain ⟨h1, h2⟩ := h
    generalize c.toNat = n at h1 h2
    interval_cases n <;> decide
  · rw [if_neg h]
    exact h

theorem toLower_not_upper (key : Str) :
    ∀ c ∈ Utils.toLower key, ¬(65 ≤ c.toNat ∧ c.toNat ≤ 90) := by
  intro c hc
  unfold Utils.toLower at hc
  obtain ⟨d, _, hd⟩ := List.mem_map.1 hc
  rw [← hd]
  exact tolower_not_upper d

theorem StrMap.mem_insert (k v : Str) (m : StrMap) (kv : Str × Str)
    (h : kv ∈ StrMap.insert k v m) : kv = (k, v) ∨ kv ∈ m := by
  induction m with
  | nil =>
    left
    simpa [StrMap.insert] using h
  | cons kv' m ih =>
    obtain ⟨k', v'⟩ := kv'
    unfold StrMap.insert at h
    by_cases h1 : k = k'
    · simp only [h1, if_true] at h
      rcases List.mem_cons.1 h with h | h
      · left
        rw [h, h1]
      · right
        exact List.mem_cons_of_mem _ h
    · by_cases h2 : strLt k k' = true
      · simp only [h1, h2, if_true, if_false] at h
        rcases List.mem_cons.1 h with h | h
        · exact Or.inl h
        · exact Or.inr h
      · simp only [h1, h2, if_false] at h
        rcases List.mem_cons.1 h with h | h
        · right
          rw [h]
          exact List.mem_cons_self _ _
        · rcases ih h with h | h
          · exact Or.inl h
          · exact Or.inr (List.mem_cons_of_mem _ h)

theorem foldl_specStoreHeader_lower (ls : List Str) (headers : StrMap)
    (h : ∀ kv ∈ headers, ∀ c ∈ kv.1, ¬(65 ≤ c.toNat ∧ c.toNat ≤ 90)) :
    ∀ kv ∈ ls.foldl specStoreHeader headers, ∀ c ∈ kv.1, ¬(65 ≤ c.toNat ∧ c.toNat ≤ 90) := by
  induction ls generalizing headers with
  | nil => exact h
  | cons l ls ih =>
    rw [List.foldl_cons]
    apply ih
    intro kv hkv
    unfold specStoreHeader at hkv
    by_cases hmem : ':' ∈ chomp l
    · rw [if_pos hmem] at hkv
      rcases StrMap.mem_insert _ _ _ kv hkv with hkv | hkv
      · rw [hkv]
        exact toLower_not_upper _
      · exact h kv hkv
    · rw [if_neg hmem] at hkv
      exact h kv hkv

/-! ## Lemmas: the body loop -/

theorem bodyLoop_eq_intercalate (l : Str) (ls : List Str) :
    bodyLoop (l :: ls) = List.intercalate ['\n'] (l :: ls) ++ ['\n'] := by
  induction ls generalizing l with
  | nil => simp [bodyLoop, List.intercalate]
  | cons l' ls ih =>
    rw [bodyLoop, ih l']
    simp [List.intercalate]

theorem body_of_bodyLoop (ls : List Str) :
    (if bodyLoop ls ≠ [] then (bodyLoop ls).take ((bodyLoop ls).length - 1) else []) =
      List.intercalate ['\n'] ls := by
  cases ls with
  | nil => simp [bodyLoop, List.intercalate]
  | cons l ls =>
    rw [bodyLoop_eq_intercalate]
    simp

theorem parseRequest_body (requestData : Str) :
    (parseRequest requestData).body =
      List.intercalate ['\n'] (bodyLines ((getlineAll '\n' requestData).drop 1)) := by
  cases h : getlineAll '\n' requestData with
  | nil =>
    unfold parseRequest
    rw [h]
    rfl
  | cons line lines =>
    rw [parseRequest_of_lines requestData line lines h, headerLoop_eq]
    exact body_of_bodyLoop _

theorem getlineAll_step (d c : Char) (cs : Str) :
    getlineAll d (c :: cs) =
      if c = d then [] :: getlineAll d cs
      else
        match getlineAll d cs with
        | [] => [[c]]
        | l :: ls => (c :: l) :: ls := by
  rw [getlineAll]

theorem bodyLoop_getlineAll_cons (c : Char) (cs : Str) (hcs : cs ≠ []) :
    bodyLoop (getlineAll '\n' (c :: cs)) = c :: bodyLoop (getlineAll '\n' cs) := by
  rw [getlineAll_step]
  by_cases h : c = '\n'
  · simp [h, bodyLoop]
  · simp only [h, if_false]
    cases hg : getlineAll '\n' cs with
    | nil => exact absurd ((getlineAll_eq_nil_iff '\n' cs).1 hg) hcs
    | cons l ls => simp [bodyLoop]

theorem dropFinalNewline_cons (c : Char) (cs : Str) (hcs : cs ≠ []) :
    dropFinalNewline (c :: cs) = c :: dropFinalNewline cs := by
  obtain ⟨d, ds, rfl⟩ := List.exists_cons_of_ne_nil hcs
  unfold dropFinalNewline
  by_cases h : (d :: ds).getLast? = some '\n'
  · simp [h]
  · simp [h]

theorem bodyLoop_getlineAll (text : Str) (h : text ≠ []) :
    bodyLoop (getlineAll '\n' text) = dropFinalNewline text ++ ['\n'] := by
  induction text with
  | nil => exact absurd rfl h
  | cons c cs ih =>
    by_cases hcs : cs = []
    · subst hcs
      by_cases hc : c = '\n'
      · subst hc
        decide
      · simp [getlineAll, bodyLoop, dropFinalNewline, hc]
    · rw [bodyLoop_getlineAll_cons c cs hcs, ih hcs, dropFinalNewline_cons c cs hcs]
      rfl

theorem intercalate_getlineAll (text : Str) :
    List.intercalate ['\n'] (getlineAll '\n' text) = dropFinalNewline text := by
  by_cases h : text = []
  · subst h
    rfl
  · have h1 := body_of_bodyLoop (getlineAll '\n' text)
    rw [bodyLoop_getlineAll text h] at h1
    rw [← h1]
    simp

theorem getlineAll_append_sep (d : Char) (a t : Str) :
    getlineAll d (a ++ d :: t) = getlineAll d (a ++ [d]) ++ getlineAll d t := by
  induction a with
  | nil => simp [getlineAll]
  | cons c a ih =>
    rw [List.cons_append, List.cons_append, getlineAll_step, getlineAll_step d c (a ++ [d]), ih]
    by_cases h : c = d
    · simp [h]
    · have hne : getlineAll d (a ++ [d]) ≠ [] := by
        intro e
        have := (getlineAll_eq_nil_iff d _).1 e
        simp at this
      obtain ⟨l, ls, hl⟩ := List.exists_cons_of_ne_nil hne
      simp only [if_neg h, hl]
      rfl

theorem bodyLines_append (hs : List Str) (blank : Str) (rest : List Str)
    (hhs : ∀ h ∈ hs, isHeaderLine h = true) (hblank : isHeaderLine blank = false) :
    bodyLines (hs ++ blank :: rest) = rest := by
  unfold bodyLines
  rw [List.dropWhile_append_of_pos hhs]
  simp [hblank]

theorem bodyLines_of_all_header (lines : List Str)
    (h : ∀ l ∈ lines, isHeaderLine l = true) : bodyLines lines = [] := by
  unfold bodyLines
  rw [List.dropWhile_eq_nil_iff.2 h]
  rfl

/-! ## Lemmas: key order of maps -/

theorem char_eq_of_toNat_eq (a b : Char) (h : a.toNat = b.toNat) : a = b := by
  rw [← Char.ofNat_toNat a, ← Char.ofNat_toNat b, h]

theorem strLt_irrefl (a : Str) : strLt a a = false := by
  induction a with
  | nil => rfl
  | cons c cs ih => simp [strLt, ih]

theorem strLt_total (a b : Str) (hne : a ≠ b) (h : strLt a b = false) : strLt b a = true := by
  induction a generalizing b with
  | nil =>
    cases b with
    | nil => exact absurd rfl hne
    | cons d ds => simp [strLt] at h
  | cons c cs ih =>
    cases b with
    | nil => rfl
    | cons d ds =>
      unfold strLt at h ⊢
      by_cases h1 : c.toNat < d.toNat
      · simp [h1] at h
      · by_cases h2 : d.toNat < c.toNat
        · simp [h2]
        · have hcd : c = d := char_eq_of_toNat_eq c d (by omega)
          subst hcd
          simp only [h1, if_false] at h ⊢
          exact ih ds (fun e => hne (by rw [e])) h

theorem strLt_trans (a b c : Str) (hab : strLt a b = true) (hbc : strLt b c = true) :
    strLt a c = true := by
  induction a generalizing b c with
  | nil =>
    cases c with
    | nil =>
      cases b <;> simp [strLt] at hab hbc
    | cons z zs => rfl
  | cons x xs ih =>
    cases b with
    | nil => simp [strLt] at hab
    | cons y ys =>
      cases c with
      | nil => simp [strLt] at hbc
      | cons z zs =>
        unfold strLt at hab hbc ⊢
        by_cases h1 : x.toNat < y.toNat
        · by_cases h2 : y.toNat < z.toNat
          · have : x.toNat < z.toNat := by omega
            simp [this]
          · by_cases h3 : z.toNat < y.toNat
            · simp [h2, h3] at hbc
            · have : x.toNat < z.toNat := by omega
              simp [this]
        · by_cases h1' : y.toNat < x.toNat
          · simp [h1, h1'] at hab
          · simp only [h1, h1', if_false] at hab
            by_cases h2 : y.toNat < z.toNat
            · have : x.toNat < z.toNat := by omega
              simp [this]
            · by_cases h3 : z.toNat < y.toNat
              · simp [h2, h3] at hbc
              · simp only [h2, h3, if_false] at hbc
                have e1 : ¬ x.toNat < z.toNat := by omega
                have e2 : ¬ z.toNat < x.toNat := by omega
                simp only [e1, e2, if_false]
                exact ih ys zs hab hbc

theorem StrMap.ordered_insert (k v : Str) (m : StrMap) (h : StrMap.Ordered m) :
    StrMap.Ordered (StrMap.insert k v m) := by
  induction m with
  | nil => simp [StrMap.insert, StrMap.Ordered]
  | cons kv m ih =>
    obtain ⟨k', v'⟩ := kv
    unfold StrMap.Ordered at h ih ⊢
    rw [List.pairwise_cons] at h
    obtain ⟨hhead, htail⟩ := h
    unfold StrMap.insert
    by_cases h1 : k = k'
    · subst h1
      simp only [if_true]
      rw [List.pairwise_cons]
      exact ⟨hhead, htail⟩
    · by_cases h2 : strLt k k' = true
      · simp only [h1, h2, if_true, if_false]
        rw [List.pairwise_cons, List.pairwise_cons]
        refine ⟨?_, hhead, htail⟩
        intro b hb
        rcases List.mem_cons.1 hb with hb | hb
        · rw [hb]
          exact h2
        · exact strLt_trans k k' b.1 h2 (hhead b hb)
      · rw [if_neg h1, if_neg h2, List.pairwise_cons]
        refine ⟨?_, ih htail⟩
        intro b hb
        rcases StrMap.mem_insert k v m b hb with hb | hb
        · rw [hb]
          exact strLt_total k k' h1 (by simpa using h2)
        · exact hhead b hb

theorem headerLines_eq_flatten (m : StrMap) :
    headerLines m =
      (m.map fun kv => kv.1 ++ ": ".toList ++ kv.2 ++ "\r\n".toList).flatten := by
  induction m with
  | nil => rfl
  | cons kv m ih =>
    obtain ⟨k, v⟩ := kv
    simp only [headerLines, List.map_cons, List.flatten_cons, ih]

/-! ## Lemmas: templates without a parameter -/

theorem pathToRegex_literal (t : Str) (names : List Str) (ht : ':' ∉ t) :
    pathToRegex t names = ('^' :: (escaped t ++ "$".toList), names) := by
  unfold pathToRegex
  rw [foldl_step_literal t _ rfl ht]
  simp [pathToRegexEnd]

theorem compile_literal (t : Str) :
    Regex.compile ('^' :: (escaped t ++ "$".toList)) =
      some (Node.bol :: (literals t ++ [Node.eol])) := by
  unfold Regex.compile
  have h1 : ∀ (rest : Str) (acc : List Node),
      Regex.compileAux ('^' :: rest) Mode.top acc =
        Regex.compileAux rest Mode.top (Node.bol :: acc) := by
    intro rest acc
    rw [Regex.compileAux]
    simp
  have h2 : ∀ acc : List Node, Regex.compileAux "$".toList Mode.top acc =
      some ((Node.eol :: acc).reverse) := by
    intro acc
    rfl
  rw [h1, compileAux_escaped, h2]
  simp

theorem escaped_length (t : Str) : t.length ≤ (escaped t).length := by
  induction t with
  | nil => simp [escaped]
  | cons c cs ih =>
    unfold escaped
    by_cases hm : isMeta c = true
    · simp only [hm, if_true, List.length_append, List.length_cons, List.length_nil]
      omega
    · simp only [hm, List.length_append, List.length_cons, List.length_nil]
      simp
      omega

theorem pattern_ne_literal (t : Str) : '^' :: (escaped t ++ "$".toList) ≠ t := by
  intro h
  have hlen := congrArg List.length h
  have := escaped_length t
  simp only [List.length_cons, List.length_append] at hlen
  omega

theorem route_new_literal {σ : Type} (method t : Str) (handler : Handler σ) (ht : ':' ∉ t) :
    Route.new method t handler =
      { method := method
        path := t
        pattern := '^' :: (escaped t ++ "$".toList)
        pathRegex := some (Node.bol :: (literals t ++ [Node.eol]))
        paramNames := []
        handler := handler } := by
  have hp := pathToRegex_literal t [] ht
  rw [route_new_of_compiled method t handler (Node.bol :: (literals t ++ [Node.eol]))
    (by rw [hp]; exact compile_literal t), hp]

theorem matchPath_literal {σ : Type} (method t : Str) (handler : Handler σ) (ht : ':' ∉ t)
    (path : Str) : matchPath path (Route.new method t handler) = true ↔ path = t := by
  rw [route_new_literal method t handler ht]
  unfold matchPath
  simp only [if_neg (pattern_ne_literal t), Option.isSome_iff_exists, regex_match]
  have hbol : matchNodes (Node.bol :: (literals t ++ [Node.eol])) true path =
      matchNodes (literals t ++ [Node.eol]) true path := by
    simp [matchNodes]
  simp only [hbol, matchNodes_literals_eol]
  constructor
  · rintro ⟨_, h, _⟩
    exact h
  · intro h
    exact ⟨[], h, rfl⟩

theorem route_new_method {σ : Type} (method t : Str) (handler : Handler σ) :
    (Route.new method t handler).method = method := by
  cases hc : Regex.compile (pathToRegex t []).1 with
  | none => rw [route_new_of_failed method t handler hc]
  | some re => rw [route_new_of_compiled method t handler re hc]

theorem route_new_path {σ : Type} (method t : Str) (handler : Handler σ) :
    (Route.new method t handler).path = t := by
  cases hc : Regex.compile (pathToRegex t []).1 with
  | none => rw [route_new_of_failed method t handler hc]
  | some re => rw [route_new_of_compiled method t handler re hc]

/-! ## Lemmas: malformed requests -/

theorem Str.find_lt_length (c : Char) (s : Str) (i : Nat) (h : Str.find c s = some i) :
    i < s.length := by
  induction s generalizing i with
  | nil => simp [Str.find] at h
  | cons d s ih =>
    unfold Str.find at h
    by_cases hd : d = c
    · simp only [hd, if_true, Option.some.injEq] at h
      subst h
      simp
    · simp only [hd, if_false, Option.map_eq_some'] at h
      obtain ⟨i', hi', rfl⟩ := h
      have := ih i' hi'
      simp only [List.length_cons]
      omega

theorem substr_after_find (c : Char) (s : Str) (i : Nat) (h : Str.find c s = some i) :
    Str.substr? s 0 (some i) = some (s.take i) ∧
    Str.substr? s (i + 1) none = some (s.drop (i + 1)) := by
  have hlt := Str.find_lt_length c s i h
  constructor
  · simp [Str.substr?]
  · have hle : i + 1 ≤ s.length := hlt
    simp [Str.substr?, hle]

theorem extractToken_all_space (s : Str) (h : ∀ c ∈ s, isSpace c = true) :
    extractToken s = ([], []) := by
  unfold extractToken
  rw [List.dropWhile_eq_nil_iff.2 h]
  rfl

theorem parseRequest_no_token (requestData line : Str) (lines : List Str)
    (hlines : getlineAll '\n' requestData = line :: lines)
    (hline : ∀ c ∈ line, isSpace c = true) :
    (parseRequest requestData).method = [] ∧ (parseRequest requestData).path = [] ∧
    (parseRequest requestData).query = [] ∧ (parseRequest requestData).params = [] := by
  rw [parseRequest_of_lines requestData line lines hlines, extractToken_all_space line hline]
  have h0 : extractToken ([] : Str) = ([], []) := rfl
  simp only [h0]
  exact ⟨trivial, rfl, rfl, rfl⟩

theorem parseRequest_one_token (requestData : Str) (lines : List Str) (ws0 m ws1 : Str)
    (hlines : getlineAll '\n' requestData = (ws0 ++ (m ++ ws1)) :: lines)
    (hws0 : ∀ c ∈ ws0, isSpace c = true) (hm : m ≠ []) (hm' : ∀ c ∈ m, isSpace c = false)
    (hws1 : ∀ c ∈ ws1, isSpace c = true) :
    (parseRequest requestData).method = m ∧ (parseRequest requestData).path = [] ∧
    (parseRequest requestData).query = [] ∧ (parseRequest requestData).params = [] := by
  have htail : ws1 = [] ∨ ∃ c t, ws1 = c :: t ∧ isSpace c = true := by
    cases ws1 with
    | nil => exact Or.inl rfl
    | cons c t => exact Or.inr ⟨c, t, rfl, hws1 c (List.mem_cons_self c t)⟩
  rw [parseRequest_of_lines requestData _ lines hlines,
    extractToken_token ws0 m ws1 hws0 hm hm' htail]
  simp only [extractToken_all_space ws1 hws1]
  exact ⟨trivial, rfl, rfl, rfl⟩

theorem specStoreHeader_no_colon (headers : StrMap) (l : Str) (h : ':' ∉ chomp l) :
    specStoreHeader headers l = headers := by
  simp only [specStoreHeader, if_neg h]

/-! ## Lemmas: the names of the markers -/

theorem pathToRegexStep_colon (st : RegexBuild) :
    pathToRegexStep st ':' = { st with inParam := true, currentParam := [] } := by
  simp [pathToRegexStep]

theorem pathToRegexStep_delim (st : RegexBuild) (c : Char) (hin : st.inParam = true)
    (hc : isDelim c = true) :
    pathToRegexStep st c =
      { (if st.currentParam ≠ [] then pushParam st else st) with
        inParam := false
        regex := (if st.currentParam ≠ [] then pushParam st else st).regex ++ [c] } := by
  have hd : c = '/' ∨ c = '?' ∨ c = '#' ∨ c = '&' := by
    simpa [isDelim, or_assoc] using hc
  have hcolon : c ≠ ':' := by
    rcases hd with h | h | h | h <;> subst h <;> decide
  unfold pathToRegexStep
  rw [if_neg hcolon, if_pos ⟨hin, hd⟩]

theorem pathToRegexStep_name (st : RegexBuild) (c : Char) (hin : st.inParam = true)
    (hcolon : c ≠ ':') (hc : isDelim c = false) :
    pathToRegexStep st c = { st with currentParam := st.currentParam ++ [c] } := by
  have hd : ¬(c = '/' ∨ c = '?' ∨ c = '#' ∨ c = '&') := by
    simp only [isDelim, Bool.or_eq_false_iff, decide_eq_false_iff_not] at hc
    tauto
  unfold pathToRegexStep
  rw [if_neg hcolon, if_neg (fun h => hd h.2), if_pos hin]

theorem pathToRegexStep_outside (st : RegexBuild) (c : Char) (hin : st.inParam = false)
    (hcolon : c ≠ ':') :
    pathToRegexStep st c =
      { st with regex := st.regex ++ (if isMeta c = true then ['\\', c] else [c]) } := by
  unfold pathToRegexStep
  have h1 : ¬(st.inParam = true ∧ (c = '/' ∨ c = '?' ∨ c = '#' ∨ c = '&')) := by
    rw [hin]
    simp
  have h2 : ¬ st.inParam = true := by
    rw [hin]
    simp
  rw [if_neg hcolon, if_neg h1, if_neg h2]
  by_cases hm : isMeta c = true <;> simp [hm]

theorem names_of_markers (t : Str)
    (ht : ∀ pre post : Str, t = pre ++ ':' :: post → ':' ∉ specMarkerName post) :
    ∀ st : RegexBuild,
      (st.inParam = false →
        (pathToRegexEnd (t.foldl pathToRegexStep st)).paramNames =
          st.paramNames ++ specMarkerNames t) ∧
      (st.inParam = true → ':' ∉ specMarkerName t →
        (pathToRegexEnd (t.foldl pathToRegexStep st)).paramNames =
          st.paramNames ++
            (if st.currentParam ++ specMarkerName t ≠ [] then
              [st.currentParam ++ specMarkerName t] else []) ++ specMarkerNames t) := by
  induction t with
  | nil =>
    intro st
    constructor
    · intro hin
      simp [pathToRegexEnd, hin, specMarkerNames]
    · intro hin _
      by_cases hcur : st.currentParam = []
      · simp [pathToRegexEnd, hin, hcur, specMarkerNames, specMarkerName]
      · simp [pathToRegexEnd, hin, hcur, specMarkerNames, specMarkerName, pushParam]
  | cons c t ih =>
    have ht' : ∀ pre post : Str, t = pre ++ ':' :: post → ':' ∉ specMarkerName post := by
      intro pre post h
      exact ht (c :: pre) post (by rw [h]; rfl)
    have ih' := ih ht'
    intro st
    rw [List.foldl_cons]
    by_cases hcolon : c = ':'
    · subst hcolon
      rw [pathToRegexStep_colon]
      constructor
      · intro _
        have hrun : ':' ∉ specMarkerName t := ht [] t rfl
        have h := (ih' { st with inParam := true, currentParam := [] }).2 rfl hrun
        rw [h]
        simp [specMarkerNames]
      · intro _ hrun
        exfalso
        apply hrun
        have hnd : isDelim ':' = false := by decide
        simp [specMarkerName, hnd]
    · by_cases hd : isDelim c = true
      · constructor
        · intro hin
          rw [pathToRegexStep_outside st c hin hcolon]
          have h := (ih' { st with
            regex := st.regex ++ (if isMeta c = true then ['\\', c] else [c]) }).1 hin
          rw [h]
          simp [specMarkerNames, hcolon]
        · intro hin _
          rw [pathToRegexStep_delim st c hin hd]
          have hrun : specMarkerName (c :: t) = [] := by
            simp [specMarkerName, hd]
          rw [hrun, List.append_nil]
          by_cases hcur : st.currentParam = []
          · have h := (ih' { st with inParam := false, regex := st.regex ++ [c] }).1 rfl
            simp only [hcur, ne_eq, not_true_eq_false, if_false] at h ⊢
            rw [h]
            simp [specMarkerNames, hcolon]
          · have h := (ih' { pushParam st with
              inParam := false, regex := (pushParam st).regex ++ [c] }).1 rfl
            simp only [hcur, ne_eq, not_false_eq_true, if_true] at h ⊢
            rw [h]
            simp [specMarkerNames, hcolon, pushParam]
      · have hd' : isDelim c = false := by simpa using hd
        constructor
        · intro hin
          rw [pathToRegexStep_outside st c hin hcolon]
          have h := (ih' { st with
            regex := st.regex ++ (if isMeta c = true then ['\\', c] else [c]) }).1 hin
          rw [h]
          simp [specMarkerNames, hcolon]
        · intro hin hrun
          rw [pathToRegexStep_name st c hin hcolon hd']
          have hrun_eq : specMarkerName (c :: t) = c :: specMarkerName t := by
            simp [specMarkerName, hd']
          have hrun' : ':' ∉ specMarkerName t := by
            intro hmem
            apply hrun
            rw [hrun_eq]
            exact List.mem_cons_of_mem c hmem
          have h := (ih' { st with currentParam := st.currentParam ++ [c] }).2 hin hrun'
          rw [h, hrun_eq]
          simp [specMarkerNames, hcolon]

theorem pathToRegex_names (t : Str)
    (ht : ∀ pre post : Str, t = pre ++ ':' :: post → ':' ∉ specMarkerName post) :
    (pathToRegex t []).2 = specMarkerNames t := by
  unfold pathToRegex
  have h := (names_of_markers t ht
    { regex := "^".toList, currentParam := [], inParam := false, paramNames := [] }).1 rfl
  simpa using h

theorem namesColonFree_spec (t : Str) (h : namesColonFree t = true) :
    ∀ pre post : Str, t = pre ++ ':' :: post → ':' ∉ specMarkerName post := by
  induction t with
  | nil =>
    intro pre post e
    cases pre <;> simp at e
  | cons c t ih =>
    unfold namesColonFree at h
    rw [Bool.and_eq_true] at h
    intro pre post e
    cases pre with
    | nil =>
      simp only [List.nil_append, List.cons.injEq] at e
      obtain ⟨hc, ht⟩ := e
      subst hc ht
      simpa using h.1
    | cons d pre =>
      simp only [List.cons_append, List.cons.injEq] at e
      exact ih h.2 pre post e.2

/-! ## Lemmas: the pieces of an emitted pattern -/

theorem renderToks_append (a b : List Tok) :
    renderToks (a ++ b) = renderToks a ++ renderToks b := by
  induction a with
  | nil => rfl
  | cons tok toks ih => simp [renderToks, ih]

theorem emittedAs_append (regex : Str) (names : List Str) (tok : Tok) (hok : tok.ok)
    (h : EmittedAs regex names) :
    EmittedAs (regex ++ tok.render) (names ++ [tok].filterMap Tok.name) := by
  obtain ⟨toks, hr, hoks, hn⟩ := h
  refine ⟨toks ++ [tok], ?_, ?_, ?_⟩
  · rw [hr, renderToks_append]
    simp [renderToks]
  · intro x hx
    rcases List.mem_append.1 hx with hx | hx
    · exact hoks x hx
    · have : x = tok := by simpa using hx
      rw [this]
      exact hok
  · rw [hn, List.filterMap_append]

theorem emittedAs_pushParam (st : RegexBuild) (hcur : st.currentParam ≠ [])
    (h : EmittedAs st.regex st.paramNames) :
    EmittedAs (pushParam st).regex (pushParam st).paramNames :=
  emittedAs_append st.regex st.paramNames (Tok.group st.currentParam) hcur h

theorem emittedAs_step (st : RegexBuild) (c : Char) (h : EmittedAs st.regex st.paramNames) :
    EmittedAs (pathToRegexStep st c).regex (pathToRegexStep st c).paramNames := by
  by_cases hcolon : c = ':'
  · subst hcolon
    rw [pathToRegexStep_colon]
    exact h
  · by_cases hin : st.inParam = true
    · by_cases hd : isDelim c = true
      · rw [pathToRegexStep_delim st c hin hd]
        have hc : (isMeta c = false ∨ c = '?') ∧ c ≠ ':' := by
          have hd' : c = '/' ∨ c = '?' ∨ c = '#' ∨ c = '&' := by
            simpa [isDelim, or_assoc] using hd
          refine ⟨?_, hcolon⟩
          rcases hd' with e | e | e | e
          · subst e
            exact Or.inl (by decide)
          · exact Or.inr e
          · subst e
            exact Or.inl (by decide)
          · subst e
            exact Or.inl (by decide)
        by_cases hcur : st.currentParam ≠ []
        · rw [if_pos hcur]
          have := emittedAs_append _ _ (Tok.chr c) hc (emittedAs_pushParam st hcur h)
          simpa [Tok.render, Tok.name] using this
        · rw [if_neg hcur]
          have := emittedAs_append _ _ (Tok.chr c) hc h
          simpa [Tok.render, Tok.name] using this
      · have hd' : isDelim c = false := by simpa using hd
        rw [pathToRegexStep_name st c hin hcolon hd']
        exact h
    · have hin' : st.inParam = false := by simpa using hin
      rw [pathToRegexStep_outside st c hin' hcolon]
      by_cases hm : isMeta c = true
      · have := emittedAs_append _ _ (Tok.esc c) hm h
        simpa [Tok.render, Tok.name, hm] using this
      · have hc : (isMeta c = false ∨ c = '?') ∧ c ≠ ':' := ⟨Or.inl (by simpa using hm), hcolon⟩
        have := emittedAs_append _ _ (Tok.chr c) hc h
        simpa [Tok.render, Tok.name, hm] using this

theorem emittedAs_foldl (path : Str) (st : RegexBuild)
    (h : EmittedAs st.regex st.paramNames) :
    EmittedAs (path.foldl pathToRegexStep st).regex
      (path.foldl pathToRegexStep st).paramNames := by
  induction path generalizing st with
  | nil => exact h
  | cons c cs ih => exact ih _ (emittedAs_step st c h)

theorem emittedAs_end (st : RegexBuild) (h : EmittedAs st.regex st.paramNames) :
    EmittedAs (pathToRegexEnd st).regex (pathToRegexEnd st).paramNames := by
  unfold pathToRegexEnd
  by_cases hc : st.inParam = true ∧ st.currentParam ≠ []
  · rw [if_pos hc]
    exact emittedAs_pushParam st hc.2 h
  · rw [if_neg hc]
    exact h

theorem pathToRegex_emittedAs (t : Str) :
    ∃ toks : List Tok, (pathToRegex t []).1 = '^' :: (renderToks toks ++ "$".toList) ∧
      (∀ tok ∈ toks, tok.ok) ∧ (pathToRegex t []).2 = toks.filterMap Tok.name := by
  have hinit : EmittedAs "^".toList [] := ⟨[], rfl, by simp, rfl⟩
  obtain ⟨toks, hr, hoks, hn⟩ := emittedAs_end _ (emittedAs_foldl t
    { regex := "^".toList, currentParam := [], inParam := false, paramNames := [] } hinit)
  refine ⟨toks, ?_, hoks, ?_⟩
  · simp only [pathToRegex, hr]
    rfl
  · simp only [pathToRegex, hn]

theorem unescapedParens_renderToks (toks : List Tok) (hoks : ∀ tok ∈ toks, tok.ok)
    (rest : Str) :
    unescapedParens false (renderToks toks ++ rest) =
      (toks.filterMap Tok.name).length + unescapedParens false rest := by
  induction toks with
  | nil => simp [renderToks]
  | cons tok toks ih =>
    have ih' := ih (fun x hx => hoks x (List.mem_cons_of_mem tok hx))
    have hok := hoks tok (List.mem_cons_self tok toks)
    cases tok with
    | chr c =>
      have h1 : c ≠ '(' := by
        intro e
        subst e
        rcases hok.1 with h | h
        · exact absurd h (by decide)
        · exact absurd h (by decide)
      have h2 : c ≠ '\\' := by
        intro e
        subst e
        rcases hok.1 with h | h
        · exact absurd h (by decide)
        · exact absurd h (by decide)
      simp [renderToks, Tok.render, Tok.name, unescapedParens, h1, h2, ih']
    | esc c =>
      simp [renderToks, Tok.render, Tok.name, unescapedParens, ih']
    | group name =>
      have hg : ∀ s : Str, unescapedParens false ("([^/]+)".toList ++ s) =
          1 + unescapedParens false s := by
        intro s
        show unescapedParens false ('(' :: '[' :: '^' :: '/' :: ']' :: '+' :: ')' :: s) = _
        simp [unescapedParens]
      simp only [renderToks, Tok.render, List.append_assoc, hg, ih', List.filterMap_cons,
        Tok.name, List.length_cons]
      omega

/-! ## Lemmas: a call of `route` that returns `false` -/

theorem finishCall_returned {σ : Type} (request1 : HttpRequest) (h : HandlerResult σ) :
    (finishCall request1 h).returned ≠ some false := by
  unfold finishCall
  cases h.exit <;> simp

theorem routeLoop_returned_false {σ : Type} (routes : List (Route σ)) (method path : Str)
    (request : HttpRequest) (response : HttpResponse) (w : σ)
    (h : (routeLoop routes method path request response w).returned = some false) :
    ∀ r ∈ routes, ¬(r.method = method ∧ matchPath path r = true) := by
  induction routes with
  | nil => simp
  | cons r rest ih =>
    by_cases hr : r.method = method ∧ matchPath path r = true
    · simp only [routeLoop, if_pos hr, dispatch] at h
      exact absurd h (finishCall_returned _ _)
    · simp only [routeLoop, if_neg hr] at h
      intro r' hr'
      rcases List.mem_cons.1 hr' with e | e
      · rw [e]
        exact hr
      · exact ih h r' e

/-! ## Lemmas: the pattern and the template -/

theorem colon_not_mem_renderToks (toks : List Tok) (hoks : ∀ tok ∈ toks, tok.ok) :
    ':' ∉ renderToks toks := by
  induction toks with
  | nil => simp [renderToks]
  | cons tok toks ih =>
    have ih' := ih (fun x hx => hoks x (List.mem_cons_of_mem tok hx))
    have hok := hoks tok (List.mem_cons_self tok toks)
    unfold renderToks
    rw [List.mem_append]
    rintro (h | h)
    · cases tok with
      | chr c =>
        have : ':' = c := by simpa [Tok.render] using h
        exact hok.2 this.symm
      | esc c =>
        have hc : ':' = c := by
          have : ':' = '\\' ∨ ':' = c := by simpa [Tok.render] using h
          rcases this with e | e
          · exact absurd e (by decide)
          · exact e
        have hm : isMeta c = true := hok
        rw [← hc] at hm
        exact absurd hm (by decide)
      | group name =>
        have : ':' ∈ "([^/]+)".toList := h
        exact absurd this (by decide)
    · exact ih' h

theorem colon_not_mem_pattern (t : Str) : ':' ∉ (pathToRegex t []).1 := by
  obtain ⟨toks, hr, hoks, _⟩ := pathToRegex_emittedAs t
  rw [hr]
  intro h
  rcases List.mem_cons.1 h with e | e
  · exact absurd e (by decide)
  · rcases List.mem_append.1 e with e | e
    · exact colon_not_mem_renderToks toks hoks e
    · exact absurd e (by decide)

theorem pattern_ne_template (t : Str) : (pathToRegex t []).1 ≠ t := by
  by_cases ht : ':' ∈ t
  · intro h
    have := colon_not_mem_pattern t
    rw [h] at this
    exact this ht
  · rw [pathToRegex_literal t [] ht]
    exact pattern_ne_literal t

theorem pattern_length_literal (t : Str) (ht : ':' ∉ t) :
    t.length + 2 ≤ (pathToRegex t []).1.length := by
  rw [pathToRegex_literal t [] ht]
  have := escaped_length t
  simp only [List.length_cons, List.length_append]
  have h1 : "$".toList.length = 1 := rfl
  omega

/-! ## Lemmas: percent-encoding -/

theorem putHex_byte (n : Nat) (h : n < 256) :
    putHex '0' 2 n = [Nat.digitChar (n / 16), Nat.digitChar (n % 16)] := by
  unfold putHex
  by_cases h16 : n < 16
  · have : Nat.toDigits 16 n = [Nat.digitChar n] := by
      simp [Nat.toDigits, Nat.toDigitsCore, Nat.div_eq_of_lt h16, Nat.mod_eq_of_lt h16]
    rw [this]
    simp [Nat.div_eq_of_lt h16, Nat.mod_eq_of_lt h16]
    rfl
  · have : Nat.toDigits 16 n = [Nat.digitChar (n / 16), Nat.digitChar (n % 16)] := by
      have h1 : n / 16 ≠ 0 := by omega
      have h2 : n / 16 / 16 = 0 := by omega
      have h3 : n / 16 % 16 = n / 16 := by omega
      obtain ⟨k, hk⟩ : ∃ k, n = k + 1 := ⟨n - 1, by omega⟩
      subst hk
      simp [Nat.toDigits, Nat.toDigitsCore, h1, h2, h3]
    rw [this]
    simp

theorem hexDigit_digitChar (a : Nat) (h : a < 16) : hexDigit (Nat.digitChar a) = some a := by
  interval_cases a <;> rfl

theorem digitChar_eq_specHexDigit (a : Nat) (h : a < 16) : Nat.digitChar a = specHexDigit a := by
  interval_cases a <;> rfl

theorem urlEncode_foldl (s acc : Str) :
    s.foldl urlEncodeStep acc = acc ++ s.foldl urlEncodeStep [] := by
  induction s generalizing acc with
  | nil => simp
  | cons c cs ih =>
    simp only [List.foldl_cons]
    rw [ih (urlEncodeStep acc c), ih (urlEncodeStep [] c)]
    have : urlEncodeStep acc c = acc ++ urlEncodeStep [] c := by
      unfold urlEncodeStep
      split_ifs <;> simp
    rw [this, List.append_assoc]

theorem urlEncode_cons (c : Char) (s : Str) :
    Utils.urlEncode (c :: s) = urlEncodeStep [] c ++ Utils.urlEncode s := by
  unfold Utils.urlEncode
  rw [List.foldl_cons, urlEncode_foldl]

theorem kept_iff (c : Char) :
    (isalnum c || c = '-' || c = '_' || c = '.' || c = '~') =
      (isAsciiLetter c || isAsciiDigit c || c = '-' || c = '_' || c = '.' || c = '~') := by
  have ha : 'a'.toNat = 97 := rfl
  have hz : 'z'.toNat = 122 := rfl
  have hA : 'A'.toNat = 65 := rfl
  have hZ : 'Z'.toNat = 90 := rfl
  have h0 : '0'.toNat = 48 := rfl
  have h9 : '9'.toNat = 57 := rfl
  rw [Bool.eq_iff_iff]
  simp only [isalnum, isAsciiLetter, isAsciiDigit, ha, hz, hA, hZ, h0, h9, Bool.or_eq_true,
    decide_eq_true_eq, Bool.decide_and, Bool.and_eq_true]
  tauto

theorem urlEncodeStep_eq_spec (c : Char) (hc : c.toNat < 256) :
    urlEncodeStep [] c = specEncodeByte c := by
  unfold urlEncodeStep specEncodeByte
  by_cases hk : (isalnum c || c = '-' || c = '_' || c = '.' || c = '~') = true
  · rw [if_pos hk, if_pos ((kept_iff c) ▸ hk)]
    rfl
  · rw [if_neg hk, if_neg ((kept_iff c) ▸ hk)]
    have hb : unsignedByte c = c.toNat := Nat.mod_eq_of_lt hc
    rw [hb, putHex_byte _ hc, digitChar_eq_specHexDigit _ (by omega),
      digitChar_eq_specHexDigit _ (by omega)]
    rfl

theorem kept_ne (c : Char)
    (hk : (isalnum c || c = '-' || c = '_' || c = '.' || c = '~') = true) :
    c ≠ '%' ∧ c ≠ '+' := by
  constructor
  · intro e
    subst e
    revert hk
    decide
  · intro e
    subst e
    revert hk
    decide

theorem urlDecode_urlEncodeStep (c : Char) (hc : c.toNat < 256) (rest : Str) :
    Utils.urlDecode (urlEncodeStep [] c ++ rest) = c :: Utils.urlDecode rest := by
  unfold urlEncodeStep
  by_cases hk : (isalnum c || c = '-' || c = '_' || c = '.' || c = '~') = true
  · rw [if_pos hk]
    obtain ⟨h1, h2⟩ := kept_ne c hk
    show Utils.urlDecode (c :: rest) = _
    rw [urlDecode_cons_of_ne c rest h1, if_neg h2]
  · rw [if_neg hk]
    have hb : unsignedByte c = c.toNat := Nat.mod_eq_of_lt hc
    rw [hb, putHex_byte _ hc]
    show Utils.urlDecode ('%' :: _ :: _ :: rest) = _
    rw [urlDecode_triplet _ _ (c.toNat / 16) (c.toNat % 16) rest
      (hexDigit_digitChar _ (by omega)) (hexDigit_digitChar _ (by omega))]
    have : 16 * (c.toNat / 16) + c.toNat % 16 = c.toNat := by omega
    rw [this, Char.ofNat_toNat]

/-! ## Lemmas: the update of `params` -/

theorem extractLoop_eq_spec (names caps : List Str) (params : StrMap) :
    extractLoop names caps params = specUpdateParams names caps params := by
  induction names generalizing caps params with
  | nil => simp [extractLoop, specUpdateParams]
  | cons n ns ih =>
    cases caps with
    | nil => simp [extractLoop, specUpdateParams]
    | cons c cs =>
      simp only [extractLoop]
      rw [ih cs]
      simp [specUpdateParams]

theorem extractParams_eq_spec {σ : Type} (path : Str) (r : Route σ) (params : StrMap) :
    (extractParams path r params).2 =
      match regex_match path r.pathRegex with
      | some caps => specUpdateParams r.paramNames caps params
      | none => params := by
  unfold extractParams
  by_cases hnil : r.paramNames = []
  · rw [if_pos hnil, hnil]
    cases regex_match path r.pathRegex <;> simp [specUpdateParams]
  · rw [if_neg hnil]
    cases regex_match path r.pathRegex with
    | none => rfl
    | some caps => exact extractLoop_eq_spec r.paramNames caps params

theorem route_new_fallback {σ : Type} (m t : Str) (h : Handler σ)
    (hpat : (Route.new m t h).pattern = (Route.new m t h).path) :
    (Route.new m t h).pathRegex = none := by
  cases hc : Regex.compile (pathToRegex t []).1 with
  | none => rw [route_new_of_failed m t h hc]
  | some re =>
    rw [route_new_of_compiled m t h re hc] at hpat
    exact absurd hpat (pattern_ne_template t)

/-! ## Lemmas: a name is pushed together with its group -/

theorem pathToRegexLoop_snoc (pre : Str) (c : Char) :
    pathToRegexLoop (pre ++ [c]) = pathToRegexStep (pathToRegexLoop pre) c := by
  simp [pathToRegexLoop, List.foldl_append]

theorem pathToRegex_eq_loop (t : Str) :
    pathToRegex t [] = ((pathToRegexEnd (pathToRegexLoop t)).regex ++ "$".toList,
      (pathToRegexEnd (pathToRegexLoop t)).paramNames) := rfl

theorem pathToRegexStep_effect (st : RegexBuild) (c : Char) :
    (∃ extra, (pathToRegexStep st c).regex = st.regex ++ extra ∧
      (pathToRegexStep st c).paramNames = st.paramNames) ∨
    (st.inParam = true ∧ isDelim c = true ∧ st.currentParam ≠ [] ∧
      (pathToRegexStep st c).regex = st.regex ++ "([^/]+)".toList ++ [c] ∧
      (pathToRegexStep st c).paramNames = st.paramNames ++ [st.currentParam]) := by
  by_cases hcolon : c = ':'
  · subst hcolon
    rw [pathToRegexStep_colon]
    exact Or.inl ⟨[], by simp, rfl⟩
  · by_cases hin : st.inParam = true
    · by_cases hd : isDelim c = true
      · rw [pathToRegexStep_delim st c hin hd]
        by_cases hcur : st.currentParam ≠ []
        · right
          rw [if_pos hcur]
          exact ⟨hin, hd, hcur, rfl, rfl⟩
        · left
          rw [if_neg hcur]
          exact ⟨[c], rfl, rfl⟩
      · have hd' : isDelim c = false := by simpa using hd
        rw [pathToRegexStep_name st c hin hcolon hd']
        exact Or.inl ⟨[], by simp, rfl⟩
    · have hin' : st.inParam = false := by simpa using hin
      rw [pathToRegexStep_outside st c hin' hcolon]
      exact Or.inl ⟨_, rfl, rfl⟩

theorem loop_in_param (pre : Str) (hin : (pathToRegexLoop pre).inParam = true) :
    ∃ tpre, pre = tpre ++ ':' :: (pathToRegexLoop pre).currentParam ∧
      ∀ c ∈ (pathToRegexLoop pre).currentParam, c ≠ ':' ∧ isDelim c = false := by
  induction pre using List.reverseRecOn with
  | nil => simp [pathToRegexLoop] at hin
  | append_singleton pre c ih =>
    rw [pathToRegexLoop_snoc] at hin ⊢
    by_cases hcolon : c = ':'
    · subst hcolon
      rw [pathToRegexStep_colon]
      exact ⟨pre, rfl, by simp⟩
    · by_cases hin0 : (pathToRegexLoop pre).inParam = true
      · by_cases hd : isDelim c = true
        · rw [pathToRegexStep_delim _ c hin0 hd] at hin
          simp at hin
        · have hd' : isDelim c = false := by simpa using hd
          rw [pathToRegexStep_name _ c hin0 hcolon hd']
          obtain ⟨tpre, hpre, hok⟩ := ih hin0
          refine ⟨tpre, ?_, ?_⟩
          · show pre ++ [c] = tpre ++ ':' :: ((pathToRegexLoop pre).currentParam ++ [c])
            nth_rewrite 1 [hpre]
            simp
          · intro x hx
            rcases List.mem_append.1 hx with hx | hx
            · exact hok x hx
            · have : x = c := by simpa using hx
              rw [this]
              exact ⟨hcolon, hd'⟩
      · have hin0' : (pathToRegexLoop pre).inParam = false := by simpa using hin0
        rw [pathToRegexStep_outside _ c hin0' hcolon] at hin
        simp [hin0'] at hin

theorem emittedAs_loop (pre : Str) :
    EmittedAs (pathToRegexLoop pre).regex (pathToRegexLoop pre).paramNames :=
  emittedAs_foldl pre _ ⟨[], rfl, by simp, rfl⟩

theorem emittedAs_parens (regex : Str) (names : List Str) (h : EmittedAs regex names)
    (rest : Str) :
    unescapedParens false (regex ++ rest) = names.length + unescapedParens false rest := by
  obtain ⟨toks, hr, hoks, hn⟩ := h
  rw [hr, hn]
  have hcaret : ∀ s : Str, unescapedParens false ('^' :: s) = unescapedParens false s := by
    intro s
    simp [unescapedParens]
  rw [List.cons_append, hcaret, unescapedParens_renderToks toks hoks]

theorem loop_parens (pre : Str) :
    unescapedParens false (pathToRegexLoop pre).regex = (pathToRegexLoop pre).paramNames.length ∧
    unescapedParens false ((pathToRegexLoop pre).regex ++ "([^/]+)".toList) =
      (pathToRegexLoop pre).paramNames.length + 1 := by
  have h := emittedAs_parens _ _ (emittedAs_loop pre)
  constructor
  · have h0 := h []
    simpa [unescapedParens] using h0
  · have hg : unescapedParens false "([^/]+)".toList = 1 := by decide
    rw [h, hg]

theorem pushedTogether_extend (b : Bool) (read regex : Str) (names : List Str)
    (h : PushedTogether true read regex names) (tmore pmore : Str) :
    PushedTogether b (read ++ tmore) (regex ++ pmore) names := by
  intro i name hi
  obtain ⟨tpre, tpost, ppost, hread, hpost, hne, hok, hin, hcur, hpn, hregex, hc1, hc2⟩ :=
    h i name hi
  refine ⟨tpre, tpost ++ tmore, ppost ++ pmore, ?_, ?_, hne, hok, hin, hcur, hpn, ?_, hc1, hc2⟩
  · rw [hread]
    simp
  · right
    rcases hpost with ⟨hf, _⟩ | ⟨d, rest, hd, hdel⟩
    · exact absurd hf (by decide)
    · exact ⟨d, rest ++ tmore, by rw [hd]; rfl, hdel⟩
  · rw [hregex]
    simp

theorem pushedTogether_push (b : Bool) (read regex : Str) (names : List Str)
    (h : PushedTogether true read regex names) (tmore pmore : Str) (name : Str)
    (hnew : ∃ tpre tpost ppost : Str,
      read ++ tmore = tpre ++ ':' :: (name ++ tpost) ∧
      ((b = false ∧ tpost = []) ∨ ∃ d rest, tpost = d :: rest ∧ isDelim d = true) ∧
      name ≠ [] ∧ (∀ c ∈ name, c ≠ ':' ∧ isDelim c = false) ∧
      (pathToRegexLoop (tpre ++ ':' :: name)).inParam = true ∧
      (pathToRegexLoop (tpre ++ ':' :: name)).currentParam = name ∧
      (pathToRegexLoop (tpre ++ ':' :: name)).paramNames = names ∧
      regex ++ pmore =
        (pathToRegexLoop (tpre ++ ':' :: name)).regex ++ "([^/]+)".toList ++ ppost ∧
      unescapedParens false (pathToRegexLoop (tpre ++ ':' :: name)).regex = names.length ∧
      unescapedParens false
        ((pathToRegexLoop (tpre ++ ':' :: name)).regex ++ "([^/]+)".toList) =
          names.length + 1) :
    PushedTogether b (read ++ tmore) (regex ++ pmore) (names ++ [name]) := by
  intro i nm hi
  by_cases hlt : i < names.length
  · rw [List.getElem?_append_left hlt] at hi
    obtain ⟨tpre, tpost, ppost, hread, hpost, hne, hok, hin, hcur, hpn, hregex, hc1, hc2⟩ :=
      pushedTogether_extend b read regex names h tmore pmore i nm hi
    refine ⟨tpre, tpost, ppost, hread, hpost, hne, hok, hin, hcur, ?_, hregex, hc1, hc2⟩
    rw [hpn, List.take_append_of_le_length (Nat.le_of_lt hlt)]
  · have hi_eq : i = names.length := by
      have hlt' : i < (names ++ [name]).length := by
        by_contra hge
        rw [List.getElem?_eq_none (Nat.le_of_not_lt hge)] at hi
        exact absurd hi (by simp)
      simp only [List.length_append, List.length_cons, List.length_nil] at hlt'
      omega
    subst hi_eq
    have hnm : nm = name := by
      simpa using hi.symm
    subst hnm
    obtain ⟨tpre, tpost, ppost, hread, hpost, hne, hok, hin, hcur, hpn, hregex, hc1, hc2⟩ :=
      hnew
    refine ⟨tpre, tpost, ppost, hread, hpost, hne, hok, hin, hcur, ?_, hregex, hc1, hc2⟩
    rw [hpn]
    simp

theorem pushedTogether_loop (pre : Str) :
    PushedTogether true pre (pathToRegexLoop pre).regex (pathToRegexLoop pre).paramNames := by
  induction pre using List.reverseRecOn with
  | nil =>
    intro i name hi
    simp [pathToRegexLoop] at hi
  | append_singleton pre c ih =>
    rw [pathToRegexLoop_snoc]
    rcases pathToRegexStep_effect (pathToRegexLoop pre) c with
      ⟨extra, hreg, hnames⟩ | ⟨hin, hd, hcur, hreg, hnames⟩
    · rw [hreg, hnames]
      exact pushedTogether_extend true pre _ _ ih [c] extra
    · rw [hreg, hnames, List.append_assoc]
      obtain ⟨tpre, hpre, hok⟩ := loop_in_param pre hin
      have hloop : pathToRegexLoop (tpre ++ ':' :: (pathToRegexLoop pre).currentParam) =
          pathToRegexLoop pre := by rw [← hpre]
      refine pushedTogether_push true pre _ _ ih [c] _ _
        ⟨tpre, [c], [c], ?_, Or.inr ⟨c, [], rfl, hd⟩, hcur, hok, ?_, ?_, ?_, ?_, ?_, ?_⟩
      · nth_rewrite 1 [hpre]
        simp
      · rw [hloop]
        exact hin
      · rw [hloop]
      · rw [hloop]
      · rw [hloop]
        simp
      · rw [hloop]
        exact (loop_parens pre).1
      · rw [hloop]
        exact (loop_parens pre).2

theorem pushedTogether_pathToRegex (t : Str) :
    PushedTogether false t (pathToRegex t []).1 (pathToRegex t []).2 := by
  rw [pathToRegex_eq_loop]
  have ih := pushedTogether_loop t
  unfold pathToRegexEnd
  by_cases hc : (pathToRegexLoop t).inParam = true ∧ (pathToRegexLoop t).currentParam ≠ []
  · rw [if_pos hc]
    obtain ⟨tpre, hpre, hok⟩ := loop_in_param t hc.1
    have hloop : pathToRegexLoop (tpre ++ ':' :: (pathToRegexLoop t).currentParam) =
        pathToRegexLoop t := by rw [← hpre]
    have h := pushedTogether_push false t _ _ ih [] ("([^/]+)".toList ++ "$".toList)
      (pathToRegexLoop t).currentParam
      ⟨tpre, [], "$".toList, ?_, Or.inl ⟨rfl, rfl⟩, hc.2, hok, ?_, ?_, ?_, ?_, ?_, ?_⟩
    · simpa [pushParam] using h
    · nth_rewrite 1 [hpre]
      simp
    · rw [hloop]
      exact hc.1
    · rw [hloop]
    · rw [hloop]
    · rw [hloop]
      simp
    · rw [hloop]
      exact (loop_parens t).1
    · rw [hloop]
      exact (loop_parens t).2
  · rw [if_neg hc]
    have h := pushedTogether_extend false t _ _ ih [] "$".toList
    simpa using h

/-! ## Claims about the router -/

/-- C1: `Router::route` is first-match-wins in insertion order. When route `i` is the route
with the smallest index whose method equals the request method and whose matcher matches the
path, the whole effect of `route` is the effect of extracting the parameters for route `i` and
calling the handler of route `i` once: no other handler contributes to the result, and the
route table is as before. -/
theorem route_first_match_wins {σ : Type} (self : Router σ) (method path : Str)
    (request : HttpRequest) (response : HttpResponse) (w : σ)
    (i : Nat) (r : Route σ) (hr : self.routes_[i]? = some r)
    (hsel : r.method = method ∧ matchPath path r = true)
    (hmin : ∀ (j : Nat) (r' : Route σ), j < i → self.routes_[j]? = some r' →
      ¬(r'.method = method ∧ matchPath path r' = true)) :
    self.route method path request response w =
      (self, dispatch r path request response w) := by
  unfold Router.route
  rw [routeLoop_of_first self.routes_ method path request response w i r hr hsel hmin]

/-- Witness for C1: after `addRoute("GET", "/a", h1)` and `addRoute("GET", "/a", h2)`, where
`h1` and `h2` record their calls, routing `GET /a` leaves the record of one call of `h1` and
none of `h2`. -/
theorem route_first_match_wins_witness :
    (((Router.new.addRoute "GET".toList "/a".toList (logCall 1)).addRoute
        "GET".toList "/a".toList (logCall 2)).routes_[0]? =
      some (Route.new "GET".toList "/a".toList (logCall 1))) ∧
    ((Route.new "GET".toList "/a".toList (logCall 1)).method = "GET".toList ∧
      matchPath "/a".toList (Route.new "GET".toList "/a".toList (logCall 1)) = true) ∧
    (((Router.new.addRoute "GET".toList "/a".toList (logCall 1)).addRoute
        "GET".toList "/a".toList (logCall 2)).route
        "GET".toList "/a".toList HttpRequest.empty HttpResponse.new []).2.world = [1] := by
  refine ⟨rfl, ⟨rfl, by decide⟩, ?_⟩
  rw [route_first_match_wins
    ((Router.new.addRoute "GET".toList "/a".toList (logCall 1)).addRoute
        "GET".toList "/a".toList (logCall 2))
    "GET".toList "/a".toList HttpRequest.empty HttpResponse.new []
    0 (Route.new "GET".toList "/a".toList (logCall 1)) rfl ⟨rfl, by decide⟩
    (fun j _ hj _ => absurd hj (Nat.not_lt_zero j))]
  rfl

/-- C2: a trailing parameter is captured at the end of the string. For a template
`l ++ ":" ++ name`, where `l` has no `':'` and `name` is non-empty and free of `':'`, `'/'`,
`'?'`, `'#'`, `'&'`, the compiled route matches a path `p` exactly when `p = l ++ seg` for a
non-empty `seg` without `'/'`, and extraction then sets `params[name] = seg`. -/
theorem trailing_param_captured {σ : Type} (l name : Str) (hl : ':' ∉ l) (hne : name ≠ [])
    (hname : ∀ c ∈ name, c ≠ ':' ∧ c ≠ '/' ∧ c ≠ '?' ∧ c ≠ '#' ∧ c ≠ '&')
    (method : Str) (handler : Handler σ) (p : Str) (params : StrMap) :
    (matchPath p (Route.new method (l ++ ':' :: name) handler) = true ↔
      ∃ seg, seg ≠ [] ∧ '/' ∉ seg ∧ p = l ++ seg) ∧
    (∀ seg, seg ≠ [] → '/' ∉ seg → p = l ++ seg →
      extractParams p (Route.new method (l ++ ':' :: name) handler) params =
        (true, StrMap.insert name seg params) ∧
      StrMap.find name
        (extractParams p (Route.new method (l ++ ':' :: name) handler) params).2 = some seg) := by
  rw [route_new_trailing_param method l name handler hl hne hname]
  have hpat := pattern_ne_path_trailing_param l name hl
  constructor
  · unfold matchPath
    simp only [if_neg hpat, Option.isSome_iff_exists, regex_match_trailing_param]
    constructor
    · rintro ⟨caps, seg, h1, h2, h3, _⟩
      exact ⟨seg, h1, h2, h3⟩
    · rintro ⟨seg, h1, h2, h3⟩
      exact ⟨[seg], seg, h1, h2, h3, rfl⟩
  · intro seg h1 h2 h3
    have hm := (regex_match_trailing_param l p [seg]).2 ⟨seg, h1, h2, h3, rfl⟩
    have hx : extractParams p
        ({ method := method, path := l ++ ':' :: name,
           pattern := '^' :: (escaped l ++ "([^/]+)$".toList),
           pathRegex := some (Node.bol :: (literals l ++ [Node.grp Quant.one, Node.eol])),
           paramNames := [name], handler := handler } : Route σ) params =
        (true, StrMap.insert name seg params) := by
      unfold extractParams
      simp only [hm]
      simp [extractLoop]
    rw [hx]
    exact ⟨rfl, StrMap.find_insert_self name seg params⟩

/-- Witness for C2: the template `/api/users/:id` matches `/api/users/42` with
`params["id"] == "42"`, and does not match `/api/users/42/extra`. -/
theorem trailing_param_captured_witness :
    (':' ∉ "/api/users/".toList) ∧ "id".toList ≠ [] ∧
    (∀ c ∈ "id".toList, c ≠ ':' ∧ c ≠ '/' ∧ c ≠ '?' ∧ c ≠ '#' ∧ c ≠ '&') ∧
    matchPath "/api/users/42".toList
      (Route.new "GET".toList ("/api/users/".toList ++ ':' :: "id".toList) noop) = true ∧
    StrMap.find "id".toList
      (extractParams "/api/users/42".toList
        (Route.new "GET".toList ("/api/users/".toList ++ ':' :: "id".toList) noop) []).2
      = some "42".toList ∧
    matchPath "/api/users/42/extra".toList
      (Route.new "GET".toList ("/api/users/".toList ++ ':' :: "id".toList) noop) = false := by
  have h := trailing_param_captured "/api/users/".toList "id".toList (by decide) (by decide)
    (by decide) "GET".toList noop "/api/users/42".toList []
  refine ⟨by decide, by decide, by decide, ?_, ?_, by decide⟩
  · exact h.1.2 ⟨"42".toList, by decide, by decide, by decide⟩
  · exact (h.2 "42".toList (by decide) (by decide) (by decide)).2

/-- C3, the code at the failing input: for the template `/a/:id?x` the `'?'` that ends the
parameter name is written to the pattern as it is, `^/a/([^/]+)?x$`, where it makes the group
optional. The path `/a/42?x`, which has the segment `42` in the place of the marker, is
matched, but the extracted parameter is `42?`, not `42`. -/
theorem question_mark_after_param_is_captured :
    pathToRegex "/a/:id?x".toList [] = ("^/a/([^/]+)?x$".toList, ["id".toList]) ∧
    matchPath "/a/42?x".toList (Route.new "GET".toList "/a/:id?x".toList noop) = true ∧
    StrMap.find "id".toList
      (extractParams "/a/42?x".toList (Route.new "GET".toList "/a/:id?x".toList noop) []).2
      = some "42?".toList ∧
    matchPath "/a/x".toList (Route.new "GET".toList "/a/:id?x".toList noop) = true := by
  decide

/-- C6, counterexample: the route `GET :?:x` declares the parameter `x`, but its pattern
`^?([^/]+)$` does not compile, so it is matched by comparing the path with the template and has
no captured segments. Selected for the path `:?:x` with `x = q` in `params` (a query value),
it passes `params` to the handler unchanged: the same-named value is not overwritten. -/
theorem fallback_route_keeps_query_value :
    (Route.new "GET".toList ":?:x".toList noop).paramNames = ["x".toList] ∧
    (Route.new "GET".toList ":?:x".toList noop).pathRegex = none ∧
    ((Router.new.addRoute "GET".toList ":?:x".toList noop).route
        "GET".toList ":?:x".toList
        { HttpRequest.empty with params := [("x".toList, "q".toList)] }
        HttpResponse.new ()).2.returned = some true ∧
    ((Router.new.addRoute "GET".toList ":?:x".toList noop).route
        "GET".toList ":?:x".toList
        { HttpRequest.empty with params := [("x".toList, "q".toList)] }
        HttpResponse.new ()).2.request.params = [("x".toList, "q".toList)] := by
  decide

/-- C6, amended: when `Router::route` selects the route `r` for the path, the handler is called
with the request whose `params` is the result of `extractParams`. That map is the map before
the call updated with `paramNames[j] -> matches[j + 1]`, for `j = 0, 1, ...` in this order,
when the pattern of `r` matches the path, and the map before the call otherwise. In both cases
a key that is not a declared parameter name keeps its entry (or stays absent), and with a match
a declared name is mapped to the text of its capture, overwriting an entry of the same name
(for a name declared more than once the last position counts). For a route built by
`Route::Route` whose pattern compiled there is a match, with one capture for every declared
name; for one whose pattern failed to compile there is none, and `params` is passed on
unchanged. -/
theorem route_params_are_captures {σ : Type} (self : Router σ) (method path : Str)
    (request : HttpRequest) (response : HttpResponse) (w : σ)
    (i : Nat) (r : Route σ) (hr : self.routes_[i]? = some r)
    (hsel : r.method = method ∧ matchPath path r = true)
    (hmin : ∀ (j : Nat) (r' : Route σ), j < i → self.routes_[j]? = some r' →
      ¬(r'.method = method ∧ matchPath path r' = true)) :
    (self.route method path request response w).2 =
      finishCall { request with params := (extractParams path r request.params).2 }
        (r.handler { request with params := (extractParams path r request.params).2 }
          response w) ∧
    (extractParams path r request.params).2 =
      (match regex_match path r.pathRegex with
       | some caps => specUpdateParams r.paramNames caps request.params
       | none => request.params) ∧
    (∀ k : Str, k ∉ r.paramNames →
      StrMap.find k (extractParams path r request.params).2 = StrMap.find k request.params) ∧
    (∀ (caps : List Str), regex_match path r.pathRegex = some caps →
      ∀ (j : Nat) (name cap : Str), r.paramNames[j]? = some name → caps[j]? = some cap →
        (∀ (j' : Nat) (name' : Str), j < j' → r.paramNames[j']? = some name' → name' ≠ name) →
        StrMap.find name (extractParams path r request.params).2 = some cap) ∧
    (∀ (m t : Str) (h : Handler σ), r = Route.new m t h → r.pattern ≠ r.path →
      ∃ caps, regex_match path r.pathRegex = some caps ∧
        caps.length = r.paramNames.length ∧
        (extractParams path r request.params).2 =
          specUpdateParams r.paramNames caps request.params) ∧
    (∀ (m t : Str) (h : Handler σ), r = Route.new m t h → r.pattern = r.path →
      regex_match path r.pathRegex = none ∧
      (extractParams path r request.params).2 = request.params) := by
  refine ⟨?_, extractParams_eq_spec path r request.params, ?_, ?_, ?_, ?_⟩
  · unfold Router.route
    rw [routeLoop_of_first self.routes_ method path request response w i r hr hsel hmin]
    rfl
  · intro k hk
    unfold extractParams
    by_cases hnil : r.paramNames = []
    · simp [hnil]
    · simp only [if_neg hnil]
      cases hm : regex_match path r.pathRegex with
      | none => rfl
      | some caps => exact extractLoop_find_of_not_mem r.paramNames caps request.params k hk
  · intro caps hcaps j name cap hn hc hlast
    unfold extractParams
    have hnil : r.paramNames ≠ [] := by
      intro h
      rw [h] at hn
      simp at hn
    simp only [if_neg hnil, hcaps]
    exact extractLoop_find_of_last r.paramNames caps request.params j name cap hn hc hlast
  · intro m t h hnew hpat
    have hmatch := hsel.2
    unfold matchPath at hmatch
    rw [if_neg hpat] at hmatch
    obtain ⟨caps, hcaps⟩ := Option.isSome_iff_exists.1 hmatch
    refine ⟨caps, hcaps, ?_, ?_⟩
    · subst hnew
      exact route_new_captures_length m t h path caps hcaps
    · rw [extractParams_eq_spec, hcaps]
  · intro m t h hnew hpat
    subst hnew
    have hnone : regex_match path (Route.new m t h).pathRegex = none := by
      rw [route_new_fallback m t h hpat]
      rfl
    refine ⟨hnone, ?_⟩
    rw [extractParams_eq_spec, hnone]

/-- Witness for C6: the route `GET /api/users/:id` selected for `/api/users/42`, with a query
that had set `id` to `7` and `page` to `2`: the handler sees `id` overwritten with `42` and
`page` as it was; and the route `GET :?:x`, selected for `:?:x`, leaves `x = q` as it was. -/
theorem route_params_are_captures_witness :
    (Router.new.addRoute "GET".toList "/api/users/:id".toList noop).routes_[0]? =
      some (Route.new "GET".toList "/api/users/:id".toList noop) ∧
    ((Router.new.addRoute "GET".toList "/api/users/:id".toList noop).route
        "GET".toList "/api/users/42".toList
        { HttpRequest.empty with
          params := [("id".toList, "7".toList), ("page".toList, "2".toList)] }
        HttpResponse.new ()).2.request.params =
      [("id".toList, "42".toList), ("page".toList, "2".toList)] ∧
    (extractParams ":?:x".toList (Route.new "GET".toList ":?:x".toList noop)
        [("x".toList, "q".toList)]).2 = [("x".toList, "q".toList)] := by
  have h := route_params_are_captures
    (Router.new.addRoute "GET".toList "/api/users/:id".toList noop)
    "GET".toList "/api/users/42".toList
    { HttpRequest.empty with
      params := [("id".toList, "7".toList), ("page".toList, "2".toList)] }
    HttpResponse.new ()
    0 (Route.new "GET".toList "/api/users/:id".toList noop) rfl ⟨rfl, by decide⟩
    (fun j _ hj _ => absurd hj (Nat.not_lt_zero j))
  have hfb := (route_params_are_captures
    (Router.new.addRoute "GET".toList ":?:x".toList noop)
    "GET".toList ":?:x".toList
    { HttpRequest.empty with params := [("x".toList, "q".toList)] }
    HttpResponse.new ()
    0 (Route.new "GET".toList ":?:x".toList noop) rfl ⟨rfl, by decide⟩
    (fun j _ hj _ => absurd hj (Nat.not_lt_zero j))).2.2.2.2.2
    "GET".toList ":?:x".toList noop rfl (by decide)
  refine ⟨rfl, ?_, hfb.2⟩
  rw [h.1]
  decide

/-- C4, counterexample: a handler that throws an object whose type does not derive from
`std::exception` is not caught by `Router::route`: the call does not return `true`, and the
response is not set to status 500. -/
theorem route_does_not_catch_other_throw :
    ((Router.new.addRoute "GET".toList "/boom".toList throwOther).route
        "GET".toList "/boom".toList HttpRequest.empty HttpResponse.new ()).2.returned = none ∧
    ((Router.new.addRoute "GET".toList "/boom".toList throwOther).route
        "GET".toList "/boom".toList HttpRequest.empty HttpResponse.new ()).2.response.statusCode
      = 200 := by
  constructor <;> rfl

/-- C4, amended: if the handler of the selected route throws a `std::exception`,
`Router::route` catches it, returns `true`, and leaves the response with status code 500 and
the body "Internal Server Error", which is not empty. -/
theorem route_catches_std_exception {σ : Type} (self : Router σ) (method path : Str)
    (request : HttpRequest) (response : HttpResponse) (w : σ)
    (i : Nat) (r : Route σ) (hr : self.routes_[i]? = some r)
    (hsel : r.method = method ∧ matchPath path r = true)
    (hmin : ∀ (j : Nat) (r' : Route σ), j < i → self.routes_[j]? = some r' →
      ¬(r'.method = method ∧ matchPath path r' = true))
    (hthrow : (r.handler
      { request with params := (extractParams path r request.params).2 } response w).exit
        = Exit.stdException) :
    (self.route method path request response w).2.returned = some true ∧
    (self.route method path request response w).2.response.statusCode = 500 ∧
    (self.route method path request response w).2.response.body =
      "Internal Server Error".toList ∧
    (self.route method path request response w).2.response.body ≠ [] := by
  unfold Router.route
  rw [routeLoop_of_first self.routes_ method path request response w i r hr hsel hmin]
  refine ⟨?_, ?_, ?_, ?_⟩ <;>
    simp only [dispatch, finishCall, hthrow, HttpResponse.text, HttpResponse.status]
  decide

/-- Witness for C4: a `GET /boom` handler that sets status 201 and a body and then throws a
`std::exception`. -/
theorem route_catches_std_exception_witness :
    ((Router.new.addRoute "GET".toList "/boom".toList throwStd).route
        "GET".toList "/boom".toList HttpRequest.empty HttpResponse.new ()).2.returned
      = some true ∧
    ((Router.new.addRoute "GET".toList "/boom".toList throwStd).route
        "GET".toList "/boom".toList HttpRequest.empty HttpResponse.new ()).2.response.statusCode
      = 500 ∧
    ((Router.new.addRoute "GET".toList "/boom".toList throwStd).route
        "GET".toList "/boom".toList HttpRequest.empty HttpResponse.new ()).2.response.body
      = "Internal Server Error".toList ∧
    ((Router.new.addRoute "GET".toList "/boom".toList throwStd).route
        "GET".toList "/boom".toList HttpRequest.empty HttpResponse.new ()).2.response.body
      ≠ [] :=
  route_catches_std_exception
    (Router.new.addRoute "GET".toList "/boom".toList throwStd)
    "GET".toList "/boom".toList HttpRequest.empty HttpResponse.new ()
    0 (Route.new "GET".toList "/boom".toList throwStd) rfl ⟨rfl, by decide⟩
    (fun j _ hj _ => absurd hj (Nat.not_lt_zero j)) rfl

/-- C5: if no route of the table has the request method and a matcher that matches the path,
`Router::route` returns `false` and leaves the request, the response and the state the handlers
act on untouched (no handler ran); `handleClient`, for a request that parses to such a method
and path, then sends the 404 response: status line `HTTP/1.1 404 Not Found`, the default
headers, `Content-Length: 13` and the body `404 Not Found`. -/
theorem unmatched_request_gets_404 {σ : Type} (self : Router σ) (method path : Str) (w : σ)
    (hno : ∀ r ∈ self.routes_, ¬(r.method = method ∧ matchPath path r = true)) :
    (∀ (request : HttpRequest) (response : HttpResponse),
      self.route method path request response w =
        (self, { returned := some false, request := request, response := response,
                 world := w })) ∧
    (∀ incoming : Str, incoming ≠ [] →
      (parseRequest ((incoming.take 4095).takeWhile fun c => c ≠ '\x00')).method = method →
      (parseRequest ((incoming.take 4095).takeWhile fun c => c ≠ '\x00')).path = path →
      handleClient self incoming w =
        (some ("HTTP/1.1 404 Not Found\r\n".toList ++
               "Content-Type: text/plain\r\n".toList ++
               "Server: APIManager/1.0\r\n".toList ++
               "Content-Length: 13\r\n".toList ++
               "\r\n".toList ++
               "404 Not Found".toList), w)) := by
  constructor
  · intro request response
    unfold Router.route
    rw [routeLoop_of_no_match self.routes_ method path request response w hno]
  · intro incoming hne hm hp
    have hlen : 0 < (incoming.take 4095).length := by
      cases incoming with
      | nil => exact absurd rfl hne
      | cons c cs => simp
    unfold handleClient
    simp only [hlen, if_true, Router.route, hm, hp]
    rw [routeLoop_of_no_match self.routes_ method path _ _ w hno]
    have h404 : ((HttpResponse.new.status 404).text "404 Not Found".toList).toString =
        "HTTP/1.1 404 Not Found\r\n".toList ++
          "Content-Type: text/plain\r\n".toList ++
          "Server: APIManager/1.0\r\n".toList ++
          "Content-Length: 13\r\n".toList ++
          "\r\n".toList ++
          "404 Not Found".toList := by decide
    simp only [h404]

/-- Witness for C5: `GET /missing` against a table that only has `GET /a`. -/
theorem unmatched_request_gets_404_witness :
    ((Router.new.addRoute "GET".toList "/a".toList (logCall 1)).route
        "GET".toList "/missing".toList HttpRequest.empty HttpResponse.new []).2.returned
      = some false ∧
    handleClient (Router.new.addRoute "GET".toList "/a".toList (logCall 1))
        "GET /missing HTTP/1.1\r\nHost: x\r\n\r\n".toList [] =
      (some ("HTTP/1.1 404 Not Found\r\n".toList ++
             "Content-Type: text/plain\r\n".toList ++
             "Server: APIManager/1.0\r\n".toList ++
             "Content-Length: 13\r\n".toList ++
             "\r\n".toList ++
             "404 Not Found".toList), []) := by
  have h := unmatched_request_gets_404
    (Router.new.addRoute "GET".toList "/a".toList (logCall 1))
    "GET".toList "/missing".toList ([] : List Nat)
    (by
      intro r hr
      have hr' : r = Route.new "GET".toList "/a".toList (logCall 1) := by
        simpa [Router.addRoute, Router.new] using hr
      subst hr'
      decide)
  refine ⟨?_, ?_⟩
  · rw [h.1]
  · exact h.2 _ (by decide) (by decide) (by decide)

/-! ## Claims about the request parser -/

/-- C7: `parseRequest` takes the method and the URL as the first two whitespace-delimited
tokens of the request line and ignores the rest of the line. With the data
`ws0 ++ m ++ ws1 ++ u ++ tail`, where `ws0` and `ws1` are runs of whitespace inside the line,
`m` and `u` are non-empty and free of whitespace, and `tail` is empty or begins with
whitespace, the method is `m`; when `u` has no `'?'` the path is `u` and the query is empty;
when `u` has a `'?'` the path has none and `path ++ "?" ++ query` is `u`, which makes the split
the one at the first `'?'`. -/
theorem request_line_parsed (ws0 m ws1 u tail : Str)
    (hws0 : ∀ c ∈ ws0, isSpace c = true ∧ c ≠ '\n')
    (hm : m ≠ []) (hm' : ∀ c ∈ m, isSpace c = false)
    (hws1 : ws1 ≠ []) (hws1' : ∀ c ∈ ws1, isSpace c = true ∧ c ≠ '\n')
    (hu : u ≠ []) (hu' : ∀ c ∈ u, isSpace c = false)
    (htail : tail = [] ∨ ∃ c t, tail = c :: t ∧ isSpace c = true) :
    (parseRequest (ws0 ++ (m ++ (ws1 ++ (u ++ tail))))).method = m ∧
    ('?' ∉ u →
      (parseRequest (ws0 ++ (m ++ (ws1 ++ (u ++ tail))))).path = u ∧
      (parseRequest (ws0 ++ (m ++ (ws1 ++ (u ++ tail))))).query = []) ∧
    ('?' ∈ u →
      '?' ∉ (parseRequest (ws0 ++ (m ++ (ws1 ++ (u ++ tail))))).path ∧
      (parseRequest (ws0 ++ (m ++ (ws1 ++ (u ++ tail))))).path ++
        '?' :: (parseRequest (ws0 ++ (m ++ (ws1 ++ (u ++ tail))))).query = u) := by
  obtain ⟨line, lines, hlines, hmethod, hurl⟩ :=
    first_line_tokens ws0 m ws1 u tail hws0 hm hm' hws1 hws1' hu hu' htail
  rw [parseRequest_of_lines _ line lines hlines]
  simp only [hmethod, hurl]
  refine ⟨trivial, ?_, ?_⟩
  · intro h
    rw [parseUrl_no_query u h]
    exact ⟨rfl, rfl⟩
  · intro h
    exact parseUrl_query u h

/-- Witness for C7: the request line `GET /x/y?a=1&b=?2 HTTP/1.1`. -/
theorem request_line_parsed_witness :
    (parseRequest "GET /x/y?a=1&b=?2 HTTP/1.1\r\nHost: h\r\n\r\n".toList).method
      = "GET".toList ∧
    (parseRequest "GET /x/y?a=1&b=?2 HTTP/1.1\r\nHost: h\r\n\r\n".toList).path
      = "/x/y".toList ∧
    (parseRequest "GET /x/y?a=1&b=?2 HTTP/1.1\r\nHost: h\r\n\r\n".toList).query
      = "a=1&b=?2".toList ∧
    '?' ∉ (parseRequest "GET /x/y?a=1&b=?2 HTTP/1.1\r\nHost: h\r\n\r\n".toList).path ∧
    (parseRequest "GET /x/y?a=1&b=?2 HTTP/1.1\r\nHost: h\r\n\r\n".toList).path ++
      '?' :: (parseRequest "GET /x/y?a=1&b=?2 HTTP/1.1\r\nHost: h\r\n\r\n".toList).query
      = "/x/y?a=1&b=?2".toList := by
  have h := request_line_parsed [] "GET".toList " ".toList "/x/y?a=1&b=?2".toList
    " HTTP/1.1\r\nHost: h\r\n\r\n".toList
    (by decide) (by decide) (by decide) (by decide) (by decide) (by decide) (by decide)
    (Or.inr ⟨' ', "HTTP/1.1\r\nHost: h\r\n\r\n".toList, rfl, rfl⟩)
  have hq := h.2.2 (by decide)
  exact ⟨h.1, by decide, by decide, hq.1, hq.2⟩

/-- C8: `parseQueryString` handles every query string as its `&`-separated pieces, in order:
a piece with an `=` is split at its first `=` and stored as
`urlDecode(key) -> urlDecode(value)`, other pieces (the empty ones too) are skipped, and a
later pair replaces an earlier one with the same decoded key. `urlDecode` turns a `%XY` triplet
of hex digits into the byte `0xXY` and a `+` into a space and keeps every other character.
The query `a=1&b=hello%20world&c=x+y` gives exactly `a -> 1`, `b -> hello world`,
`c -> x y`. -/
theorem query_string_parsed (query : Str) :
    parseQueryString query = (List.splitOn '&' query).foldl specStorePiece [] ∧
    (∀ (pre post : List Str) (key value : Str),
      List.splitOn '&' query = pre ++ (key ++ '=' :: value) :: post → '=' ∉ key →
      (∀ piece ∈ post, ∀ key' value' : Str, piece = key' ++ '=' :: value' → '=' ∉ key' →
        Utils.urlDecode key' ≠ Utils.urlDecode key) →
      StrMap.find (Utils.urlDecode key) (parseQueryString query) =
        some (Utils.urlDecode value)) ∧
    (∀ k : Str,
      (∀ piece ∈ List.splitOn '&' query, ∀ key value : Str, piece = key ++ '=' :: value →
        '=' ∉ key → Utils.urlDecode key ≠ k) →
      StrMap.find k (parseQueryString query) = none) ∧
    (∀ (x y : Char) (a b : Nat) (rest : Str), hexDigit x = some a → hexDigit y = some b →
      Utils.urlDecode ('%' :: x :: y :: rest) =
        Char.ofNat (16 * a + b) :: Utils.urlDecode rest) ∧
    (∀ rest : Str, Utils.urlDecode ('+' :: rest) = ' ' :: Utils.urlDecode rest) ∧
    (∀ (c : Char) (rest : Str), c ≠ '%' → c ≠ '+' →
      Utils.urlDecode (c :: rest) = c :: Utils.urlDecode rest) ∧
    parseQueryString "a=1&b=hello%20world&c=x+y".toList =
      [("a".toList, "1".toList), ("b".toList, "hello world".toList),
       ("c".toList, "x y".toList)] := by
  refine ⟨parseQueryString_eq_foldl query, ?_, ?_, ?_, ?_, ?_, by decide⟩
  · intro pre post key value hsplit hkey hpost
    rw [parseQueryString_eq_foldl, hsplit, List.foldl_append, List.foldl_cons,
      foldl_specStorePiece_find post _ _ hpost, specStorePiece_pair _ _ _ hkey]
    exact StrMap.find_insert_self _ _ _
  · intro k hk
    rw [parseQueryString_eq_foldl, foldl_specStorePiece_find _ _ _ hk]
    rfl
  · intro x y a b rest hx hy
    exact urlDecode_triplet x y a b rest hx hy
  · intro rest
    rw [urlDecode_cons_of_ne '+' rest (by decide)]
    simp
  · intro c rest h1 h2
    rw [urlDecode_cons_of_ne c rest h1]
    simp [h2]

/-- Witness for C8: in `a=1&&b&=x&a=%32+`, the second `a` replaces the first, the empty piece
and the piece `b` are skipped, and `=x` stores the empty key. -/
theorem query_string_parsed_witness :
    StrMap.find "a".toList (parseQueryString "a=1&&b&=x&a=%32+".toList) = some "2 ".toList ∧
    StrMap.find "b".toList (parseQueryString "a=1&&b&=x&a=%32+".toList) = none ∧
    parseQueryString "a=1&&b&=x&a=%32+".toList =
      [("".toList, "x".toList), ("a".toList, "2 ".toList)] := by
  have h := query_string_parsed "a=1&&b&=x&a=%32+".toList
  refine ⟨?_, by decide, by decide⟩
  exact h.2.1 ["a=1".toList, [], "b".toList, "=x".toList] [] "a".toList "%32+".toList
    (by decide) (by decide) (by intro piece hp; simp at hp)

/-- C9: `parseRequest` stores the header block, the lines after the request line up to the
first blank line, line by line: a line (without its trailing carriage return) that has a colon
is split at its first colon, the key is lower-cased, the value loses its leading spaces and
tabs, and the pair is stored; when a lower-cased key occurs more than once, the value of its
last occurrence is the stored one; a key that no line provides is absent; and every stored key
is free of upper-case letters. -/
theorem headers_parsed (requestData : Str) :
    (parseRequest requestData).headers =
      (headerBlock ((getlineAll '\n' requestData).drop 1)).foldl specStoreHeader [] ∧
    (∀ (pre post : List Str) (l key value : Str),
      headerBlock ((getlineAll '\n' requestData).drop 1) = pre ++ l :: post →
      chomp l = key ++ ':' :: value → ':' ∉ key →
      (∀ l' ∈ post, ∀ key' value' : Str, chomp l' = key' ++ ':' :: value' → ':' ∉ key' →
        Utils.toLower key' ≠ Utils.toLower key) →
      StrMap.find (Utils.toLower key) (parseRequest requestData).headers =
        some (value.dropWhile fun c => c = ' ' || c = '\t')) ∧
    (∀ k : Str,
      (∀ l ∈ headerBlock ((getlineAll '\n' requestData).drop 1), ∀ key value : Str,
        chomp l = key ++ ':' :: value → ':' ∉ key → Utils.toLower key ≠ k) →
      StrMap.find k (parseRequest requestData).headers = none) ∧
    (∀ kv ∈ (parseRequest requestData).headers,
      ∀ c ∈ kv.1, ¬(65 ≤ c.toNat ∧ c.toNat ≤ 90)) := by
  refine ⟨parseRequest_headers requestData, ?_, ?_, ?_⟩
  · intro pre post l key value hblock hl hkey hpost
    rw [parseRequest_headers, hblock, List.foldl_append, List.foldl_cons,
      foldl_specStoreHeader_find post _ _ hpost, specStoreHeader_pair _ l key value hl hkey]
    exact StrMap.find_insert_self _ _ _
  · intro k hk
    rw [parseRequest_headers, foldl_specStoreHeader_find _ _ _ hk]
    rfl
  · rw [parseRequest_headers]
    exact foldl_specStoreHeader_lower _ [] (by simp)

/-- Witness for C9: two `Host` lines in different case, a value with leading blanks, a line
without a colon, and a header-like line after the blank line. -/
theorem headers_parsed_witness :
    (parseRequest
      "GET / HTTP/1.1\r\nHost: a:b\r\nX-Y:\t z\r\nhOST: c\r\nnocolon\r\n\r\nA: b\r\n".toList).headers
      = [("host".toList, "c".toList), ("x-y".toList, "z".toList)] ∧
    StrMap.find "host".toList (parseRequest
      "GET / HTTP/1.1\r\nHost: a:b\r\nX-Y:\t z\r\nhOST: c\r\nnocolon\r\n\r\nA: b\r\n".toList).headers
      = some "c".toList := by
  have h := headers_parsed
    "GET / HTTP/1.1\r\nHost: a:b\r\nX-Y:\t z\r\nhOST: c\r\nnocolon\r\n\r\nA: b\r\n".toList
  refine ⟨by decide, ?_⟩
  exact h.2.1 ["Host: a:b\r".toList, "X-Y:\t z\r".toList] ["nocolon\r".toList]
    "hOST: c\r".toList "hOST".toList " c".toList (by decide) (by decide) (by decide)
    (by
      intro l' hl' key' value' hch hk
      have hl : l' = "nocolon\r".toList := by simpa using hl'
      subst hl
      have hmem : ':' ∈ chomp "nocolon\r".toList := by
        rw [hch]
        simp
      exact absurd hmem (by decide))

/-- C10: `parseRequest` sets the body to the lines that follow the blank line ending the
header block, taken as they are and joined with newlines. In terms of the text: when the data
is `pre ++ "\n" ++ text`, with `pre ++ "\n"` the request line, the header lines and the blank
line, the body is `text` without one final newline if it ends in one. If every line after the
request line is a header line (no blank line), or no line follows the blank line, the body is
empty. -/
theorem body_parsed (requestData : Str) :
    (parseRequest requestData).body =
      List.intercalate ['\n'] (bodyLines ((getlineAll '\n' requestData).drop 1)) ∧
    (∀ (pre text line blank : Str) (hs : List Str),
      requestData = pre ++ '\n' :: text →
      getlineAll '\n' (pre ++ ['\n']) = line :: (hs ++ [blank]) →
      (∀ h ∈ hs, isHeaderLine h = true) → isHeaderLine blank = false →
      (parseRequest requestData).body = dropFinalNewline text) ∧
    ((∀ l ∈ (getlineAll '\n' requestData).drop 1, isHeaderLine l = true) →
      (parseRequest requestData).body = []) ∧
    (bodyLines ((getlineAll '\n' requestData).drop 1) = [] →
      (parseRequest requestData).body = []) := by
  refine ⟨parseRequest_body requestData, ?_, ?_, ?_⟩
  · intro pre text line blank hs hdata hpre hhs hblank
    rw [parseRequest_body, hdata, getlineAll_append_sep, hpre]
    have hlines : (line :: (hs ++ [blank]) ++ getlineAll '\n' text).drop 1 =
        hs ++ blank :: getlineAll '\n' text := by simp
    rw [hlines, bodyLines_append hs blank _ hhs hblank]
    exact intercalate_getlineAll text
  · intro hall
    rw [parseRequest_body, bodyLines_of_all_header _ hall]
    rfl
  · intro hnone
    rw [parseRequest_body, hnone]
    rfl

/-- Witness for C10: a body of two lines, the first ended by a bare newline and the second by
carriage return and newline; the carriage return stays and the final newline goes. -/
theorem body_parsed_witness :
    (parseRequest "POST /p HTTP/1.1\r\nHost: h\r\n\r\nline1\nline2\r\n".toList).body =
      "line1\nline2\r".toList ∧
    (parseRequest "GET / HTTP/1.1\r\nHost: h\r\n".toList).body = [] ∧
    (parseRequest "GET / HTTP/1.1\r\nHost: h\r\n\r\n".toList).body = [] := by
  have h := body_parsed "POST /p HTTP/1.1\r\nHost: h\r\n\r\nline1\nline2\r\n".toList
  have h2 := body_parsed "GET / HTTP/1.1\r\nHost: h\r\n".toList
  have h3 := body_parsed "GET / HTTP/1.1\r\nHost: h\r\n\r\n".toList
  refine ⟨?_, h2.2.2.1 (by decide), h3.2.2.2 (by decide)⟩
  rw [h.2.1 "POST /p HTTP/1.1\r\nHost: h\r\n\r".toList "line1\nline2\r\n".toList
    "POST /p HTTP/1.1\r".toList "\r".toList ["Host: h\r".toList]
    (by decide) (by decide) (by decide) (by decide)]
  decide

/-! ## Claims about the response builder -/

/-- C12: for every response `r`, `toString` gives the status line
`HTTP/1.1 <decimal status> <reason>` and CRLF, then `key: value` and CRLF for each entry of
`r.headers` in the order of the map, then `Content-Length: <decimal length of the body>` and
CRLF, then CRLF, then the body. The order of the map is ascending key order: it is so for a
fresh response and stays so under `status`, `header`, `json` and `text`. The output depends on
the status code, the headers and the body only. For status 201 and body `ok` the output
begins with the line `HTTP/1.1 201 Created`, has the header `Content-Length: 2` and ends with
`ok`. -/
theorem response_serialized (r : HttpResponse) :
    r.toString =
      "HTTP/1.1 ".toList ++ decimal r.statusCode ++ " ".toList ++ statusText r.statusCode ++
        "\r\n".toList ++
      (r.headers.map fun kv => kv.1 ++ ": ".toList ++ kv.2 ++ "\r\n".toList).flatten ++
      "Content-Length: ".toList ++ decimal (r.body.length : Nat) ++ "\r\n".toList ++
      "\r\n".toList ++ r.body ∧
    StrMap.Ordered HttpResponse.new.headers ∧
    (StrMap.Ordered r.headers →
      ∀ (code : Int) (k v : Str),
        StrMap.Ordered (r.status code).headers ∧ StrMap.Ordered (r.header k v).headers ∧
        StrMap.Ordered (r.json v).headers ∧ StrMap.Ordered (r.text v).headers) ∧
    (∀ r' : HttpResponse, r'.statusCode = r.statusCode → r'.headers = r.headers →
      r'.body = r.body → r'.toString = r.toString) ∧
    (r.statusCode = 201 → r.body = "ok".toList →
      "HTTP/1.1 201 Created\r\n".toList <+: r.toString ∧
      "Content-Length: 2\r\n".toList <:+: r.toString ∧
      "ok".toList <:+ r.toString) := by
  refine ⟨?_, ?_, ?_, ?_, ?_⟩
  · unfold HttpResponse.toString
    rw [headerLines_eq_flatten]
  · unfold HttpResponse.new
    exact StrMap.ordered_insert _ _ _ (StrMap.ordered_insert _ _ _ List.Pairwise.nil)
  · intro h code k v
    exact ⟨h, StrMap.ordered_insert _ _ _ h, StrMap.ordered_insert _ _ _ h,
      StrMap.ordered_insert _ _ _ h⟩
  · intro r' h1 h2 h3
    unfold HttpResponse.toString
    rw [h1, h2, h3]
  · intro hcode hbody
    have hs : r.toString =
        "HTTP/1.1 201 Created\r\n".toList ++
          (headerLines r.headers ++ ("Content-Length: 2\r\n".toList ++ "\r\n".toList)) ++
          "ok".toList := by
      unfold HttpResponse.toString
      rw [hcode, hbody]
      have h201 : "HTTP/1.1 ".toList ++ decimal 201 ++ " ".toList ++ statusText 201 ++
          "\r\n".toList = "HTTP/1.1 201 Created\r\n".toList := by decide
      have h2 : "Content-Length: ".toList ++ decimal ("ok".toList.length : Nat) ++
          "\r\n".toList = "Content-Length: 2\r\n".toList := by decide
      rw [h201]
      simp only [List.append_assoc]
      rw [← List.append_assoc "Content-Length: ".toList, ← List.append_assoc
        ("Content-Length: ".toList ++ decimal ("ok".toList.length : Nat)), h2]
    rw [hs]
    refine ⟨?_, ?_, ?_⟩
    · exact ⟨headerLines r.headers ++ ("Content-Length: 2\r\n".toList ++ "\r\n".toList) ++
        "ok".toList, by simp only [List.append_assoc]⟩
    · exact ⟨"HTTP/1.1 201 Created\r\n".toList ++ headerLines r.headers,
        "\r\n".toList ++ "ok".toList, by simp only [List.append_assoc]⟩
    · exact ⟨_, rfl⟩

/-- Witness for C12: the fresh response after `status(201)` and `text("ok")`. -/
theorem response_serialized_witness :
    ((HttpResponse.new.status 201).text "ok".toList).toString =
      "HTTP/1.1 201 Created\r\n".toList ++
      "Content-Type: text/plain\r\n".toList ++
      "Server: APIManager/1.0\r\n".toList ++
      "Content-Length: 2\r\n".toList ++
      "\r\n".toList ++
      "ok".toList ∧
    "HTTP/1.1 201 Created\r\n".toList <+:
      ((HttpResponse.new.status 201).text "ok".toList).toString ∧
    "Content-Length: 2\r\n".toList <:+:
      ((HttpResponse.new.status 201).text "ok".toList).toString ∧
    "ok".toList <:+ ((HttpResponse.new.status 201).text "ok".toList).toString :=
  ⟨by decide,
    (response_serialized ((HttpResponse.new.status 201).text "ok".toList)).2.2.2.2 rfl rfl⟩

/-- C13: the reason phrase of the status line is `OK` for 200, `Created` for 201,
`Bad Request` for 400, `Not Found` for 404, `Internal Server Error` for 500 and `Unknown` for
every other status code, zero and the negative ones included; `toString` gives a result for
every status code, and the result begins with the status line of that code. -/
theorem status_reason_phrase (code : Int) :
    statusText 200 = "OK".toList ∧
    statusText 201 = "Created".toList ∧
    statusText 400 = "Bad Request".toList ∧
    statusText 404 = "Not Found".toList ∧
    statusText 500 = "Internal Server Error".toList ∧
    (code ≠ 200 → code ≠ 201 → code ≠ 400 → code ≠ 404 → code ≠ 500 →
      statusText code = "Unknown".toList) ∧
    statusText 0 = "Unknown".toList ∧
    (code < 0 → statusText code = "Unknown".toList) ∧
    (∀ (headers : StrMap) (body : Str),
      ("HTTP/1.1 ".toList ++ decimal code ++ " ".toList ++ statusText code ++ "\r\n".toList) <+:
        ({ statusCode := code, headers := headers, body := body } : HttpResponse).toString) := by
  refine ⟨by decide, by decide, by decide, by decide, by decide, ?_, by decide, ?_, ?_⟩
  · intro h1 h2 h3 h4 h5
    simp [statusText, h1, h2, h3, h4, h5]
  · intro hneg
    have h1 : code ≠ 200 := by omega
    have h2 : code ≠ 201 := by omega
    have h3 : code ≠ 400 := by omega
    have h4 : code ≠ 404 := by omega
    have h5 : code ≠ 500 := by omega
    simp [statusText, h1, h2, h3, h4, h5]
  · intro headers body
    unfold HttpResponse.toString
    exact ⟨headerLines headers ++ "Content-Length: ".toList ++
      decimal (body.length : Nat) ++ "\r\n".toList ++ "\r\n".toList ++ body,
      by simp only [List.append_assoc]⟩

/-- Witness for C13: the codes 418 and -7 get `Unknown`, and the serialization of a response
with status 418 is there. -/
theorem status_reason_phrase_witness :
    statusText 418 = "Unknown".toList ∧ statusText (-7) = "Unknown".toList ∧
    ({ statusCode := 418, headers := [], body := [] } : HttpResponse).toString =
      "HTTP/1.1 418 Unknown\r\nContent-Length: 0\r\n\r\n".toList :=
  ⟨(status_reason_phrase 418).2.2.2.2.2.1 (by decide) (by decide) (by decide) (by decide)
      (by decide),
    (status_reason_phrase (-7)).2.2.2.2.2.2.2.1 (by decide), by decide⟩

/-! ## Claims about matching -/

/-- C16: matching is exact and case-sensitive on method and path. For a template `t` without
`':'` and a method `m`, the route `(m, t)` is selected for a request `(method, path)` exactly
when `method = m` and `path = t`, character for character: in a table that holds this route
alone, `route` dispatches to it in that case and returns `false`, with everything untouched,
in every other case. -/
theorem literal_route_matches_exactly {σ : Type} (t : Str) (ht : ':' ∉ t) (m : Str)
    (handler : Handler σ) (method path : Str) (request : HttpRequest)
    (response : HttpResponse) (w : σ) :
    ((Route.new m t handler).method = method ∧
        matchPath path (Route.new m t handler) = true ↔ method = m ∧ path = t) ∧
    (method = m ∧ path = t →
      ((Router.new.addRoute m t handler).route method path request response w).2 =
        dispatch (Route.new m t handler) path request response w) ∧
    (¬(method = m ∧ path = t) →
      ((Router.new.addRoute m t handler).route method path request response w).2 =
        { returned := some false, request := request, response := response, world := w }) := by
  have hiff : (Route.new m t handler).method = method ∧
      matchPath path (Route.new m t handler) = true ↔ method = m ∧ path = t := by
    rw [route_new_method, matchPath_literal m t handler ht]
    constructor
    · rintro ⟨h1, h2⟩
      exact ⟨h1.symm, h2⟩
    · rintro ⟨h1, h2⟩
      exact ⟨h1.symm, h2⟩
  refine ⟨hiff, ?_, ?_⟩
  · intro h
    have hsel := hiff.2 h
    simp only [Router.route, Router.addRoute, Router.new, List.nil_append, routeLoop,
      if_pos hsel]
  · intro h
    have hsel : ¬((Route.new m t handler).method = method ∧
        matchPath path (Route.new m t handler) = true) := fun e => h (hiff.1 e)
    simp only [Router.route, Router.addRoute, Router.new, List.nil_append, routeLoop,
      if_neg hsel]

/-- Witness for C16: a route for `GET /foo` matches `/foo` and none of `/foo/`, `/FOO`,
`/foo/bar`, and it is not selected for the method `get`. -/
theorem literal_route_matches_exactly_witness :
    (':' ∉ "/foo".toList) ∧
    matchPath "/foo".toList (Route.new "GET".toList "/foo".toList noop) = true ∧
    matchPath "/foo/".toList (Route.new "GET".toList "/foo".toList noop) = false ∧
    matchPath "/FOO".toList (Route.new "GET".toList "/foo".toList noop) = false ∧
    matchPath "/foo/bar".toList (Route.new "GET".toList "/foo".toList noop) = false ∧
    ((Router.new.addRoute "GET".toList "/foo".toList noop).route "get".toList "/foo".toList
        HttpRequest.empty HttpResponse.new ()).2.returned = some false := by
  refine ⟨by decide, by decide, by decide, by decide, by decide, ?_⟩
  rw [(literal_route_matches_exactly "/foo".toList (by decide) "GET".toList noop
    "get".toList "/foo".toList HttpRequest.empty HttpResponse.new ()).2.2 (by decide)]

/-- C17: if compiling the generated pattern fails, the route is still constructed, keeps the
template as its pattern, and falls back to comparing with the template: `matchPath` is true for
a path exactly when the path equals the template string. -/
theorem failed_compile_falls_back_to_literal {σ : Type} (method t : Str)
    (handler : Handler σ) (hfail : Regex.compile (pathToRegex t []).1 = none) (p : Str) :
    (Route.new method t handler).pattern = t ∧
    (Route.new method t handler).path = t ∧
    (matchPath p (Route.new method t handler) = true ↔ p = t) := by
  rw [route_new_of_failed method t handler hfail]
  refine ⟨rfl, rfl, ?_⟩
  simp [matchPath]

/-- Witness for C17: the template `:?:x` has the pattern `^?([^/]+)$`, where `?` follows the
assertion `^` and has nothing to repeat, so the construction of the `std::regex` throws; the
route then matches the path `:?:x` and no other. -/
theorem failed_compile_falls_back_to_literal_witness :
    Regex.compile (pathToRegex ":?:x".toList []).1 = none ∧
    matchPath ":?:x".toList (Route.new "GET".toList ":?:x".toList noop) = true ∧
    matchPath "abc".toList (Route.new "GET".toList ":?:x".toList noop) = false := by
  have h := failed_compile_falls_back_to_literal "GET".toList ":?:x".toList noop (by decide)
    ":?:x".toList
  exact ⟨by decide, h.2.2.2 rfl, by decide⟩

/-! ## Claims about the accessors and the life cycle -/

/-- C19, the code at the failing input: for the request `GET /x?a=1 HTTP/1.1` with the header
`a: zzz`, `parseQueryString` has stored `a -> 1` in `params`, and `getParam("a")` is `1`, but
`getQueryParam("a")` is `zzz`, the value of the header of that name; without that header it is
the empty string. `getQueryParam` searches `headers`, not the query parameters. -/
theorem getQueryParam_reads_headers :
    StrMap.find "a".toList
      (parseRequest "GET /x?a=1 HTTP/1.1\r\na: zzz\r\n\r\n".toList).params = some "1".toList ∧
    (parseRequest "GET /x?a=1 HTTP/1.1\r\na: zzz\r\n\r\n".toList).getParam "a".toList
      = "1".toList ∧
    (parseRequest "GET /x?a=1 HTTP/1.1\r\na: zzz\r\n\r\n".toList).getQueryParam "a".toList
      = "zzz".toList ∧
    (parseRequest "GET /x?a=1 HTTP/1.1\r\nHost: h\r\n\r\n".toList).getQueryParam "a".toList
      = [] ∧
    (∀ (r : HttpRequest) (k : Str), r.getQueryParam k = r.getHeader k) := by
  refine ⟨by decide, by decide, by decide, by decide, ?_⟩
  intro r k
  rfl

/-- C18: `stop()` is idempotent on the server: a second `stop()` leaves the server as the
first one did; after `stop()` the running flag is false and the listening socket is invalid;
on a server that is not running and has no socket, as it is from its construction until
`start()`, `stop()` changes nothing in the server, and nothing in Winsock either when Winsock
is not started. -/
theorem stop_idempotent {σ : Type} (s : ApiServer σ) (e : Winsock) :
    ((s.stop e).1.stop (s.stop e).2).1 = (s.stop e).1 ∧
    (s.stop e).1.running_ = false ∧
    (s.stop e).1.serverSocket_ = none ∧
    (s.running_ = false → s.serverSocket_ = none → (s.stop e).1 = s) ∧
    (s.running_ = false → s.serverSocket_ = none → e.startups = 0 → s.stop e = (s, e)) ∧
    (∀ (host : Str) (port : Int),
      ((ApiServer.new host port : ApiServer σ).stop e).1 = ApiServer.new host port) := by
  obtain ⟨host, port, running, router, socket⟩ := s
  cases socket with
  | none =>
    refine ⟨rfl, rfl, rfl, ?_, ?_, fun _ _ => rfl⟩
    · intro h _
      simp only at h
      subst h
      rfl
    · intro h _ he
      simp only at h
      subst h
      simp [ApiServer.stop, ApiServer.cleanupWinsock, WSACleanup, he]
  | some sock =>
    refine ⟨rfl, rfl, rfl, ?_, ?_, fun _ _ => rfl⟩
    · intro _ h
      simp at h
    · intro _ h
      simp at h

/-- Witness for C18: a server that listens on socket 7 with Winsock started once is stopped
after one `stop()` and the same after two; a new server with a route registered is untouched
by `stop()`. -/
theorem stop_idempotent_witness :
    ((({ host_ := "127.0.0.1".toList, port_ := 8080, running_ := true, router_ := Router.new,
         serverSocket_ := some 7 } : ApiServer Unit).stop
        { startups := 1, openSockets := [7] }).1.stop
      (({ host_ := "127.0.0.1".toList, port_ := 8080, running_ := true, router_ := Router.new,
          serverSocket_ := some 7 } : ApiServer Unit).stop
        { startups := 1, openSockets := [7] }).2).1.serverSocket_ = none ∧
    ((((ApiServer.new "127.0.0.1".toList 8080 : ApiServer Unit).get "/".toList noop).stop
        { startups := 0, openSockets := [] }) =
      ((ApiServer.new "127.0.0.1".toList 8080 : ApiServer Unit).get "/".toList noop,
        { startups := 0, openSockets := [] })) := by
  have h := stop_idempotent
    ({ host_ := "127.0.0.1".toList, port_ := 8080, running_ := true, router_ := Router.new,
       serverSocket_ := some 7 } : ApiServer Unit) { startups := 1, openSockets := [7] }
  have h2 := stop_idempotent
    ((ApiServer.new "127.0.0.1".toList 8080 : ApiServer Unit).get "/".toList noop)
    { startups := 0, openSockets := [] }
  refine ⟨?_, h2.2.2.2.2.1 rfl rfl rfl⟩
  rw [h.1]
  exact h.2.2.1

/-! ## Claims about malformed requests -/

/-- C11: `parseRequest` gives a request for every input. For the empty input every field is
empty; a request line without a token leaves method, path, query and params empty; a request
line with one token gives the method and leaves path, query and params empty; a header line
without a colon adds no header and the lines after it are parsed as if it were not there. The
positions that `parseRequest` passes to `substr` are those of a character found by `find`, and
with them `substr` does not throw. -/
theorem parse_never_fails (requestData : Str) :
    (∃ request : HttpRequest, parseRequest requestData = request) ∧
    parseRequest [] =
      { method := [], path := [], query := [], body := [], headers := [], params := [] } ∧
    (∀ (line : Str) (lines : List Str), getlineAll '\n' requestData = line :: lines →
      (∀ c ∈ line, isSpace c = true) →
      (parseRequest requestData).method = [] ∧ (parseRequest requestData).path = [] ∧
      (parseRequest requestData).query = [] ∧ (parseRequest requestData).params = []) ∧
    (∀ (lines : List Str) (ws0 m ws1 : Str),
      getlineAll '\n' requestData = (ws0 ++ (m ++ ws1)) :: lines →
      (∀ c ∈ ws0, isSpace c = true) → m ≠ [] → (∀ c ∈ m, isSpace c = false) →
      (∀ c ∈ ws1, isSpace c = true) →
      (parseRequest requestData).method = m ∧ (parseRequest requestData).path = [] ∧
      (parseRequest requestData).query = [] ∧ (parseRequest requestData).params = []) ∧
    (∀ (pre post : List Str) (l : Str),
      headerBlock ((getlineAll '\n' requestData).drop 1) = pre ++ l :: post →
      ':' ∉ chomp l →
      (parseRequest requestData).headers = (pre ++ post).foldl specStoreHeader []) ∧
    (∀ (c : Char) (s : Str) (i : Nat), Str.find c s = some i →
      Str.substr? s 0 (some i) = some (s.take i) ∧
      Str.substr? s (i + 1) none = some (s.drop (i + 1))) := by
  refine ⟨⟨_, rfl⟩, rfl, ?_, ?_, ?_, ?_⟩
  · intro line lines hlines hline
    exact parseRequest_no_token requestData line lines hlines hline
  · intro lines ws0 m ws1 hlines hws0 hm hm' hws1
    exact parseRequest_one_token requestData lines ws0 m ws1 hlines hws0 hm hm' hws1
  · intro pre post l hblock hl
    rw [parseRequest_headers, hblock, List.foldl_append, List.foldl_cons,
      specStoreHeader_no_colon _ l hl, List.foldl_append]
  · intro c s i h
    exact substr_after_find c s i h

/-- Witness for C11: a request line with the method alone, and a header block whose first line
has no colon; the `Host` line after it is stored. -/
theorem parse_never_fails_witness :
    (parseRequest "GET\r\nbroken line\r\nHost: h\r\n\r\n".toList).method = "GET".toList ∧
    (parseRequest "GET\r\nbroken line\r\nHost: h\r\n\r\n".toList).path = [] ∧
    (parseRequest "GET\r\nbroken line\r\nHost: h\r\n\r\n".toList).query = [] ∧
    (parseRequest "GET\r\nbroken line\r\nHost: h\r\n\r\n".toList).headers =
      [("host".toList, "h".toList)] ∧
    (parseRequest " \r\n\r\n".toList).method = [] := by
  have h := parse_never_fails "GET\r\nbroken line\r\nHost: h\r\n\r\n".toList
  have h1 := h.2.2.2.1 ["broken line\r".toList, "Host: h\r".toList, "\r".toList]
    [] "GET".toList "\r".toList (by decide) (by decide) (by decide) (by decide) (by decide)
  have h2 := h.2.2.2.2.1 [] ["Host: h\r".toList] "broken line\r".toList (by decide)
    (by decide)
  have h3 := (parse_never_fails " \r\n\r\n".toList).2.2.1 " \r".toList ["\r".toList]
    (by decide) (by decide)
  refine ⟨h1.1, h1.2.1, h1.2.2.1, ?_, h3.1⟩
  rw [h2]
  decide

/-! ## Claims about the pattern compiler -/

/-- C14, the code at the failing input: for the template `/a/:id?x` the `'?'` that ends the
parameter name lies outside the marker and is a pattern metacharacter, but it is written to
the pattern without a backslash: the pattern is `^/a/([^/]+)?x$` and has no backslash at all.
The same `'?'` in the template `/a?x`, where no parameter name precedes it, is written as
`\?`. Unescaped it does not match itself only: the route matches `/a/42x` and `/a/x`. -/
theorem param_terminator_not_escaped :
    (pathToRegex "/a/:id?x".toList []).1 = "^/a/([^/]+)?x$".toList ∧
    '\\' ∉ (pathToRegex "/a/:id?x".toList []).1 ∧
    (pathToRegex "/a?x".toList []).1 = "^/a\\?x$".toList ∧
    matchPath "/a/42x".toList (Route.new "GET".toList "/a/:id?x".toList noop) = true ∧
    matchPath "/a/x".toList (Route.new "GET".toList "/a/:id?x".toList noop) = true ∧
    matchPath "/a?x".toList (Route.new "GET".toList "/a?x".toList noop) = true ∧
    matchPath "/ax".toList (Route.new "GET".toList "/a?x".toList noop) = false := by
  decide

/-- C15, counterexample: in the template `/:a:b` the first `':'` is followed by the run `a:b`
up to the end of the string, so the markers have the non-empty names `a:b` and `b`; the names
that `pathToRegex` gives are `b` alone, because the second `':'` starts the name afresh. -/
theorem marker_name_restarts_at_colon :
    (pathToRegex "/:a:b".toList []).2 = ["b".toList] ∧
    specMarkerName "a:b".toList = "a:b".toList ∧
    "a:b".toList ∉ (pathToRegex "/:a:b".toList []).2 ∧
    specMarkerNames "/:a:b".toList = ["a:b".toList, "b".toList] ∧
    (pathToRegex "/:a:b".toList []).2 ≠ specMarkerNames "/:a:b".toList := by
  decide

/-- C15, amended: for every path template in which no parameter name contains a `':'`, the
list of names that `pathToRegex` gives is the list, in order of appearance, of the non-empty
names of the markers, a marker being a `':'` with the run of characters up to the next `/`,
`?`, `#`, `&` or the end of the string; a compiled pattern has as many groups as that list has
names, so a bare `':'` gives no name and no group; `/a/:/b` gives no names and the pattern
`^/a//b$`. -/
theorem marker_names_in_order (t : Str) (ht : namesColonFree t = true) :
    (pathToRegex t []).2 = specMarkerNames t ∧
    (∀ re : Regex, Regex.compile (pathToRegex t []).1 = some re →
      groupCount re = (specMarkerNames t).length) ∧
    pathToRegex "/a/:/b".toList [] = ("^/a//b$".toList, []) := by
  have hnames := pathToRegex_names t (namesColonFree_spec t ht)
  refine ⟨hnames, ?_, by decide⟩
  intro re hre
  rw [compile_pathToRegex_groupCount t re hre, hnames]

/-- Witness for C15: the template `/api/:version/users/:id?x=:/:last` has the names `version`,
`id` and `last`; the bare `':'` after `x=` gives none. -/
theorem marker_names_in_order_witness :
    namesColonFree "/api/:version/users/:id?x=:/:last".toList = true ∧
    (pathToRegex "/api/:version/users/:id?x=:/:last".toList []).2 =
      ["version".toList, "id".toList, "last".toList] := by
  have h := marker_names_in_order "/api/:version/users/:id?x=:/:last".toList (by decide)
  refine ⟨by decide, ?_⟩
  rw [h.1]
  decide

/-- C20: for every path template the names correspond one to one, in order, to the groups of
the pattern. The pattern is `^`, a sequence of pieces and `$`, where a piece is a character
written as it is (no `:` and no syntax character other than `?`), a syntax character with a
backslash in front, or the text `([^/]+)` written together with a non-empty name, and the names
are the names of the group pieces in order. So the number of names is the number of unescaped
`(` of the pattern, each of them opens `([^/]+)`, and a parenthesis of the template, being
written with a backslash, opens no group. A compiled pattern has as many groups, and a match as
many captures, as there are names. The name at index `i` was pushed together with the group at
index `i`: it is the text `name` of a marker `:name` of the template that is followed by a
delimiter or by the end; when the loop has read the template up to the end of that marker it
is inside a parameter with `currentParam = name`, the names it has pushed are the `i` names
before this one and the text it has written has `i` unescaped `(`; and the pattern goes on
right there with `([^/]+)`, whose `(` is unescaped. -/
theorem names_correspond_to_groups (t : Str) :
    (∃ toks : List Tok,
      (pathToRegex t []).1 = '^' :: (renderToks toks ++ "$".toList) ∧
      (∀ tok ∈ toks, tok.ok) ∧
      (pathToRegex t []).2 = toks.filterMap Tok.name) ∧
    unescapedParens false (pathToRegex t []).1 = (pathToRegex t []).2.length ∧
    (∀ re : Regex, Regex.compile (pathToRegex t []).1 = some re →
      groupCount re = (pathToRegex t []).2.length ∧
      ∀ (p : Str) (caps : List Str), regex_match p (some re) = some caps →
        caps.length = (pathToRegex t []).2.length) ∧
    (∀ (i : Nat) (name : Str), (pathToRegex t []).2[i]? = some name →
      ∃ tpre tpost ppost : Str,
        t = tpre ++ ':' :: (name ++ tpost) ∧
        (tpost = [] ∨ ∃ d rest, tpost = d :: rest ∧ isDelim d = true) ∧
        name ≠ [] ∧ (∀ c ∈ name, c ≠ ':' ∧ isDelim c = false) ∧
        (pathToRegexLoop (tpre ++ ':' :: name)).inParam = true ∧
        (pathToRegexLoop (tpre ++ ':' :: name)).currentParam = name ∧
        (pathToRegexLoop (tpre ++ ':' :: name)).paramNames = (pathToRegex t []).2.take i ∧
        (pathToRegex t []).1 =
          (pathToRegexLoop (tpre ++ ':' :: name)).regex ++ "([^/]+)".toList ++ ppost ∧
        unescapedParens false (pathToRegexLoop (tpre ++ ':' :: name)).regex = i ∧
        unescapedParens false
          ((pathToRegexLoop (tpre ++ ':' :: name)).regex ++ "([^/]+)".toList) = i + 1) := by
  obtain ⟨toks, hr, hoks, hn⟩ := pathToRegex_emittedAs t
  refine ⟨⟨toks, hr, hoks, hn⟩, ?_, ?_, ?_⟩
  · rw [hr, hn]
    have hcaret : ∀ s : Str, unescapedParens false ('^' :: s) = unescapedParens false s := by
      intro s
      simp [unescapedParens]
    rw [hcaret, unescapedParens_renderToks toks hoks]
    simp [unescapedParens]
  · intro re hre
    have hcount := compile_pathToRegex_groupCount t re hre
    refine ⟨hcount, ?_⟩
    intro p caps hm
    rw [← hcount]
    exact matchNodes_length re true p caps hm
  · intro i name hi
    obtain ⟨tpre, tpost, ppost, hread, hpost, hne, hok, hin, hcur, hpn, hregex, hc1, hc2⟩ :=
      pushedTogether_pathToRegex t i name hi
    refine ⟨tpre, tpost, ppost, hread, ?_, hne, hok, hin, hcur, hpn, hregex, hc1, hc2⟩
    rcases hpost with ⟨_, h⟩ | h
    · exact Or.inl h
    · exact Or.inr h

/-- Witness for C20: the template `/a(b)/:id/:x` has the literal parentheses escaped and two
groups, for the names `id` and `x`. The name at index 1 is `x`: when the loop has read
`/a(b)/:id/:x` to the end it has pushed `id` and written `^/a\(b\)/([^/]+)/`, a text with one
unescaped `(`, and the pattern goes on with the second `([^/]+)`. -/
theorem names_correspond_to_groups_witness :
    pathToRegex "/a(b)/:id/:x".toList [] =
      ("^/a\\(b\\)/([^/]+)/([^/]+)$".toList, ["id".toList, "x".toList]) ∧
    unescapedParens false (pathToRegex "/a(b)/:id/:x".toList []).1 = 2 ∧
    (pathToRegexLoop "/a(b)/:id/:x".toList).regex = "^/a\\(b\\)/([^/]+)/".toList ∧
    (pathToRegexLoop "/a(b)/:id/:x".toList).paramNames = ["id".toList] ∧
    (∃ tpre tpost ppost : Str,
      "/a(b)/:id/:x".toList = tpre ++ ':' :: ("x".toList ++ tpost) ∧
      (tpost = [] ∨ ∃ d rest, tpost = d :: rest ∧ isDelim d = true) ∧
      (pathToRegexLoop (tpre ++ ':' :: "x".toList)).currentParam = "x".toList ∧
      (pathToRegexLoop (tpre ++ ':' :: "x".toList)).paramNames =
        (pathToRegex "/a(b)/:id/:x".toList []).2.take 1 ∧
      (pathToRegex "/a(b)/:id/:x".toList []).1 =
        (pathToRegexLoop (tpre ++ ':' :: "x".toList)).regex ++ "([^/]+)".toList ++ ppost ∧
      unescapedParens false (pathToRegexLoop (tpre ++ ':' :: "x".toList)).regex = 1) := by
  have h := names_correspond_to_groups "/a(b)/:id/:x".toList
  refine ⟨by decide, ?_, by decide, by decide, ?_⟩
  · rw [h.2.1]
    decide
  · obtain ⟨tpre, tpost, ppost, hread, hpost, _, _, _, hcur, hpn, hregex, hc1, _⟩ :=
      h.2.2.2 1 "x".toList (by decide)
    exact ⟨tpre, tpost, ppost, hread, hpost, hcur, hpn, hregex, hc1⟩

/-! ## Claims about the pattern and the template -/

/-- C21: for every template `t` the pattern text that `pathToRegex` returns differs from `t`:
it holds no `:`, and for a template without `:` it is at least two characters longer. So for a
route built by `Route::Route` the test `pattern == path` of `matchPath` is true exactly when
the compilation of the pattern failed; such a route is matched by comparing the path with the
template, and a route whose pattern compiled is matched by its compiled pattern. -/
theorem pattern_differs_from_template {σ : Type} (method t : Str) (handler : Handler σ) :
    (pathToRegex t []).1 ≠ t ∧
    ':' ∉ (pathToRegex t []).1 ∧
    (':' ∉ t → t.length + 2 ≤ (pathToRegex t []).1.length) ∧
    ((Route.new method t handler).pattern = (Route.new method t handler).path ↔
      Regex.compile (pathToRegex t []).1 = none) ∧
    (Regex.compile (pathToRegex t []).1 = none →
      ∀ p : Str, matchPath p (Route.new method t handler) = decide (p = t)) ∧
    (∀ re : Regex, Regex.compile (pathToRegex t []).1 = some re →
      ∀ p : Str, matchPath p (Route.new method t handler) =
        (regex_match p (some re)).isSome) := by
  refine ⟨pattern_ne_template t, colon_not_mem_pattern t, pattern_length_literal t, ?_, ?_, ?_⟩
  · cases hc : Regex.compile (pathToRegex t []).1 with
    | none =>
      rw [route_new_of_failed method t handler hc]
      simp
    | some re =>
      rw [route_new_of_compiled method t handler re hc]
      simp only [reduceCtorEq, iff_false]
      exact pattern_ne_template t
  · intro hc p
    rw [route_new_of_failed method t handler hc]
    simp [matchPath]
  · intro re hc p
    rw [route_new_of_compiled method t handler re hc]
    unfold matchPath
    rw [if_neg (pattern_ne_template t)]

/-- Witness for C21: the pattern of `/a.b` is three characters longer than the template; the
template `:?:x`, whose pattern `^?([^/]+)$` does not compile, is matched as a literal; and
`/:id`, whose pattern compiles, is matched by the pattern. -/
theorem pattern_differs_from_template_witness :
    "/a.b".toList.length + 2 ≤ (pathToRegex "/a.b".toList []).1.length ∧
    (pathToRegex "/a.b".toList []).1 = "^/a\\.b$".toList ∧
    matchPath ":?:x".toList (Route.new "GET".toList ":?:x".toList noop) = true ∧
    matchPath "/7".toList (Route.new "GET".toList ":?:x".toList noop) = false ∧
    matchPath "/7".toList (Route.new "GET".toList "/:id".toList noop) = true ∧
    matchPath "/:id".toList (Route.new "GET".toList "/:id".toList noop) = true := by
  have hlit := (pattern_differs_from_template "GET".toList "/a.b".toList noop).2.2.1
    (by decide)
  have hfail := (pattern_differs_from_template "GET".toList ":?:x".toList noop).2.2.2.2.1
    (by decide)
  have hcomp := (pattern_differs_from_template "GET".toList "/:id".toList noop).2.2.2.2.2
    [Node.bol, Node.chr '/' Quant.one, Node.grp Quant.one, Node.eol] (by decide)
  refine ⟨hlit, by decide, ?_, ?_, ?_, ?_⟩
  · rw [hfail]
    decide
  · rw [hfail]
    decide
  · rw [hcomp]
    decide
  · rw [hcomp]
    decide

/-! ## Claims about the frame of a call of `route` -/

/-- C22: a call of `Router::route` leaves the route table as it was, whatever it returns. It
returns `false` exactly when no route of the table has the method of the call and a matcher
that accepts the path, and then the request (with its `params`), the response (status code,
headers, body) and the state the handlers act on are the ones from before the call. A handler
acts on the request, the response and that state; the route table is not among them. -/
theorem route_false_is_a_no_op {σ : Type} (self : Router σ) (method path : Str)
    (request : HttpRequest) (response : HttpResponse) (w : σ) :
    (self.route method path request response w).1 = self ∧
    ((self.route method path request response w).2.returned = some false ↔
      ∀ r ∈ self.routes_, ¬(r.method = method ∧ matchPath path r = true)) ∧
    ((self.route method path request response w).2.returned = some false →
      (self.route method path request response w).2.request = request ∧
      (self.route method path request response w).2.response = response ∧
      (self.route method path request response w).2.world = w) := by
  have hfwd := routeLoop_returned_false self.routes_ method path request response w
  refine ⟨rfl, ⟨hfwd, ?_⟩, ?_⟩
  · intro hno
    unfold Router.route
    rw [routeLoop_of_no_match self.routes_ method path request response w hno]
  · intro h
    unfold Router.route at h ⊢
    rw [routeLoop_of_no_match self.routes_ method path request response w (hfwd h)]
    exact ⟨rfl, rfl, rfl⟩

/-- Witness for C22: `POST /users/7` against a table with `GET /users/:id` only (the path
matches, the method does not), with a request that already has a parameter and a response
that already has status 201 and a body. -/
theorem route_false_is_a_no_op_witness :
    ((Router.new.addRoute "GET".toList "/users/:id".toList (logCall 1)).route
        "POST".toList "/users/7".toList
        { HttpRequest.empty with params := [("id".toList, "old".toList)] }
        ((HttpResponse.new.status 201).text "kept".toList) [5]).2 =
      { returned := some false
        request := { HttpRequest.empty with params := [("id".toList, "old".toList)] }
        response := (HttpResponse.new.status 201).text "kept".toList
        world := [5] } := by
  have h := route_false_is_a_no_op
    (Router.new.addRoute "GET".toList "/users/:id".toList (logCall 1))
    "POST".toList "/users/7".toList
    { HttpRequest.empty with params := [("id".toList, "old".toList)] }
    ((HttpResponse.new.status 201).text "kept".toList) ([5] : List Nat)
  have hno : ∀ r ∈ (Router.new.addRoute "GET".toList "/users/:id".toList (logCall 1)).routes_,
      ¬(r.method = "POST".toList ∧ matchPath "/users/7".toList r = true) := by
    intro r hr
    have hr' : r = Route.new "GET".toList "/users/:id".toList (logCall 1) := by
      simpa [Router.addRoute, Router.new] using hr
    subst hr'
    decide
  have hfalse := h.2.1.2 hno
  obtain ⟨h1, h2, h3⟩ := h.2.2 hfalse
  cases hres : ((Router.new.addRoute "GET".toList "/users/:id".toList (logCall 1)).route
        "POST".toList "/users/7".toList
        { HttpRequest.empty with params := [("id".toList, "old".toList)] }
        ((HttpResponse.new.status 201).text "kept".toList) [5]).2 with
  | mk returned request response world =>
    rw [hres] at hfalse h1 h2 h3
    simp only at hfalse h1 h2 h3
    rw [hfalse, h1, h2, h3]

/-! ## Claims about percent-encoding -/

/-- C23: `urlDecode` undoes `urlEncode` on byte strings. For a string `s` of bytes,
`urlEncode s` is the concatenation of the encodings of its bytes, where an ASCII letter, a
digit and each of `-` `_` `.` `~` is kept and any other byte is written as `%` followed by
the two lower-case hexadecimal digits of its value; and `urlDecode (urlEncode s) = s`. -/
theorem urlDecode_undoes_urlEncode (s : Str) (hs : ∀ c ∈ s, c.toNat < 256) :
    Utils.urlEncode s = s.flatMap specEncodeByte ∧
    Utils.urlDecode (Utils.urlEncode s) = s := by
  induction s with
  | nil => exact ⟨rfl, rfl⟩
  | cons c cs ih =>
    have hc := hs c (List.mem_cons_self c cs)
    obtain ⟨ih1, ih2⟩ := ih (fun d hd => hs d (List.mem_cons_of_mem c hd))
    constructor
    · rw [urlEncode_cons, urlEncodeStep_eq_spec c hc, ih1, List.flatMap_cons]
    · rw [urlEncode_cons, urlDecode_urlEncodeStep c hc, ih2]

/-- Witness for C23: a string with kept characters, a space, `+`, `%`, `/`, a NUL byte, a line
feed and the bytes 233 and 255. -/
theorem urlDecode_undoes_urlEncode_witness :
    Utils.urlEncode "aZ9-_.~ +%/\x00\n\xe9\xff".toList =
      "aZ9-_.~%20%2b%25%2f%00%0a%e9%ff".toList ∧
    Utils.urlDecode "aZ9-_.~%20%2b%25%2f%00%0a%e9%ff".toList =
      "aZ9-_.~ +%/\x00\n\xe9\xff".toList := by
  have h := urlDecode_undoes_urlEncode "aZ9-_.~ +%/\x00\n\xe9\xff".toList (by decide)
  have henc : Utils.urlEncode "aZ9-_.~ +%/\x00\n\xe9\xff".toList =
      "aZ9-_.~%20%2b%25%2f%00%0a%e9%ff".toList := by
    rw [h.1]
    decide
  refine ⟨henc, ?_⟩
  rw [← henc]
  exact h.2

end Qiushui
